import Mathlib

/-!
Verification development for the riverrun poker evaluation core.

This file gives a shallow embedding, in Lean, of the Rust sources under
`src/core/domain` (card codec, combinatorics utilities, Cactus-Kev hand rank
tables, the 5/7-card evaluators, and the two equity calculators), followed by
theorems settling the specification claims.

Modelling conventions:
* `u32`/`u16`/`u64` values are modelled as `Nat`.  All arithmetic performed by
  the embedded code stays far below `2^32` (the largest prime product is
  `41^4 * 37 < 2^27`), so plain `Nat` arithmetic agrees with the wrapping Rust
  arithmetic everywhere it is used; the one place where wrapping matters — the
  64-bit linear congruential generator in the Monte-Carlo simulator — is
  modelled with an explicit `% 2^64`.
* Rust panics (`unwrap`, table-lookup misses, …) are modelled by `Option`:
  a function returns `none` exactly when the Rust original would panic.
* Imperative loops are modelled by structural recursion / folds over the same
  index ranges the loops traverse, in the same order.
-/

/-! ## Combinatorics utilities (src/core/domain/services/utils/combinatorics.rs) -/

/-- Embeds `FIVE_FROM_SEVEN`: the fixed table of all 21 ways to choose 5 of 7
card indices, in the exact order of the Rust constant. -/
def FIVE_FROM_SEVEN : List (ℕ × ℕ × ℕ × ℕ × ℕ) :=
  [ (0, 1, 2, 3, 4), (0, 1, 2, 3, 5), (0, 1, 2, 3, 6), (0, 1, 2, 4, 5),
    (0, 1, 2, 4, 6), (0, 1, 2, 5, 6), (0, 1, 3, 4, 5), (0, 1, 3, 4, 6),
    (0, 1, 3, 5, 6), (0, 1, 4, 5, 6), (0, 2, 3, 4, 5), (0, 2, 3, 4, 6),
    (0, 2, 3, 5, 6), (0, 2, 4, 5, 6), (0, 3, 4, 5, 6), (1, 2, 3, 4, 5),
    (1, 2, 3, 4, 6), (1, 2, 3, 5, 6), (1, 2, 4, 5, 6), (1, 3, 4, 5, 6),
    (2, 3, 4, 5, 6) ]

/-- Embeds `binomial(n, k)`: the iterative product formula
`res = res * (n - i) / (i + 1)` over `i in 0..min k (n-k)`, returning 0 when
`k > n`. -/
def rustBinomial (n k : ℕ) : ℕ :=
  if k > n then 0
  else (List.range (min k (n - k))).foldl (fun res i => res * (n - i) / (i + 1)) 1

/-- Forces a natural number to a literal before passing it on (an evaluation
device: Lean's call-by-name reduction would otherwise accumulate unreduced
`+ 1` towers in accumulator arguments; semantically `withNat n f = f n`). -/
def withNat {α : Type} (n : ℕ) (f : ℕ → α) : α :=
  match n with
  | 0 => f 0
  | m + 1 => f (m + 1)

/-- Tail-recursive reverse-append (`List.reverseAux`; restated here so the
sorting machinery below is self-contained). -/
def revApp {α : Type} : List α → List α → List α
  | [], acc => acc
  | a :: rest, acc => revApp rest (a :: acc)

/-- Fully materializes a list of naturals (forces every element and cell; an
evaluation device like `withNat`, semantically the identity — see
`forceNats_eq`). -/
def forceNats : List ℕ → List ℕ → List ℕ
  | [], acc => revApp acc []
  | a :: rest, acc => withNat a (fun b => forceNats rest (b :: acc))

/-- Embeds one pass of the loop body of `combinations(n, k)`: find the
rightmost index `i` with `indices[i] != i + n - k` (the Rust `while` scans
`i = k-1, k-2, …, 0` and stops at the first such index); if none exists the
iteration is over (`none`); otherwise increment `indices[i]` and reset every
following position to one more than its predecessor, which turns positions
`i..k-1` into `indices[i]+1, indices[i]+2, …` (the `forceNats` wrapper only
materializes the new index vector). -/
def combStep (n k : ℕ) (c : List ℕ) : Option (List ℕ) :=
  match (List.range k).reverse.find? (fun i => decide (c.getD i 0 ≠ i + n - k)) with
  | none => none
  | some i => some (forceNats (c.take i ++ List.range' (c.getD i 0 + 1) (k - i)) [])

/-- Embeds the outer `loop` of `combinations(n, k)`: push the current index
vector, then step; `fuel` bounds the number of pushes (the Rust loop needs no
fuel; `combRun_lexCombos` below shows the loop performs exactly `C(n,k)`
pushes, so the fuel used by `combinations` is never exhausted). -/
def combRunF (n k : ℕ) : ℕ → List ℕ → List (List ℕ)
  | 0, _ => []
  | fuel + 1, c =>
    c :: (match combStep n k c with
          | none => []
          | some c2 => combRunF n k fuel c2)

/-- Embeds `combinations(n, k)`: all k-sized combinations of indices
`0..n-1`; empty when `k > n`, a single empty combination when `k = 0`,
otherwise the revolving-door loop started from `[0, 1, …, k-1]`. -/
def combinations (n k : ℕ) : List (List ℕ) :=
  if k > n then []
  else if k = 0 then [[]]
  else combRunF n k (Nat.choose n k) (List.range k)

/-- Tail-recursive list length (evaluates in bounded kernel stack, unlike
`List.length`; `myLength_eq` below identifies the two). -/
def myLenAux {α : Type} : List α → ℕ → ℕ
  | [], acc => acc
  | _ :: rest, acc => withNat (acc + 1) (myLenAux rest)

/-- Tail-recursive list length. -/
def myLength {α : Type} (l : List α) : ℕ := myLenAux l 0

/-- Computable check that a list has exactly the given length (streams in
bounded stack; `lenChk_iff` below relates it to `List.length`). -/
def lenChk {α : Type} : List α → ℕ → Bool
  | [], 0 => true
  | [], _ + 1 => false
  | _ :: _, 0 => false
  | _ :: rest, n + 1 => lenChk rest n

/-- Computable check that a list of naturals is exactly the consecutive run
`start, start+1, …` of its own length (used to verify the strength ranges
assigned by the table generators; `consecFrom_iff_range'` below relates it
to `List.range'`). -/
def consecFrom : List ℕ → ℕ → Bool
  | [], _ => true
  | a :: rest, n => decide (a = n) && withNat (n + 1) (consecFrom rest)

/-- Computable check that a list of naturals is strictly ascending (used to
verify, by evaluation, that generated table keys are sorted and pairwise
distinct). -/
def ascChk : List ℕ → Bool
  | a :: b :: rest => decide (a < b) && ascChk (b :: rest)
  | _ => true

/-- Computable check that every entry of a list of naturals is below a bound
(used to verify that all flush-table indices fit the 8192-entry table). -/
def boundChk : List ℕ → ℕ → Bool
  | [], _ => true
  | a :: rest, b => decide (a < b) && boundChk rest b

/-- Reference merge of two lists under `le`, with fuel (fuel at least the
sum of the lengths makes the first arm dead); used to state and prove the
properties of the tail-recursive `mergeAcc`. -/
def mergeSpec {α : Type} (le : α → α → Bool) : ℕ → List α → List α → List α
  | 0, l1, l2 => l1 ++ l2
  | _ + 1, [], l2 => l2
  | _ + 1, a :: as_, [] => a :: as_
  | fuel + 1, a :: as_, b :: bs =>
    if le a b then a :: mergeSpec le fuel as_ (b :: bs)
    else b :: mergeSpec le fuel (a :: as_) bs

/-- Tail-recursive, fully materializing merge under `le` (accumulator holds
the already-merged prefix in reverse). -/
def mergeAcc {α : Type} (le : α → α → Bool) : ℕ → List α → List α → List α → List α
  | 0, l1, l2, acc => revApp acc (l1 ++ l2)
  | _ + 1, [], l2, acc => revApp acc l2
  | _ + 1, a :: as_, [], acc => revApp acc (a :: as_)
  | fuel + 1, a :: as_, b :: bs, acc =>
    if le a b then mergeAcc le fuel as_ (b :: bs) (a :: acc)
    else mergeAcc le fuel (a :: as_) bs (b :: acc)

/-- Initial singleton runs of the bottom-up merge sort (order of the runs is
irrelevant to the sorted result). -/
def initRuns {α : Type} : List α → List (List α) → List (List α)
  | [], acc => acc
  | a :: rest, acc => initRuns rest ([a] :: acc)

/-- One pass of the bottom-up merge sort: merge adjacent runs pairwise. -/
def mergeRuns {α : Type} (le : α → α → Bool) (bigFuel : ℕ) :
    ℕ → List (List α) → List (List α) → List (List α)
  | 0, ls, acc => revApp acc ls
  | _ + 1, [], acc => acc
  | _ + 1, [l], acc => l :: acc
  | fuel + 1, l1 :: l2 :: rest, acc =>
    mergeRuns le bigFuel fuel rest (mergeAcc le bigFuel l1 l2 [] :: acc)

/-- Repeat merge passes until a single run remains (fuel at least the number
of runs suffices). -/
def mergePasses {α : Type} (le : α → α → Bool) (bigFuel : ℕ) :
    ℕ → List (List α) → List α
  | 0, runs => runs.flatten
  | fuel + 1, runs =>
    match runs with
    | [] => []
    | [l] => l
    | l1 :: l2 :: rest => mergePasses le bigFuel fuel (mergeRuns le bigFuel (myLength runs) (l1 :: l2 :: rest) [])

/-- Models the Rust sorts (`sort_by`, `sort_by_key`, `sort_unstable`): a
bottom-up merge sort under the Boolean preorder `le`, written with
tail-recursive, fully materializing passes so that it evaluates inside the
kernel.  Every list sorted in this development either has pairwise distinct
elements under a total `le` or is a list of naturals sorted by `≤`, so the
sorted result is the unique `le`-sorted permutation and agrees with the Rust
sort regardless of stability or merge order. -/
def msort {α : Type} (le : α → α → Bool) (l : List α) : List α :=
  mergePasses le (myLength l) (myLength l) (initRuns l [])

/-- Embeds the `windows(2).all(|w| w[1] == w[0] + 1)` check on a sorted rank
list: every adjacent pair increases by exactly one. -/
def consecChk : List ℕ → Bool
  | a :: b :: rest => decide (b = a + 1) && consecChk (b :: rest)
  | _ => true

/-- Embeds `is_straight_pattern(ranks)`: exactly five ranks that, once
sorted, are either the wheel `[0,1,2,3,12]` or five consecutive values. -/
def isStraightPattern (ranks : List ℕ) : Bool :=
  if ranks.length ≠ 5 then false
  else
    let sorted := msort (fun a b => decide (a ≤ b)) ranks
    if sorted = [0, 1, 2, 3, 12] then true else consecChk sorted

/-- Reference enumeration used to verify the `combinations` loop: all
k-element ascending subsets of `{0..n-1}` in lexicographic order, by the
recurrence "first the subsets containing 0, then the shifted subsets of
`{1..n-1}`". -/
def lexCombos : ℕ → ℕ → List (List ℕ)
  | _, 0 => [[]]
  | 0, _ + 1 => []
  | n + 1, k + 1 =>
      (lexCombos n k).map (fun t => 0 :: t.map (· + 1))
        ++ (lexCombos n (k + 1)).map (List.map (· + 1))

/-- Run relation for the `combinations` loop: `RunsTo n k c L` says that the
loop started at index vector `c` pushes exactly the vectors of `L` (the first
being `c`) and then stops. -/
inductive RunsTo (n k : ℕ) : List ℕ → List (List ℕ) → Prop where
  | last (c : List ℕ) (h : combStep n k c = none) : RunsTo n k c [c]
  | step (c c2 : List ℕ) (L : List (List ℕ)) (h : combStep n k c = some c2)
      (ih : RunsTo n k c2 L) : RunsTo n k c (c :: L)

/-! ## Card codec (src/core/domain/entities/card.rs) -/

/-- Embeds the `PRIMES` constant: one prime per rank, Two through Ace. -/
def PRIMES : List ℕ := [2, 3, 5, 7, 11, 13, 17, 19, 23, 29, 31, 37, 41]

/-- Prime for a rank index (array access `PRIMES[r]`; rank indices are always
below 13 wherever this is used). -/
def primeOf (r : ℕ) : ℕ := PRIMES.getD r 0

/-- Embeds `Card::new(rank, suit)`: prime in bits 0-7, rank nibble in bits
8-11, one-hot suit bit in bits 12-15, one-hot rank bit in bits 16-28. -/
def cardNew (r s : ℕ) : ℕ :=
  primeOf r ||| (r <<< 8) ||| (1 <<< (12 + s)) ||| (1 <<< (16 + r))

/-- Embeds `Card::prime()` (`self.0 & 0xFF`). -/
def cardPrime (c : ℕ) : ℕ := c &&& 0xFF

/-- Embeds `Card::rank()` (`(self.0 >> 8) & 0xF`). -/
def cardRank (c : ℕ) : ℕ := (c >>> 8) &&& 0xF

/-- Embeds `Card::suit_bits()` (`(self.0 >> 12) & 0xF`). -/
def cardSuitBits (c : ℕ) : ℕ := (c >>> 12) &&& 0xF

/-- Embeds `Card::rank_bits()` (`self.0 >> 16`). -/
def cardRankBits (c : ℕ) : ℕ := c >>> 16

/-- Helper for `u32::trailing_zeros`: count of trailing zero bits with fuel
32, so that `trailingZeros32 0 = 32` exactly as for `u32`. -/
def tzAux : ℕ → ℕ → ℕ
  | 0, _ => 0
  | fuel + 1, x => if x % 2 = 1 then 0 else 1 + tzAux fuel (x / 2)

/-- Embeds `u32::trailing_zeros` on the 4-bit suit mask. -/
def trailingZeros32 (x : ℕ) : ℕ := tzAux 32 x

/-- Embeds `Card::suit()` (`self.suit_bits().trailing_zeros()`). -/
def cardSuit (c : ℕ) : ℕ := trailingZeros32 (cardSuitBits c)

/-- Embeds `Card::index()` (`rank * 4 + suit`). -/
def cardIndex (c : ℕ) : ℕ := cardRank c * 4 + cardSuit c

/-- Embeds `Card::from_index(index)`: `None` for `index >= 52`, otherwise the
card with rank `index / 4` and suit `index % 4` (the `Rank::from_u8` /
`Suit::from_u8` range checks are the two inner guards). -/
def fromIndex (i : ℕ) : Option ℕ :=
  if 52 ≤ i then none
  else
    (if i / 4 < 13 then some (i / 4) else none).bind fun r =>
      (if i % 4 < 4 then some (i % 4) else none).bind fun s =>
        some (cardNew r s)

/-- Embeds `Card::all_cards()`: the 52 cards `from_index 0 .. from_index 51`
(in the source, `unwrap` never fires; `filterMap` simply drops the impossible
`none`). -/
def allCards : List ℕ := (List.range 52).filterMap fromIndex

/-! ## Hand rank tables (src/core/domain/services/evaluation/hand_rank_tables.rs)

The Rust constructor threads a mutable `current_rank` through the generator
functions, inserting `(key, rank)` pairs — rank-bit indexed writes for the
flush table, prime-product keyed `HashMap` inserts for the rest — and finally
collects the `HashMap` into a vector sorted by key.  Each generator below is
split into its pattern enumeration (in exact loop order) and the key each
pattern inserts; `assignRanks` reproduces the rank threading (one consecutive
rank per emitted entry).  `HashMap::insert` overwrites on a duplicate key,
but the inserted prime-product keys are pairwise distinct
(`unique5Raw_keys_nodup` below), so collecting the map and sorting by key
yields exactly the insertion list sorted by key. -/

/-- Worst possible hand rank (`WORST_RANK`). -/
def WORST_RANK : ℕ := 7462

/-- Embeds the ten straight-flush rank-bit patterns, A-high down to the
wheel, in source order. -/
def sfPatterns : List ℕ :=
  [ 0b1111100000000, 0b0111110000000, 0b0011111000000, 0b0001111100000,
    0b0000111110000, 0b0000011111000, 0b0000001111100, 0b0000000111110,
    0b0000000011111, 0b1000000001111 ]

/-- Embeds the Rust slice comparison `a.cmp(b)` on rank lists
(lexicographic, shorter-prefix first). -/
def lexCmpN : List ℕ → List ℕ → Ordering
  | [], [] => .eq
  | [], _ :: _ => .lt
  | _ :: _, [] => .gt
  | a :: as_, b :: bs =>
    match compare a b with
    | .eq => lexCmpN as_ bs
    | o => o

/-- Ordering function for the `sort_by(|a, b| b_rev.cmp(&a_rev))` calls in the
table generators: `a` may precede `b` unless the comparator says `Greater`.
All sorted lists are pairwise distinct, so this total preorder determines the
result of Rust's stable sort uniquely. -/
def descRevLe (a b : List ℕ) : Bool :=
  match lexCmpN b.reverse a.reverse with
  | .gt => false
  | _ => true

/-- Sorts combinations by descending reversed-list comparison, as every table
generator does before iterating. -/
def sortByRevDesc (l : List (List ℕ)) : List (List ℕ) := msort descRevLe l

/-- Embeds the rank-bit index computed by `generate_flushes` /
`generate_straight_flushes` readers: OR of `1 << (r + 16)` over the combo,
shifted back down by 16. -/
def flushIdxOf (combo : List ℕ) : ℕ :=
  (combo.foldl (fun bits r => bits ||| (1 <<< (r + 16))) 0) >>> 16

/-- The non-straight flush combos iterated by `generate_flushes` (and, with
prime-product keys, by `generate_high_card`), in loop order. -/
def flushCombos : List (List ℕ) :=
  (sortByRevDesc (combinations 13 5)).filter (fun c => !(isStraightPattern c))

/-- Flush-table indices written by `generate_flushes`, in loop order. -/
def flushKeys : List ℕ := flushCombos.map flushIdxOf

/-- The (quad rank, kicker) pairs iterated by `generate_four_of_kind`:
`quad_rank` descending, kicker descending, kicker ≠ quad rank. -/
def quadPairs : List (ℕ × ℕ) :=
  (List.range 13).reverse.flatMap fun q =>
    ((List.range 13).reverse.filter (fun k => decide (k ≠ q))).map fun k => (q, k)

/-- Prime-product keys inserted by `generate_four_of_kind`
(`quad_prime^4 * PRIMES[kicker]`). -/
def quadKeys : List ℕ := quadPairs.map fun p => primeOf p.1 ^ 4 * primeOf p.2

/-- The (trips rank, pair rank) pairs iterated by `generate_full_houses`. -/
def fhPairs : List (ℕ × ℕ) :=
  (List.range 13).reverse.flatMap fun t =>
    ((List.range 13).reverse.filter (fun p => decide (p ≠ t))).map fun p => (t, p)

/-- Prime-product keys inserted by `generate_full_houses`
(`trips_prime^3 * PRIMES[pair]^2`). -/
def fhKeys : List ℕ := fhPairs.map fun p => primeOf p.1 ^ 3 * primeOf p.2 ^ 2

/-- The ten straight rank patterns of `generate_straights`, in source order
(A-high down to the wheel). -/
def straightPatterns : List (List ℕ) :=
  [ [12, 11, 10, 9, 8], [11, 10, 9, 8, 7], [10, 9, 8, 7, 6], [9, 8, 7, 6, 5],
    [8, 7, 6, 5, 4], [7, 6, 5, 4, 3], [6, 5, 4, 3, 2], [5, 4, 3, 2, 1],
    [4, 3, 2, 1, 0], [12, 3, 2, 1, 0] ]

/-- Prime-product keys inserted by `generate_straights`. -/
def straightKeys : List ℕ := straightPatterns.map fun p => (p.map primeOf).prod

/-- The (trips rank, kicker pair) combinations iterated by
`generate_three_of_kind`: trips rank descending; kicker pairs are
`combinations(13, 2)` sorted by descending reversed comparison, skipping
pairs containing the trips rank. -/
def tripsPatterns : List (ℕ × List ℕ) :=
  (List.range 13).reverse.flatMap fun t =>
    ((sortByRevDesc (combinations 13 2)).filter
        (fun ks => !(ks.contains t))).map fun ks => (t, ks)

/-- Prime-product keys inserted by `generate_three_of_kind`
(`trips_prime^3 * PRIMES[kickers[0]] * PRIMES[kickers[1]]`). -/
def tripsKeys : List ℕ :=
  tripsPatterns.map fun p => primeOf p.1 ^ 3 * primeOf (p.2.getD 0 0) * primeOf (p.2.getD 1 0)

/-- The (pair combo, kicker) patterns iterated by `generate_two_pair`: pair
combos are `combinations(13, 2)` sorted by descending reversed comparison;
kicker descending, skipping the two pair ranks. -/
def twoPairPatterns : List (List ℕ × ℕ) :=
  (sortByRevDesc (combinations 13 2)).flatMap fun pr =>
    ((List.range 13).reverse.filter
        (fun k => decide (k ≠ max (pr.getD 0 0) (pr.getD 1 0)) &&
                  decide (k ≠ min (pr.getD 0 0) (pr.getD 1 0)))).map fun k => (pr, k)

/-- Prime-product keys inserted by `generate_two_pair`
(`PRIMES[high]^2 * PRIMES[low]^2 * PRIMES[kicker]`). -/
def twoPairKeys : List ℕ :=
  twoPairPatterns.map fun p =>
    primeOf (max (p.1.getD 0 0) (p.1.getD 1 0)) ^ 2 *
      primeOf (min (p.1.getD 0 0) (p.1.getD 1 0)) ^ 2 * primeOf p.2

/-- The (pair rank, kicker triple) patterns iterated by `generate_one_pair`:
pair rank descending; kicker triples are `combinations(13, 3)` sorted by
descending reversed comparison, skipping triples containing the pair rank. -/
def onePairPatterns : List (ℕ × List ℕ) :=
  (List.range 13).reverse.flatMap fun p =>
    ((sortByRevDesc (combinations 13 3)).filter
        (fun ks => !(ks.contains p))).map fun ks => (p, ks)

/-- Prime-product keys inserted by `generate_one_pair`
(`pair_prime^2 * PRIMES[k0] * PRIMES[k1] * PRIMES[k2]`). -/
def onePairKeys : List ℕ :=
  onePairPatterns.map fun p =>
    primeOf p.1 ^ 2 * primeOf (p.2.getD 0 0) * primeOf (p.2.getD 1 0) *
      primeOf (p.2.getD 2 0)

/-- Prime-product keys inserted by `generate_high_card`: the same
non-straight sorted combos as `generate_flushes`, keyed by prime product. -/
def highKeys : List ℕ := flushCombos.map fun c => (c.map primeOf).prod

/-- Threads `current_rank` through a generator: each emitted key receives the
next consecutive rank, exactly as `rank += 1` does per insert. -/
def assignRanks (start : ℕ) : List ℕ → List (ℕ × ℕ)
  | [] => []
  | k :: ks =>
    withNat k (fun k2 => (k2, start) :: withNat (start + 1) (fun s => assignRanks s ks))

/-- Value of `current_rank` when `generate_four_of_kind` starts (after the
straight flushes). -/
def quadStart : ℕ := 1 + sfPatterns.length

/-- Value of `current_rank` when `generate_full_houses` starts. -/
def fhStart : ℕ := quadStart + quadKeys.length

/-- Value of `current_rank` when `generate_flushes` starts. -/
def flushStart : ℕ := fhStart + fhKeys.length

/-- Value of `current_rank` when `generate_straights` starts. -/
def straightStart : ℕ := flushStart + flushKeys.length

/-- Value of `current_rank` when `generate_three_of_kind` starts. -/
def tripsStart : ℕ := straightStart + straightKeys.length

/-- Value of `current_rank` when `generate_two_pair` starts. -/
def twoPairStart : ℕ := tripsStart + tripsKeys.length

/-- Value of `current_rank` when `generate_one_pair` starts. -/
def onePairStart : ℕ := twoPairStart + twoPairKeys.length

/-- Value of `current_rank` when `generate_high_card` starts. -/
def highStart : ℕ := onePairStart + onePairKeys.length

/-- All (rank-bit index, rank) assignments written into the 8192-entry flush
table, in write order: straight flushes first, then non-straight flushes. -/
def flushAssign : List (ℕ × ℕ) :=
  assignRanks 1 sfPatterns ++ assignRanks flushStart flushKeys

/-- All (prime product, rank) pairs inserted into the `unique5` map, in
insertion order. -/
def unique5Raw : List (ℕ × ℕ) :=
  assignRanks quadStart quadKeys ++ assignRanks fhStart fhKeys ++
    assignRanks straightStart straightKeys ++ assignRanks tripsStart tripsKeys ++
    assignRanks twoPairStart twoPairKeys ++ assignRanks onePairStart onePairKeys ++
    assignRanks highStart highKeys

/-- Embeds the final `unique5` vector: the map contents sorted by prime
product (`sort_by_key`).  The keys are pairwise distinct, so the `HashMap`
holds exactly the pairs of `unique5Raw` and the sort is unambiguous. -/
def unique5 : List (ℕ × ℕ) := msort (fun p q => decide (p.1 ≤ q.1)) unique5Raw

/-- Embeds `HandRankTables::lookup_flush` over the flush table built by the
writes of `flushAssign` into a `WORST_RANK`-initialised 8192-entry vector:
the value at `bits` is the last write to that index, or `WORST_RANK` when the
index was never written (the indices written are pairwise distinct). -/
def lookupFlush (bits : ℕ) : ℕ :=
  match flushAssign.reverse.find? (fun kv => decide (kv.1 = bits)) with
  | some kv => kv.2
  | none => WORST_RANK

/-- Embeds the slice `binary_search_by_key` on the window `[lo, hi)` of the
sorted `unique5` vector; the fuel (always instantiated with `length + 1`)
dominates the number of halvings. -/
def bsearchGo (l : List (ℕ × ℕ)) (key : ℕ) : ℕ → ℕ → ℕ → Option ℕ
  | 0, _, _ => none
  | fuel + 1, lo, hi =>
    if lo < hi then
      let mid := (lo + hi) / 2
      match compare (l.getD mid (0, 0)).1 key with
      | .lt => bsearchGo l key fuel (mid + 1) hi
      | .eq => some (l.getD mid (0, 0)).2
      | .gt => bsearchGo l key fuel lo mid
    else none

/-- Embeds `HandRankTables::lookup_unique(prime_product)`: binary search of
the sorted `unique5` vector, `none` on a miss. -/
def lookupUnique (key : ℕ) : Option ℕ :=
  bsearchGo unique5 key (myLength unique5 + 1) 0 (myLength unique5)

/-! ## Hand evaluator (src/core/domain/services/evaluation/cactus_kev.rs and
src/core/domain/entities/hand.rs) -/

/-- Embeds `evaluate_5cards_fast`: AND the five raw card values with the suit
field `0xF000`; non-zero means flush (O(1) rank-bit lookup), otherwise binary
search on the product of the five primes.  `none` models the panic on a
missing prime product. -/
def e5fast (c0 c1 c2 c3 c4 : ℕ) : Option ℕ :=
  if c0 &&& c1 &&& c2 &&& c3 &&& c4 &&& 0xF000 ≠ 0 then
    some (lookupFlush (cardRankBits c0 ||| cardRankBits c1 ||| cardRankBits c2 |||
      cardRankBits c3 ||| cardRankBits c4))
  else
    lookupUnique (cardPrime c0 * cardPrime c1 * cardPrime c2 * cardPrime c3 *
      cardPrime c4)

/-- Selects the five cards of a seven-card array picked out by one
`FIVE_FROM_SEVEN` entry (`cards[combo[0]] …  cards[combo[4]]`). -/
def sel5 (cs : List ℕ) (q : ℕ × ℕ × ℕ × ℕ × ℕ) : List ℕ :=
  [cs.getD q.1 0, cs.getD q.2.1 0, cs.getD q.2.2.1 0, cs.getD q.2.2.2.1 0,
   cs.getD q.2.2.2.2 0]

/-- Applies `evaluate_5cards_fast` to a five-card list (the list always has
exactly five entries where this is used; the catch-all arm is dead code
mirroring nothing in the source). -/
def e5list : List ℕ → Option ℕ
  | [a, b, c, d, e] => e5fast a b c d e
  | _ => none

/-- Embeds the loop of `evaluate_7cards_fast`: try each subset, early-return
on rank 1, otherwise keep the minimum; `best` starts at `u16::MAX`. -/
def e7fastAux (cs : List ℕ) : List (ℕ × ℕ × ℕ × ℕ × ℕ) → ℕ → Option ℕ
  | [], best => some best
  | q :: rest, best =>
    match e5list (sel5 cs q) with
    | none => none
    | some r =>
      if r = 1 then some 1
      else e7fastAux cs rest (if r < best then r else best)

/-- Embeds `evaluate_7cards_fast`. -/
def e7fast (cs : List ℕ) : Option ℕ := e7fastAux cs FIVE_FROM_SEVEN 65535

/-- Embeds the `HandRank` category enum. -/
inductive HandRank where
  | HighCard | OnePair | TwoPair | ThreeOfAKind | Straight
  | Flush | FullHouse | FourOfAKind | StraightFlush
  deriving DecidableEq

/-- Embeds `HandRank::from_strength`: the fixed strength ranges, with
everything outside `1..=6185` falling to `HighCard` via the wildcard arm. -/
def rankFromStrength (s : ℕ) : HandRank :=
  if 1 ≤ s ∧ s ≤ 10 then .StraightFlush
  else if 11 ≤ s ∧ s ≤ 166 then .FourOfAKind
  else if 167 ≤ s ∧ s ≤ 322 then .FullHouse
  else if 323 ≤ s ∧ s ≤ 1599 then .Flush
  else if 1600 ≤ s ∧ s ≤ 1609 then .Straight
  else if 1610 ≤ s ∧ s ≤ 2467 then .ThreeOfAKind
  else if 2468 ≤ s ∧ s ≤ 3325 then .TwoPair
  else if 3326 ≤ s ∧ s ≤ 6185 then .OnePair
  else .HighCard

/-- Embeds the `Hand` entity: five cards, the derived category, and the
numeric strength. -/
structure Hand where
  cards : List ℕ
  rank : HandRank
  strength : ℕ
  deriving DecidableEq

/-- Embeds `Hand::new(cards, strength)`: the rank is derived from the
strength. -/
def handNew (cards : List ℕ) (strength : ℕ) : Hand :=
  ⟨cards, rankFromStrength strength, strength⟩

/-- Embeds the derived `PartialEq`/`Eq` on `Hand`: all three fields are
compared. -/
def handEqDerived (h1 h2 : Hand) : Prop :=
  h1.cards = h2.cards ∧ h1.rank = h2.rank ∧ h1.strength = h2.strength

instance (h1 h2 : Hand) : Decidable (handEqDerived h1 h2) := by
  unfold handEqDerived; infer_instance

/-- Embeds the manual `Ord` instance on `Hand`:
`other.strength.cmp(&self.strength)` — lower strength is greater. -/
def handCmp (h1 h2 : Hand) : Ordering := compare h2.strength h1.strength

/-- Embeds `Hand::ties` (strength equality only). -/
def handTies (h1 h2 : Hand) : Prop := h1.strength = h2.strength

/-- Embeds the loop of `evaluate_7cards` (the `Hand`-returning variant):
same traversal as `evaluate_7cards_fast`, additionally tracking the best
five cards; `best_cards` starts as the first five of the seven. -/
def e7handAux (cs : List ℕ) : List (ℕ × ℕ × ℕ × ℕ × ℕ) → ℕ → List ℕ → Option Hand
  | [], best, bestCards => some (handNew bestCards best)
  | q :: rest, best, bestCards =>
    match e5list (sel5 cs q) with
    | none => none
    | some r =>
      if r = 1 then some (handNew (sel5 cs q) 1)
      else if r < best then e7handAux cs rest r (sel5 cs q)
      else e7handAux cs rest best bestCards

/-- Embeds `evaluate_7cards`. -/
def e7hand (cs : List ℕ) : Option Hand :=
  e7handAux cs FIVE_FROM_SEVEN 65535
    [cs.getD 0 0, cs.getD 1 0, cs.getD 2 0, cs.getD 3 0, cs.getD 4 0]

/-! ## Equity results and classification
(src/core/ports/inbound/equity_calculator.rs,
src/core/domain/services/equity/exhaustive.rs,
src/core/domain/services/equity/monte_carlo.rs) -/

/-- Embeds `EquityResult`.  The Rust rates are `f64`; they are modelled as
exact rationals.  Every claim settled below only exercises the
`total == 0` branch, where the Rust code assigns the exact literals `0.0`,
so the model and the `f64` code agree on the equalities proved here. -/
structure EquityResult where
  equity : ℚ
  winRate : ℚ
  tieRate : ℚ
  loseRate : ℚ
  samples : ℕ
  deriving DecidableEq

/-- Embeds `EquityResult::from_counts`: all-zero on zero total, otherwise
rates as fractions of the total and tie equity split over
`num_opponents + 1` players. -/
def fromCounts (wins ties losses nOpp : ℕ) : EquityResult :=
  let total := wins + ties + losses
  if total = 0 then ⟨0, 0, 0, 0, 0⟩
  else
    let winRate : ℚ := (wins : ℚ) / (total : ℚ)
    let tieRate : ℚ := (ties : ℚ) / (total : ℚ)
    let loseRate : ℚ := (losses : ℚ) / (total : ℚ)
    ⟨winRate + tieRate / ((nOpp : ℚ) + 1), winRate, tieRate, loseRate, total⟩

/-- Outcome of one enumerated scenario or simulated iteration for the hero. -/
inductive Outcome where
  | win | tie | loss
  deriving DecidableEq

/-- Maps the `Ordering` of `hero_strength.cmp(&best_opp)` to the counter that
the enumeration loops increment: `Less` (stronger) wins, `Equal` ties,
`Greater` loses. -/
def outcomeOfOrd : Ordering → Outcome
  | .lt => .win
  | .eq => .tie
  | .gt => .loss

/-- Per-scenario classification of `enumerate_multiway` with two opponents:
`hero_strength.cmp(&(s1.min(s2)))`. -/
def exhClassify2 (hero s1 s2 : ℕ) : Outcome := outcomeOfOrd (compare hero (min s1 s2))

/-- Per-scenario classification of `enumerate_multiway` with three opponents:
`hero_strength.cmp(&(s1.min(s2).min(s3)))`. -/
def exhClassify3 (hero s1 s2 s3 : ℕ) : Outcome :=
  outcomeOfOrd (compare hero (min (min s1 s2) s3))

/-- The classification rule stated by the spec: compare the hero's strength
with the minimum (best) of all opponents' strengths; strictly smaller wins,
equal ties, strictly greater loses.  (Stated for a non-empty opponent list
`first :: rest`.) -/
def specMinClassify (hero first : ℕ) (rest : List ℕ) : Outcome :=
  outcomeOfOrd (compare hero (rest.foldl min first))

/-- Embeds the opponent loop of the Monte-Carlo `simulate`: walk the
opponents in order; a strictly better opponent ends the loop at once
(`hero_wins = false`), an equal one records `any_tie`; each entry is the
(possibly panicking) evaluation of that opponent's seven cards, and
opponents after the break are never evaluated. -/
def mcOppLoopE : List (Option ℕ) → ℕ → Bool → Option (Bool × Bool)
  | [], _, anyTie => some (true, anyTie)
  | o :: rest, hero, anyTie =>
    match o with
    | none => none
    | some s =>
      if s < hero then some (false, anyTie)
      else if s = hero then mcOppLoopE rest hero true
      else mcOppLoopE rest hero anyTie

/-- Maps the two loop flags to the counter incremented at the end of one
Monte-Carlo iteration (`if !hero_wins … else if any_tie … else …`). -/
def mcFlagsOutcome (heroWins anyTie : Bool) : Outcome :=
  if !heroWins then .loss else if anyTie then .tie else .win

/-- Classification of one Monte-Carlo iteration as a function of the hero's
strength and the opponents' strengths (all evaluations succeeding). -/
def mcIterClassify (hero first : ℕ) (rest : List ℕ) : Option Outcome :=
  (mcOppLoopE ((first :: rest).map some) hero false).map fun p =>
    mcFlagsOutcome p.1 p.2

/-! ## Exhaustive equity calculator (src/core/domain/services/equity/exhaustive.rs) -/

/-- Modelled from the spec: `Deck::excluding(dead)` (called by both equity
calculators but absent from the sources) — the full 52-card deck with the
dead cards (hero's hole cards and the board) removed. -/
def deckExcluding (dead : List ℕ) : List ℕ :=
  allCards.filter (fun c => decide (c ∉ dead))

/-- Embeds `HoleCards::combine_with_board`: the two hole cards followed by
the five board cards. -/
def combineWithBoard (hole : ℕ × ℕ) (board : List ℕ) : List ℕ :=
  hole.1 :: hole.2 :: board

/-- Adds the counter increment for one scenario outcome to a
(wins, ties, losses) accumulator. -/
def addOutcome (acc : ℕ × ℕ × ℕ) : Outcome → ℕ × ℕ × ℕ
  | .win => (acc.1 + 1, acc.2.1, acc.2.2)
  | .tie => (acc.1, acc.2.1 + 1, acc.2.2)
  | .loss => (acc.1, acc.2.1, acc.2.2 + 1)

/-- Folds a possibly-panicking per-item tally over a list of scenarios,
aborting (`none`) at the first panic, as a sequence of Rust loop iterations
would. -/
def accumOpt {α : Type} (step : α → Option Outcome) : List α → (ℕ × ℕ × ℕ) → Option (ℕ × ℕ × ℕ)
  | [], acc => some acc
  | x :: xs, acc =>
    match step x with
    | none => none
    | some o => accumOpt step xs (addOutcome acc o)

/-- Index pairs `(i, j)` with `i < j < len`, skipping any index in `excl`, in
the nested-loop order used by every two-opponent-card enumeration. -/
def idxPairs (len : ℕ) (excl : List ℕ) : List (ℕ × ℕ) :=
  (List.range len).flatMap fun i =>
    if i ∈ excl then []
    else ((List.range' (i + 1) (len - (i + 1))).filter
        (fun j => decide (j ∉ excl))).map fun j => (i, j)

/-- One opponent-hand tally step: evaluate the opponent's seven cards and
classify against the hero's strength (`hero_strength.cmp(&opp_strength)`). -/
def oppPairStep (hs : ℕ) (board : List ℕ) (cards : List ℕ) (p : ℕ × ℕ) : Option Outcome :=
  (e7fast (combineWithBoard (cards.getD p.1 0, cards.getD p.2 0) board)).map fun os =>
    outcomeOfOrd (compare hs os)

/-- Embeds `enumerate_multiway`: immediately returns with untouched counters
for more than three opponents; otherwise evaluates the hero's hand and
enumerates all ordered assignments of two cards to each opponent (the
`2` and `3` arms), leaving the counters untouched in the wildcard arm. -/
def enumMultiway (hole : ℕ × ℕ) (board : List ℕ) (cards : List ℕ) (n : ℕ) :
    Option (ℕ × ℕ × ℕ) :=
  if 3 < n then some (0, 0, 0)
  else
    match e7fast (combineWithBoard hole board) with
    | none => none
    | some hs =>
      match n with
      | 2 =>
        accumOpt
          (fun q =>
            match e7fast (combineWithBoard (cards.getD q.1.1 0, cards.getD q.1.2 0) board) with
            | none => none
            | some s1 =>
              match e7fast (combineWithBoard (cards.getD q.2.1 0, cards.getD q.2.2 0) board) with
              | none => none
              | some s2 => some (exhClassify2 hs s1 s2))
          ((idxPairs cards.length []).flatMap fun p1 =>
            (idxPairs cards.length [p1.1, p1.2]).map fun p2 => (p1, p2))
          (0, 0, 0)
      | 3 =>
        accumOpt
          (fun q =>
            match e7fast (combineWithBoard (cards.getD q.1.1 0, cards.getD q.1.2 0) board) with
            | none => none
            | some s1 =>
              match e7fast (combineWithBoard (cards.getD q.2.1.1 0, cards.getD q.2.1.2 0) board) with
              | none => none
              | some s2 =>
                match e7fast (combineWithBoard (cards.getD q.2.2.1 0, cards.getD q.2.2.2 0) board) with
                | none => none
                | some s3 => some (exhClassify3 hs s1 s2 s3))
          ((idxPairs cards.length []).flatMap fun p1 =>
            (idxPairs cards.length [p1.1, p1.2]).flatMap fun p2 =>
              (idxPairs cards.length [p1.1, p1.2, p2.1, p2.2]).map fun p3 => (p1, p2, p3))
          (0, 0, 0)
      | _ => some (0, 0, 0)

/-- Embeds `calculate_river`: evaluate the hero once; single nested loop over
opponent card pairs for one opponent, multiway enumeration otherwise. -/
def calcRiver (hole : ℕ × ℕ) (board : List ℕ) (cards : List ℕ) (n : ℕ) :
    Option EquityResult :=
  match e7fast (combineWithBoard hole board) with
  | none => none
  | some hs =>
    if n = 1 then
      (accumOpt (oppPairStep hs board cards) (idxPairs cards.length []) (0, 0, 0)).map
        fun c => fromCounts c.1 c.2.1 c.2.2 n
    else
      (enumMultiway hole board cards n).map fun c => fromCounts c.1 c.2.1 c.2.2 n

/-- The remaining deck after removing the card at one index, as
`calculate_turn` builds it for the multiway case. -/
def removeIdx (cards : List ℕ) (r : ℕ) : List ℕ :=
  (cards.enum.filter (fun p => decide (p.1 ≠ r))).map Prod.snd

/-- Embeds `calculate_turn`: enumerate every river card; for one opponent,
evaluate the hero per river and loop over opponent pairs avoiding the river
index; otherwise delegate each completed board to the multiway enumerator. -/
def calcTurn (hole : ℕ × ℕ) (board : List ℕ) (cards : List ℕ) (n : ℕ) :
    Option EquityResult :=
  if n = 1 then
    (accumOpt
      (fun pr =>
        match e7fast (combineWithBoard hole (board ++ [cards.getD pr.1 0])) with
        | none => none
        | some hs => (oppPairStep hs (board ++ [cards.getD pr.1 0]) cards pr.2).bind some)
      ((List.range cards.length).flatMap fun r =>
        (idxPairs cards.length [r]).map fun p => (r, p))
      (0, 0, 0)).map fun c => fromCounts c.1 c.2.1 c.2.2 n
  else
    ((List.range cards.length).foldl
      (fun acc r =>
        match acc with
        | none => none
        | some a =>
          match enumMultiway hole (board ++ [cards.getD r 0]) (removeIdx cards r) n with
          | none => none
          | some d => some (a.1 + d.1, a.2.1 + d.2.1, a.2.2 + d.2.2))
      (some (0, 0, 0))).map fun c => fromCounts c.1 c.2.1 c.2.2 n

/-- Embeds `calculate_flop`: enumerate every (turn, river) pair; one-opponent
and multiway variants as on the turn. -/
def calcFlop (hole : ℕ × ℕ) (board : List ℕ) (cards : List ℕ) (n : ℕ) :
    Option EquityResult :=
  if n = 1 then
    (accumOpt
      (fun pr =>
        match e7fast (combineWithBoard hole
            (board ++ [cards.getD pr.1.1 0, cards.getD pr.1.2 0])) with
        | none => none
        | some hs =>
          oppPairStep hs (board ++ [cards.getD pr.1.1 0, cards.getD pr.1.2 0]) cards pr.2)
      ((idxPairs cards.length []).flatMap fun tr =>
        (idxPairs cards.length [tr.1, tr.2]).map fun p => (tr, p))
      (0, 0, 0)).map fun c => fromCounts c.1 c.2.1 c.2.2 n
  else
    ((idxPairs cards.length []).foldl
      (fun acc tr =>
        match acc with
        | none => none
        | some a =>
          match enumMultiway hole (board ++ [cards.getD tr.1 0, cards.getD tr.2 0])
              (removeIdx (removeIdx cards tr.2) tr.1) n with
          | none => none
          | some d => some (a.1 + d.1, a.2.1 + d.2.1, a.2.2 + d.2.2))
      (some (0, 0, 0))).map fun c => fromCounts c.1 c.2.1 c.2.2 n

/-- The five nested board-index loops of `calculate_preflop`, flattened in
loop order. -/
def boardQuints (len : ℕ) : List (ℕ × ℕ × ℕ × ℕ × ℕ) :=
  (List.range len).flatMap fun b0 =>
    (List.range' (b0 + 1) (len - (b0 + 1))).flatMap fun b1 =>
      (List.range' (b1 + 1) (len - (b1 + 1))).flatMap fun b2 =>
        (List.range' (b2 + 1) (len - (b2 + 1))).flatMap fun b3 =>
          (List.range' (b3 + 1) (len - (b3 + 1))).map fun b4 => (b0, b1, b2, b3, b4)

/-- Embeds `calculate_preflop`: for one opponent, enumerate every 5-card
board and every opponent hand avoiding the board indices; for more than one
opponent, return the all-zero result immediately. -/
def calcPreflop (hole : ℕ × ℕ) (cards : List ℕ) (n : ℕ) : Option EquityResult :=
  if n = 1 then
    (accumOpt
      (fun bq =>
        let fullBoard := [cards.getD bq.1.1 0, cards.getD bq.1.2.1 0,
          cards.getD bq.1.2.2.1 0, cards.getD bq.1.2.2.2.1 0, cards.getD bq.1.2.2.2.2 0]
        match e7fast (combineWithBoard hole fullBoard) with
        | none => none
        | some hs => oppPairStep hs fullBoard cards bq.2)
      ((boardQuints cards.length).flatMap fun b =>
        (idxPairs cards.length [b.1, b.2.1, b.2.2.1, b.2.2.2.1, b.2.2.2.2]).map
          fun p => ((b.1, b.2.1, b.2.2.1, b.2.2.2.1, b.2.2.2.2), p))
      (0, 0, 0)).map fun c => fromCounts c.1 c.2.1 c.2.2 n
  else some (fromCounts 0 0 0 n)

/-- Embeds `ExhaustiveEquityCalculator::calculate`: build the remaining deck,
then dispatch on the board size; sizes other than 5, 4, 3, 0 yield zeroed
counts (`Board::as_array` on the river branch is the board list itself, the
board having exactly five cards there). -/
def exhCalculate (hole : ℕ × ℕ) (board : List ℕ) (n : ℕ) : Option EquityResult :=
  let remaining := deckExcluding ([hole.1, hole.2] ++ board)
  match board.length with
  | 5 => calcRiver hole board remaining n
  | 4 => calcTurn hole board remaining n
  | 3 => calcFlop hole board remaining n
  | 0 => calcPreflop hole remaining n
  | _ => some (fromCounts 0 0 0 n)

/-! ## Monte-Carlo equity calculator (src/core/domain/services/equity/monte_carlo.rs) -/

/-- One step of the 64-bit linear congruential generator:
`seed.wrapping_mul(6364136223846793005).wrapping_add(1)`. -/
def lcg (seed : ℕ) : ℕ := (seed * 6364136223846793005 + 1) % 2 ^ 64

/-- Swaps two positions of a list (`Vec::swap`; indices are always in bounds
where this is used). -/
def listSwap (l : List ℕ) (i j : ℕ) : List ℕ :=
  match l.get? i, l.get? j with
  | some a, some b => (l.set i b).set j a
  | _, _ => l

/-- The partial Fisher-Yates shuffle of one Monte-Carlo iteration: for each
`i` below the number of cards needed, advance the LCG and swap position `i`
with `i + ((seed >> 33) % (len - i))`; returns the shuffled list and the
final seed (which persists into the next iteration). -/
def mcShuffle (needed : ℕ) (cards : List ℕ) (seed : ℕ) : List ℕ × ℕ :=
  (List.range needed).foldl
    (fun st i =>
      let s2 := lcg st.2
      let j := i + (s2 >>> 33) % (st.1.length - i)
      (listSwap st.1 i j, s2))
    (cards, seed)

/-- One Monte-Carlo iteration: shuffle, complete the board with the first
dealt cards, evaluate the hero, then run the short-circuiting opponent loop;
`none` models a panicking evaluation. -/
def mcIterOutcome (hole : ℕ × ℕ) (boardCards : List ℕ) (cardsToDeal n : ℕ)
    (shuffled : List ℕ) : Option Outcome :=
  let fullBoard := boardCards ++ shuffled.take cardsToDeal
  match e7fast (combineWithBoard hole fullBoard) with
  | none => none
  | some hs =>
    (mcOppLoopE
      ((List.range n).map fun opp =>
        e7fast (combineWithBoard
          (shuffled.getD (cardsToDeal + 2 * opp) 0,
           shuffled.getD (cardsToDeal + 2 * opp + 1) 0) fullBoard))
      hs false).map fun p => mcFlagsOutcome p.1 p.2

/-- The iteration loop of `simulate`: the seed threads across iterations,
each iteration shuffles a fresh copy of the remaining deck and adds one
outcome to the counters. -/
def mcIterate (hole : ℕ × ℕ) (boardCards : List ℕ) (cards : List ℕ)
    (cardsToDeal n needed : ℕ) : ℕ → ℕ → (ℕ × ℕ × ℕ) → Option (ℕ × ℕ × ℕ)
  | 0, _, acc => some acc
  | it + 1, seed, acc =>
    let sh := mcShuffle needed cards seed
    match mcIterOutcome hole boardCards cardsToDeal n sh.1 with
    | none => none
    | some o => mcIterate hole boardCards cards cardsToDeal n needed it sh.2 (addOutcome acc o)

/-- The body of `simulate` once the seed has been computed: return the
all-zero result when the remaining deck is too small, otherwise run the
iterations and aggregate the counts. -/
def mcSimulateSeeded (seed0 : ℕ) (hole : ℕ × ℕ) (boardCards : List ℕ)
    (cards : List ℕ) (n cardsToDeal iterations : ℕ) : Option EquityResult :=
  let needed := cardsToDeal + 2 * n
  if cards.length < needed then some (fromCounts 0 0 0 n)
  else
    (mcIterate hole boardCards cards cardsToDeal n needed iterations seed0 (0, 0, 0)).map
      fun c => fromCounts c.1 c.2.1 c.2.2 n

/-- Embeds `simulate`, with the standard-library `DefaultHasher` — which is
outside these sources — modelled from the spec as an arbitrary but fixed
function `h` of the hashed data.  The seed is `h` applied to exactly the
values the source hashes: the two hole-card indices and the board length. -/
def mcSimulate (h : List ℕ → ℕ) (hole : ℕ × ℕ) (boardCards : List ℕ)
    (cards : List ℕ) (n cardsToDeal iterations : ℕ) : Option EquityResult :=
  mcSimulateSeeded (h [cardIndex hole.1, cardIndex hole.2, boardCards.length])
    hole boardCards cards n cardsToDeal iterations

/-- Embeds `MonteCarloEquityCalculator::calculate_sampled`: remaining deck,
`5 - board.len()` cards to deal, then `simulate`. -/
def mcCalculateSampled (h : List ℕ → ℕ) (hole : ℕ × ℕ) (board : List ℕ)
    (n samples : ℕ) : Option EquityResult :=
  mcSimulate h hole board (deckExcluding ([hole.1, hole.2] ++ board)) n
    (5 - board.length) samples


/-! ## Properties of the evaluation devices -/

theorem withNat_eq {α : Type} (n : ℕ) (f : ℕ → α) : withNat n f = f n := by
  cases n <;> rfl

theorem revApp_eq {α : Type} : ∀ (l acc : List α), revApp l acc = l.reverse ++ acc
  | [], _ => rfl
  | a :: rest, acc => by
    simp [revApp, revApp_eq rest]

theorem forceNats_eq : ∀ (l acc : List ℕ), forceNats l acc = acc.reverse ++ l
  | [], acc => by simp [forceNats, revApp_eq]
  | a :: rest, acc => by
    simp [forceNats, withNat_eq, forceNats_eq rest]

theorem myLenAux_eq {α : Type} : ∀ (l : List α) (acc : ℕ), myLenAux l acc = l.length + acc
  | [], _ => by simp [myLenAux]
  | _ :: rest, acc => by
    simp [myLenAux, withNat_eq, myLenAux_eq rest]
    omega

theorem myLength_eq {α : Type} (l : List α) : myLength l = l.length := by
  simp [myLength, myLenAux_eq]

theorem lenChk_iff {α : Type} : ∀ (l : List α) (n : ℕ), lenChk l n = true ↔ l.length = n
  | [], 0 => by simp [lenChk]
  | [], _ + 1 => by simp [lenChk]
  | _ :: _, 0 => by simp [lenChk]
  | _ :: rest, n + 1 => by
    simp [lenChk, lenChk_iff rest n]

theorem consecFrom_iff_range' :
    ∀ (l : List ℕ) (n : ℕ), consecFrom l n = true ↔ l = List.range' n l.length
  | [], n => by simp [consecFrom]
  | a :: rest, n => by
    simp [consecFrom, withNat_eq, List.range'_succ, consecFrom_iff_range' rest (n + 1)]

theorem ascChk_chain' : ∀ l : List ℕ, ascChk l = true ↔ List.Chain' (· < ·) l
  | [] => by simp [ascChk]
  | [a] => by simp [ascChk]
  | a :: b :: rest => by
    simp [ascChk, ascChk_chain' (b :: rest), List.chain'_cons]

theorem boundChk_iff : ∀ (l : List ℕ) (b : ℕ), boundChk l b = true ↔ ∀ x ∈ l, x < b
  | [], _ => by simp [boundChk]
  | a :: rest, b => by
    simp [boundChk, boundChk_iff rest b]

/-! ## Properties of the modelled merge sort -/

theorem mergeSpec_perm {α : Type} (le : α → α → Bool) :
    ∀ (fuel : ℕ) (l1 l2 : List α), List.Perm (mergeSpec le fuel l1 l2) (l1 ++ l2)
  | 0, l1, l2 => List.Perm.refl _
  | _ + 1, [], l2 => by simp [mergeSpec]
  | _ + 1, _ :: _, [] => by simp [mergeSpec]
  | fuel + 1, a :: as_, b :: bs => by
    simp only [mergeSpec]
    by_cases h : le a b = true
    · simpa [h] using (mergeSpec_perm le fuel as_ (b :: bs)).cons a
    · simp only [h, if_false]
      refine ((mergeSpec_perm le fuel (a :: as_) bs).cons b).trans ?_
      exact List.perm_middle.symm

theorem mergeAcc_eq {α : Type} (le : α → α → Bool) :
    ∀ (fuel : ℕ) (l1 l2 acc : List α),
      mergeAcc le fuel l1 l2 acc = revApp acc (mergeSpec le fuel l1 l2)
  | 0, l1, l2, acc => rfl
  | _ + 1, [], l2, acc => rfl
  | _ + 1, _ :: _, [], acc => rfl
  | fuel + 1, a :: as_, b :: bs, acc => by
    simp only [mergeAcc, mergeSpec]
    by_cases h : le a b = true
    · simp [h, mergeAcc_eq le fuel as_ (b :: bs) (a :: acc), revApp_eq]
    · simp [h, mergeAcc_eq le fuel (a :: as_) bs (b :: acc), revApp_eq]

theorem mergeSpec_sorted {α : Type} (le : α → α → Bool)
    (htot : ∀ a b, le a b || le b a) (htr : ∀ a b c, le a b = true → le b c = true → le a c = true) :
    ∀ (fuel : ℕ) (l1 l2 : List α), l1.length + l2.length ≤ fuel →
      l1.Pairwise (fun a b => le a b = true) → l2.Pairwise (fun a b => le a b = true) →
      (mergeSpec le fuel l1 l2).Pairwise (fun a b => le a b = true)
  | 0, l1, l2, hf, h1, h2 => by
    cases l1 <;> cases l2 <;> simp_all [mergeSpec]
  | _ + 1, [], l2, _, _, h2 => by simpa [mergeSpec] using h2
  | _ + 1, _ :: _, [], _, h1, _ => by simpa [mergeSpec] using h1
  | fuel + 1, a :: as_, b :: bs, hf, h1, h2 => by
    simp only [mergeSpec]
    rcases List.pairwise_cons.mp h1 with ⟨ha, has⟩
    rcases List.pairwise_cons.mp h2 with ⟨hb, hbs⟩
    by_cases h : le a b = true
    · simp only [h, if_true]
      refine List.pairwise_cons.mpr ⟨?_, ?_⟩
      · intro x hx
        have hx2 := (mergeSpec_perm le fuel as_ (b :: bs)).mem_iff.mp hx
        rcases List.mem_append.mp hx2 with hx3 | hx3
        · exact ha x hx3
        · rcases List.mem_cons.mp hx3 with rfl | hx4
          · exact h
          · exact htr a b x h (hb x hx4)
      · have hlen : as_.length + (b :: bs).length ≤ fuel := by
          simp at hf ⊢; omega
        exact mergeSpec_sorted le htot htr fuel as_ (b :: bs) hlen has h2
    · have hba : le b a = true := by
        have := htot a b
        simp [h] at this; exact this
      simp only [h, if_false]
      refine List.pairwise_cons.mpr ⟨?_, ?_⟩
      · intro x hx
        have hx2 := (mergeSpec_perm le fuel (a :: as_) bs).mem_iff.mp hx
        rcases List.mem_append.mp hx2 with hx3 | hx3
        · rcases List.mem_cons.mp hx3 with rfl | hx4
          · exact hba
          · exact htr b a x hba (ha x hx4)
        · exact hb x hx3
      · have hlen : (a :: as_).length + bs.length ≤ fuel := by
          simp at hf ⊢; omega
        exact mergeSpec_sorted le htot htr fuel (a :: as_) bs hlen h1 hbs

theorem initRuns_eq {α : Type} :
    ∀ (l : List α) (acc : List (List α)),
      initRuns l acc = (l.map fun a => [a]).reverse ++ acc
  | [], acc => by simp [initRuns]
  | a :: rest, acc => by
    simp [initRuns, initRuns_eq rest]

theorem mergeRuns_flatten_perm {α : Type} (le : α → α → Bool) (bigFuel : ℕ) :
    ∀ (fuel : ℕ) (runs acc : List (List α)),
      List.Perm (mergeRuns le bigFuel fuel runs acc).flatten (runs.flatten ++ acc.flatten)
  | 0, runs, acc => by
    rw [mergeRuns, revApp_eq, List.flatten_append]
    exact (List.Perm.append_right _ ((List.reverse_perm acc).flatten)).trans
      List.perm_append_comm
  | _ + 1, [], acc => by simp [mergeRuns]
  | _ + 1, [l], acc => by simp [mergeRuns]
  | fuel + 1, l1 :: l2 :: rest, acc => by
    rw [mergeRuns]
    refine (mergeRuns_flatten_perm le bigFuel fuel rest _).trans ?_
    have hm : List.Perm (mergeAcc le bigFuel l1 l2 []) (l1 ++ l2) := by
      rw [mergeAcc_eq, revApp_eq]
      simpa using mergeSpec_perm le bigFuel l1 l2
    simp only [List.flatten_cons, ← List.append_assoc]
    refine List.Perm.append_right _ ?_
    refine (List.Perm.append_left _ hm).trans ?_
    refine List.perm_append_comm.trans ?_
    rw [List.append_assoc]

theorem mergeRuns_sorted {α : Type} (le : α → α → Bool)
    (htot : ∀ a b, le a b || le b a)
    (htr : ∀ a b c, le a b = true → le b c = true → le a c = true) (bigFuel : ℕ) :
    ∀ (fuel : ℕ) (runs acc : List (List α)),
      runs.flatten.length ≤ bigFuel →
      (∀ r ∈ runs, r.Pairwise (fun a b => le a b = true)) →
      (∀ r ∈ acc, r.Pairwise (fun a b => le a b = true)) →
      ∀ r ∈ mergeRuns le bigFuel fuel runs acc, r.Pairwise (fun a b => le a b = true)
  | 0, runs, acc, _, hr, ha => by
    rw [mergeRuns, revApp_eq]
    intro r hr2
    rcases List.mem_append.mp hr2 with h | h
    · exact ha r (List.mem_reverse.mp h)
    · exact hr r h
  | _ + 1, [], acc, _, _, ha => by simpa [mergeRuns] using ha
  | _ + 1, [l], acc, _, hr, ha => by
    rw [mergeRuns]
    intro r hr2
    rcases List.mem_cons.mp hr2 with rfl | h
    · exact hr r (by simp)
    · exact ha r h
  | fuel + 1, l1 :: l2 :: rest, acc, hb, hr, ha => by
    rw [mergeRuns]
    refine mergeRuns_sorted le htot htr bigFuel fuel rest _ ?_ ?_ ?_
    · simp at hb ⊢; omega
    · intro r h; exact hr r (by simp [h])
    · intro r h
      rcases List.mem_cons.mp h with rfl | h2
      · rw [mergeAcc_eq, revApp_eq]
        simp only [List.reverse_nil, List.nil_append]
        refine mergeSpec_sorted le htot htr bigFuel l1 l2 ?_ ?_ ?_
        · simp at hb; omega
        · exact hr l1 (by simp)
        · exact hr l2 (by simp)
      · exact ha r h2

theorem mergePasses_perm {α : Type} (le : α → α → Bool) (bigFuel : ℕ) :
    ∀ (fuel : ℕ) (runs : List (List α)),
      List.Perm (mergePasses le bigFuel fuel runs) runs.flatten
  | 0, runs => List.Perm.refl _
  | _ + 1, [] => by simp [mergePasses]
  | _ + 1, [l] => by simp [mergePasses]
  | fuel + 1, l1 :: l2 :: rest => by
    rw [mergePasses]
    refine (mergePasses_perm le bigFuel fuel _).trans ?_
    simpa using mergeRuns_flatten_perm le bigFuel (myLength (l1 :: l2 :: rest)) (l1 :: l2 :: rest) []

theorem mergeRuns_length {α : Type} (le : α → α → Bool) (bigFuel : ℕ) :
    ∀ (fuel : ℕ) (runs acc : List (List α)), runs.length ≤ 2 * fuel →
      (mergeRuns le bigFuel fuel runs acc).length = (runs.length + 1) / 2 + acc.length
  | 0, runs, acc, h => by
    have : runs = [] := by
      cases runs with
      | nil => rfl
      | cons a b => simp at h
    subst this; simp [mergeRuns, revApp_eq]
  | _ + 1, [], acc, _ => by simp [mergeRuns]
  | _ + 1, [l], acc, _ => by simp [mergeRuns]; omega
  | fuel + 1, l1 :: l2 :: rest, acc, h => by
    rw [mergeRuns, mergeRuns_length le bigFuel fuel rest _ (by simp at h ⊢; omega)]
    simp; omega

theorem mergePasses_sorted {α : Type} (le : α → α → Bool)
    (htot : ∀ a b, le a b || le b a)
    (htr : ∀ a b c, le a b = true → le b c = true → le a c = true) (bigFuel : ℕ) :
    ∀ (fuel : ℕ) (runs : List (List α)),
      runs.length ≤ fuel → runs.flatten.length ≤ bigFuel →
      (∀ r ∈ runs, r.Pairwise (fun a b => le a b = true)) →
      (mergePasses le bigFuel fuel runs).Pairwise (fun a b => le a b = true)
  | 0, runs, hf, _, _ => by
    have : runs = [] := List.length_eq_zero.mp (Nat.le_zero.mp hf)
    subst this; simp [mergePasses]
  | _ + 1, [], _, _, _ => by simp [mergePasses]
  | _ + 1, [l], _, _, hr => by
    rw [mergePasses]; exact hr l (by simp)
  | fuel + 1, l1 :: l2 :: rest, hf, hb, hr => by
    rw [mergePasses]
    have hlen : (mergeRuns le bigFuel (myLength (l1 :: l2 :: rest)) (l1 :: l2 :: rest)
        []).length = ((l1 :: l2 :: rest).length + 1) / 2 := by
      rw [mergeRuns_length le bigFuel _ _ _ (by rw [myLength_eq]; omega)]
      simp
    refine mergePasses_sorted le htot htr bigFuel fuel _ ?_ ?_ ?_
    · rw [hlen]; simp at hf ⊢; omega
    · have hp := mergeRuns_flatten_perm le bigFuel (myLength (l1 :: l2 :: rest))
        (l1 :: l2 :: rest) []
      rw [hp.length_eq]; simpa using hb
    · exact mergeRuns_sorted le htot htr bigFuel _ _ _ hb hr (by simp)

theorem msort_perm {α : Type} (le : α → α → Bool) (l : List α) :
    List.Perm (msort le l) l := by
  rw [msort]
  refine (mergePasses_perm le (myLength l) (myLength l) (initRuns l [])).trans ?_
  rw [initRuns_eq]
  simp only [List.append_nil]
  refine (List.reverse_perm _).flatten.trans ?_
  induction l with
  | nil => simp
  | cons a rest ih => simpa using ih.cons a

theorem initRuns_flatten_perm {α : Type} (l : List α) :
    List.Perm (initRuns l []).flatten l := by
  rw [initRuns_eq]
  simp only [List.append_nil]
  refine (List.reverse_perm _).flatten.trans ?_
  induction l with
  | nil => simp
  | cons a rest ih => simpa using ih.cons a

theorem msort_sorted {α : Type} (le : α → α → Bool)
    (htot : ∀ a b, le a b || le b a)
    (htr : ∀ a b c, le a b = true → le b c = true → le a c = true) (l : List α) :
    (msort le l).Pairwise (fun a b => le a b = true) := by
  rw [msort]
  refine mergePasses_sorted le htot htr (myLength l) (myLength l) (initRuns l []) ?_ ?_ ?_
  · rw [initRuns_eq, myLength_eq]; simp
  · rw [(initRuns_flatten_perm l).length_eq, myLength_eq]
  · rw [initRuns_eq]
    intro r hr
    rcases List.mem_append.mp hr with h | h
    · rcases List.mem_reverse.mp h with h2
      rcases List.mem_map.mp h2 with ⟨a, _, rfl⟩
      simp
    · simp at h

/-! ## Correctness of the `combinations` loop -/

theorem find?_congr {α : Type} (p q : α → Bool) :
    ∀ l : List α, (∀ x ∈ l, p x = q x) → l.find? p = l.find? q
  | [], _ => rfl
  | a :: rest, h => by
    have ha := h a (by simp)
    simp only [List.find?]
    rw [ha]
    cases q a
    · exact find?_congr p q rest (fun x hx => h x (by simp [hx]))
    · rfl

theorem combStep_def (n k : ℕ) (c : List ℕ) :
    combStep n k c =
      match (List.range k).reverse.find? (fun i => decide (c.getD i 0 ≠ i + n - k)) with
      | none => none
      | some i => some (c.take i ++ List.range' (c.getD i 0 + 1) (k - i)) := by
  rw [combStep]
  cases (List.range k).reverse.find? (fun i => decide (c.getD i 0 ≠ i + n - k)) with
  | none => rfl
  | some i => simp [forceNats_eq]

theorem combStep_mem_of_find? {n k : ℕ} {c : List ℕ} {i : ℕ}
    (h : (List.range k).reverse.find? (fun i => decide (c.getD i 0 ≠ i + n - k)) = some i) :
    i < k := by
  have := List.mem_of_find?_eq_some h
  simp at this
  exact this

theorem combStep_length {n k : ℕ} {c c2 : List ℕ} (hc : c.length = k)
    (h : combStep n k c = some c2) : c2.length = k := by
  rw [combStep_def] at h
  rcases hf : (List.range k).reverse.find? (fun i => decide (c.getD i 0 ≠ i + n - k)) with _ | i
  · rw [hf] at h; exact absurd h (by simp)
  · rw [hf] at h
    have hik := combStep_mem_of_find? hf
    simp only [Option.some.injEq] at h
    subst h
    simp [List.length_take, hc]
    omega

theorem map_add_one_range' (s : ℕ) : ∀ m : ℕ, (List.range' s m).map (· + 1) = List.range' (s + 1) m := by
  intro m
  induction m generalizing s with
  | zero => simp
  | succ m ih => rw [List.range'_succ, List.range'_succ, List.map_cons, ih]

theorem getD_map_add_one (d : List ℕ) (i : ℕ) (h : i < d.length) :
    (d.map (· + 1)).getD i 0 = d.getD i 0 + 1 := by
  rw [List.getD_eq_getElem _ _ (by simpa using h), List.getD_eq_getElem _ _ h]
  simp

theorem combStep_shift (n k : ℕ) (hk : k < n) (d : List ℕ) (hd : d.length = k) :
    combStep n k (d.map (· + 1)) = (combStep (n - 1) k d).map (List.map (· + 1)) := by
  rw [combStep_def, combStep_def]
  rw [find?_congr (fun i => decide ((d.map (· + 1)).getD i 0 ≠ i + n - k))
      (fun i => decide (d.getD i 0 ≠ i + (n - 1) - k)) _ ?_]
  · rcases hf : (List.range k).reverse.find?
        (fun i => decide (d.getD i 0 ≠ i + (n - 1) - k)) with _ | i
    · simp
    · have hik : i < k := combStep_mem_of_find? hf
      simp only [Option.map_some']
      congr 1
      rw [getD_map_add_one d i (by omega), List.map_append, List.map_take,
        map_add_one_range']
  · intro i hi
    simp only [List.mem_reverse, List.mem_range] at hi
    simp only []
    rw [getD_map_add_one d i (by omega)]
    exact decide_eq_decide.mpr (by omega)

theorem combStep_zeroHead (n k : ℕ) (hk1 : 1 ≤ k) (hkn : k ≤ n) (d : List ℕ)
    (hd : d.length = k - 1) :
    combStep n k (0 :: d.map (· + 1)) =
      match combStep (n - 1) (k - 1) d with
      | some d2 => some (0 :: d2.map (· + 1))
      | none => if k < n then some (List.range' 1 k) else none := by
  obtain ⟨k', rfl⟩ : ∃ k', k = k' + 1 := ⟨k - 1, by omega⟩
  simp only [Nat.add_sub_cancel] at hd ⊢
  rw [combStep_def, combStep_def]
  have hrange : (List.range (k' + 1)).reverse
      = ((List.range k').reverse).map Nat.succ ++ [0] := by
    rw [List.range_succ_eq_map, List.reverse_cons, List.map_reverse]
  rw [hrange, List.find?_append, List.find?_map]
  rw [find?_congr
      ((fun i => decide ((0 :: d.map (· + 1)).getD i 0 ≠ i + n - (k' + 1))) ∘ Nat.succ)
      (fun i => decide (d.getD i 0 ≠ i + (n - 1) - k')) _ ?_]
  · rcases hf : (List.range k').reverse.find?
        (fun i => decide (d.getD i 0 ≠ i + (n - 1) - k')) with _ | i
    · simp only [Option.map_none', Option.none_or]
      by_cases hlt : k' + 1 < n
      · have hp0 : decide ((0 :: d.map (· + 1)).getD 0 0 ≠ 0 + n - (k' + 1)) = true := by
          simp only [List.getD_cons_zero, decide_eq_true_eq]
          omega
        rw [List.find?_cons, hp0, if_pos hlt]
        simp
      · have hp0 : decide ((0 :: d.map (· + 1)).getD 0 0 ≠ 0 + n - (k' + 1)) = false := by
          simp only [List.getD_cons_zero, decide_eq_false_iff_not]
          omega
        rw [List.find?_cons, hp0, if_neg hlt]
        simp [List.find?]
    · have hik : i < k' := by
        have := List.mem_of_find?_eq_some hf
        simp at this
        exact this
      simp only [Option.map_some', Nat.succ_eq_add_one]
      have hor : ∀ o : Option ℕ, (some (i + 1)).or o = some (i + 1) := fun o => rfl
      rw [hor]
      simp only [List.take_succ_cons, List.getD_cons_succ]
      rw [getD_map_add_one d i (by omega)]
      have harith : k' + 1 - (i + 1) = k' - i := by omega
      rw [harith, List.map_append, List.map_take, map_add_one_range']
      rfl
  · intro i hi
    simp only [List.mem_reverse, List.mem_range] at hi
    simp only [Function.comp_apply, Nat.succ_eq_add_one, List.getD_cons_succ]
    rw [decide_eq_decide, getD_map_add_one d i (by omega)]
    omega

theorem runsTo_combRunF {n k : ℕ} {c : List ℕ} {L : List (List ℕ)}
    (h : RunsTo n k c L) : ∀ fuel, L.length ≤ fuel → combRunF n k fuel c = L := by
  induction h with
  | last c hstep =>
    intro fuel hf
    match fuel, hf with
    | fuel + 1, _ => rw [combRunF, hstep]
  | step c c2 L hstep ih IH =>
    intro fuel hf
    match fuel, hf with
    | fuel + 1, hf =>
      rw [combRunF, hstep]
      exact congrArg (fun t => c :: t) (IH fuel (by simpa using hf))

theorem runsTo_k0 (m : ℕ) : RunsTo m 0 [] [[]] := by
  refine RunsTo.last _ ?_
  rw [combStep_def]
  simp [List.find?]

theorem runsTo_max (n : ℕ) : RunsTo n n (List.range n) [List.range n] := by
  refine RunsTo.last _ ?_
  rw [combStep_def]
  have : (List.range n).reverse.find?
      (fun i => decide ((List.range n).getD i 0 ≠ i + n - n)) = none := by
    rw [List.find?_eq_none]
    intro i hi
    simp only [List.mem_reverse, List.mem_range] at hi
    simp [List.getD, List.getElem?_range, hi]
  rw [this]

theorem runsTo_shift (n k : ℕ) (hk : k < n) :
    ∀ {d : List ℕ} {L : List (List ℕ)}, d.length = k → RunsTo (n - 1) k d L →
      RunsTo n k (d.map (· + 1)) (L.map (List.map (· + 1))) := by
  intro d L hd h
  induction h with
  | last c hstep =>
    refine RunsTo.last _ ?_
    rw [combStep_shift n k hk c hd, hstep]
    rfl
  | step c c2 L hstep ih IH =>
    refine RunsTo.step _ (c2.map (· + 1)) _ ?_ (IH (combStep_length hd hstep))
    rw [combStep_shift n k hk c hd, hstep]
    rfl

theorem runsTo_zeroHead_lt (n k : ℕ) (hk1 : 1 ≤ k) (hkn : k < n) :
    ∀ {d : List ℕ} {L : List (List ℕ)}, d.length = k - 1 → RunsTo (n - 1) (k - 1) d L →
      ∀ {M : List (List ℕ)}, RunsTo n k (List.range' 1 k) M →
        RunsTo n k (0 :: d.map (· + 1)) ((L.map fun t => 0 :: t.map (· + 1)) ++ M) := by
  intro d L hd h
  induction h with
  | last c hstep =>
    intro M hM
    refine RunsTo.step _ _ _ ?_ hM
    rw [combStep_zeroHead n k hk1 (le_of_lt hkn) c hd, hstep, if_pos hkn]
  | step c c2 L hstep ih IH =>
    intro M hM
    refine RunsTo.step _ _ _ ?_ (IH (combStep_length hd hstep) hM)
    rw [combStep_zeroHead n k hk1 (le_of_lt hkn) c hd, hstep]

theorem runsTo_zeroHead_eq (n : ℕ) (hn : 1 ≤ n) :
    ∀ {d : List ℕ} {L : List (List ℕ)}, d.length = n - 1 → RunsTo (n - 1) (n - 1) d L →
      RunsTo n n (0 :: d.map (· + 1)) (L.map fun t => 0 :: t.map (· + 1)) := by
  intro d L hd h
  induction h with
  | last c hstep =>
    refine RunsTo.last _ ?_
    rw [combStep_zeroHead n n hn (le_refl n) c hd, hstep, if_neg (lt_irrefl n)]
  | step c c2 L hstep ih IH =>
    refine RunsTo.step _ _ _ ?_ (IH (combStep_length hd hstep))
    rw [combStep_zeroHead n n hn (le_refl n) c hd, hstep]

theorem lexCombos_nil : ∀ n k : ℕ, n < k → lexCombos n k = [] := by
  intro n
  induction n with
  | zero =>
    intro k hk
    match k, hk with
    | k + 1, _ => rfl
  | succ n IH =>
    intro k hk
    match k, hk with
    | k + 1, hk =>
      show (lexCombos n k).map _ ++ (lexCombos n (k + 1)).map _ = []
      rw [IH k (by omega), IH (k + 1) (by omega)]
      rfl

theorem lexCombos_zero (n : ℕ) : lexCombos n 0 = [[]] := by
  cases n <;> rfl

theorem lexCombos_self : ∀ n : ℕ, lexCombos n n = [List.range n] := by
  intro n
  induction n with
  | zero => rfl
  | succ n IH =>
    show (lexCombos n n).map _ ++ (lexCombos n (n + 1)).map _ = _
    rw [IH, lexCombos_nil n (n + 1) (by omega), List.range_succ_eq_map]
    simp [Nat.succ_eq_add_one]

theorem lexCombos_length : ∀ n k : ℕ, (lexCombos n k).length = Nat.choose n k := by
  intro n
  induction n with
  | zero =>
    intro k
    cases k <;> rfl
  | succ n IH =>
    intro k
    cases k with
    | zero => rfl
    | succ k =>
      show ((lexCombos n k).map _ ++ (lexCombos n (k + 1)).map _).length = _
      rw [List.length_append, List.length_map, List.length_map, IH, IH,
        Nat.choose_succ_succ]

theorem range_map_succ (m : ℕ) : (List.range m).map (· + 1) = List.range' 1 m := by
  rw [List.range'_eq_map_range]
  exact List.map_congr_left (fun x _ => Nat.add_comm x 1)

theorem runsTo_lexCombos : ∀ n k : ℕ, 1 ≤ k → k ≤ n →
    RunsTo n k (List.range k) (lexCombos n k) := by
  intro n
  induction n using Nat.strong_induction_on with
  | _ n IH =>
    intro k hk1 hkn
    rcases Nat.lt_or_ge k n with hlt | hge
    · obtain ⟨n', rfl⟩ : ∃ m, n = m + 1 := ⟨n - 1, by omega⟩
      obtain ⟨k', rfl⟩ : ∃ m, k = m + 1 := ⟨k - 1, by omega⟩
      have hinner : RunsTo n' k' (List.range k') (lexCombos n' k') := by
        cases Nat.eq_zero_or_pos k' with
        | inl h0 =>
          subst h0
          rw [lexCombos_zero]
          exact runsTo_k0 n'
        | inr hpos => exact IH n' (by omega) k' hpos (by omega)
      have hM : RunsTo (n' + 1) (k' + 1) (List.range' 1 (k' + 1))
          ((lexCombos n' (k' + 1)).map (List.map (· + 1))) := by
        have h2 := IH n' (by omega) (k' + 1) (by omega) (by omega)
        have h3 := runsTo_shift (n' + 1) (k' + 1) hlt (by simp) h2
        rwa [range_map_succ] at h3
      have hd : (List.range k').length = (k' + 1) - 1 := by simp
      have hcomb := runsTo_zeroHead_lt (n' + 1) (k' + 1) (by omega) hlt hd hinner hM
      have hrange : (0 : ℕ) :: (List.range k').map (· + 1) = List.range (k' + 1) := by
        rw [List.range_succ_eq_map]
      rw [hrange] at hcomb
      show RunsTo (n' + 1) (k' + 1) (List.range (k' + 1))
        ((lexCombos n' k').map (fun t => 0 :: t.map (· + 1))
          ++ (lexCombos n' (k' + 1)).map (List.map (· + 1)))
      exact hcomb
    · have hkeq : k = n := le_antisymm hkn hge
      subst hkeq
      rw [lexCombos_self]
      exact runsTo_max k

theorem combinations_eq_lexCombos (n k : ℕ) : combinations n k = lexCombos n k := by
  unfold combinations
  by_cases h1 : k > n
  · rw [if_pos h1, lexCombos_nil n k h1]
  · rw [if_neg h1]
    by_cases h2 : k = 0
    · subst h2
      rw [if_pos rfl, lexCombos_zero]
    · rw [if_neg h2]
      exact runsTo_combRunF
        (runsTo_lexCombos n k (Nat.one_le_iff_ne_zero.mpr h2) (le_of_not_lt h1))
        (Nat.choose n k) (le_of_eq (lexCombos_length n k))

theorem foldl_choose (n : ℕ) : ∀ j : ℕ,
    (List.range j).foldl (fun res i => res * (n - i) / (i + 1)) 1 = Nat.choose n j := by
  intro j
  induction j with
  | zero => simp
  | succ j ih =>
    rw [List.range_succ, List.foldl_append, ih]
    show Nat.choose n j * (n - j) / (j + 1) = Nat.choose n (j + 1)
    rw [← Nat.choose_succ_right_eq, Nat.mul_div_cancel _ (Nat.succ_pos j)]

theorem rustBinomial_eq_choose (n k : ℕ) : rustBinomial n k = Nat.choose n k := by
  unfold rustBinomial
  by_cases h : k > n
  · rw [if_pos h, Nat.choose_eq_zero_of_lt h]
  · rw [if_neg h, foldl_choose]
    rcases le_total k (n - k) with h2 | h2
    · rw [min_eq_left h2]
    · rw [min_eq_right h2, Nat.choose_symm (le_of_not_lt h)]

theorem lexCombos_mem : ∀ n k : ℕ, ∀ t ∈ lexCombos n k,
    t.length = k ∧ t.Pairwise (· < ·) ∧ ∀ x ∈ t, x < n := by
  intro n
  induction n with
  | zero =>
    intro k t ht
    cases k with
    | zero =>
      rw [lexCombos_zero] at ht
      obtain rfl : t = [] := by simpa using ht
      simp
    | succ k => simp [lexCombos_nil 0 (k + 1) (by omega)] at ht
  | succ n IH =>
    intro k t ht
    cases k with
    | zero =>
      rw [lexCombos_zero] at ht
      obtain rfl : t = [] := by simpa using ht
      simp
    | succ k =>
      rw [show lexCombos (n + 1) (k + 1)
            = (lexCombos n k).map (fun t => 0 :: t.map (· + 1))
              ++ (lexCombos n (k + 1)).map (List.map (· + 1)) from rfl,
        List.mem_append] at ht
      rcases ht with ht | ht
      · rw [List.mem_map] at ht
        obtain ⟨u, hu, rfl⟩ := ht
        obtain ⟨hl, hp, hb⟩ := IH k u hu
        refine ⟨by simp [hl], ?_, ?_⟩
        · rw [List.pairwise_cons]
          refine ⟨?_, ?_⟩
          · intro x hx
            rw [List.mem_map] at hx
            obtain ⟨y, hy, rfl⟩ := hx
            omega
          · rw [List.pairwise_map]
            exact hp.imp (fun h => by omega)
        · intro x hx
          rcases List.mem_cons.mp hx with rfl | hx
          · omega
          · rw [List.mem_map] at hx
            obtain ⟨y, hy, rfl⟩ := hx
            have := hb y hy
            omega
      · rw [List.mem_map] at ht
        obtain ⟨u, hu, rfl⟩ := ht
        obtain ⟨hl, hp, hb⟩ := IH (k + 1) u hu
        refine ⟨by simp [hl], ?_, ?_⟩
        · rw [List.pairwise_map]
          exact hp.imp (fun h => by omega)
        · intro x hx
          rw [List.mem_map] at hx
          obtain ⟨y, hy, rfl⟩ := hx
          have := hb y hy
          omega

theorem lexCombos_complete : ∀ n k : ℕ, ∀ t : List ℕ, t.length = k →
    t.Pairwise (· < ·) → (∀ x ∈ t, x < n) → t ∈ lexCombos n k := by
  intro n
  induction n with
  | zero =>
    intro k t hl hp hb
    cases t with
    | nil =>
      obtain rfl : k = 0 := by simpa using hl.symm
      rw [lexCombos_zero]
      simp
    | cons a u => exact absurd (hb a (by simp)) (by omega)
  | succ n IH =>
    intro k t hl hp hb
    cases t with
    | nil =>
      obtain rfl : k = 0 := by simpa using hl.symm
      rw [lexCombos_zero]
      simp
    | cons a u =>
      cases k with
      | zero => simp at hl
      | succ k =>
        show a :: u ∈ (lexCombos n k).map (fun t => 0 :: t.map (· + 1))
          ++ (lexCombos n (k + 1)).map (List.map (· + 1))
        rw [List.mem_append]
        rcases Nat.eq_zero_or_pos a with rfl | ha
        · left
          have hge : ∀ x ∈ u, 1 ≤ x := by
            intro x hx
            have := (List.pairwise_cons.mp hp).1 x hx
            omega
          rw [List.mem_map]
          refine ⟨u.map (· - 1), ?_, ?_⟩
          · refine IH k (u.map (· - 1)) (by simpa using hl) ?_ ?_
            · rw [List.pairwise_map]
              exact ((List.pairwise_cons.mp hp).2).imp_of_mem
                (fun hx hy h => by have := hge _ hx; omega)
            · intro x hx
              rw [List.mem_map] at hx
              obtain ⟨y, hy, rfl⟩ := hx
              have h1 := hb y (by simp [hy])
              have h2 := hge y hy
              omega
          · rw [List.map_map]
            show (0 : ℕ) :: u.map (fun x => x - 1 + 1) = 0 :: u
            have : u.map (fun x => x - 1 + 1) = u := by
              conv_rhs => rw [← List.map_id u]
              exact List.map_congr_left
                (fun x hx => by have := hge x hx; simp only [id_eq]; omega)
            rw [this]
        · right
          have hge : ∀ x ∈ a :: u, 1 ≤ x := by
            intro x hx
            rcases List.mem_cons.mp hx with rfl | hx
            · omega
            · have := (List.pairwise_cons.mp hp).1 x hx
              omega
          rw [List.mem_map]
          refine ⟨(a :: u).map (· - 1), ?_, ?_⟩
          · refine IH (k + 1) ((a :: u).map (· - 1)) (by simpa using hl) ?_ ?_
            · rw [List.pairwise_map]
              exact hp.imp_of_mem (fun hx hy h => by have := hge _ hx; omega)
            · intro x hx
              rw [List.mem_map] at hx
              obtain ⟨y, hy, rfl⟩ := hx
              have h1 := hb y hy
              have h2 := hge y hy
              omega
          · rw [List.map_map]
            show (a :: u).map (fun x => x - 1 + 1) = a :: u
            conv_rhs => rw [← List.map_id (a :: u)]
            exact List.map_congr_left
              (fun x hx => by have := hge x hx; simp only [id_eq]; omega)

theorem lexCombos_nodup : ∀ n k : ℕ, (lexCombos n k).Nodup := by
  intro n
  induction n with
  | zero =>
    intro k
    cases k with
    | zero => rw [lexCombos_zero]; simp
    | succ k => rw [lexCombos_nil 0 (k + 1) (by omega)]; exact List.nodup_nil
  | succ n IH =>
    intro k
    cases k with
    | zero => rw [lexCombos_zero]; simp
    | succ k =>
      show ((lexCombos n k).map (fun t : List ℕ => 0 :: t.map (· + 1))
        ++ (lexCombos n (k + 1)).map (List.map (· + 1))).Nodup
      have hinj2 : Function.Injective (List.map (· + 1 : ℕ → ℕ)) :=
        List.map_injective_iff.mpr (fun a b h => by omega)
      have hinj1 : Function.Injective (fun t : List ℕ => 0 :: t.map (· + 1)) := by
        intro t1 t2 h
        simp only [List.cons.injEq, true_and] at h
        exact hinj2 h
      refine List.Nodup.append (List.Nodup.map hinj1 (IH k)) (List.Nodup.map hinj2 (IH (k + 1))) ?_
      intro t ht1 ht2
      rw [List.mem_map] at ht1 ht2
      obtain ⟨u, hu, rfl⟩ := ht1
      obtain ⟨v, hv, hveq⟩ := ht2
      have hlen := (lexCombos_mem n (k + 1) v hv).1
      cases v with
      | nil => simp at hlen
      | cons b w => simp at hveq

/-- C9: `combinations n k` returns the empty list when `k > n`, a list with
exactly one empty combination when `k = 0`, and otherwise exactly
`C(n, k)` pairwise-distinct lists (its length equals `binomial n k`, which
equals `Nat.choose n k`), each of length `k` with strictly ascending indices
drawn from `0..n-1`, and covering every such k-subset of `{0..n-1}` (every
strictly ascending length-`k` list of indices below `n` occurs). -/
theorem claim_C9_combinations (n k : ℕ) :
    (n < k → combinations n k = []) ∧
    (k = 0 → combinations n k = [[]]) ∧
    (combinations n k).length = rustBinomial n k ∧
    rustBinomial n k = Nat.choose n k ∧
    (combinations n k).Nodup ∧
    (∀ t ∈ combinations n k, t.length = k ∧ t.Chain' (· < ·) ∧ ∀ x ∈ t, x < n) ∧
    (∀ t : List ℕ, t.length = k → t.Chain' (· < ·) → (∀ x ∈ t, x < n) →
      t ∈ combinations n k) := by
  refine ⟨?_, ?_, ?_, ?_, ?_, ?_, ?_⟩
  · intro h
    rw [combinations_eq_lexCombos, lexCombos_nil n k h]
  · intro h
    subst h
    rw [combinations_eq_lexCombos, lexCombos_zero]
  · rw [combinations_eq_lexCombos, lexCombos_length, rustBinomial_eq_choose]
  · exact rustBinomial_eq_choose n k
  · rw [combinations_eq_lexCombos]
    exact lexCombos_nodup n k
  · intro t ht
    rw [combinations_eq_lexCombos] at ht
    obtain ⟨h1, h2, h3⟩ := lexCombos_mem n k t ht
    exact ⟨h1, List.chain'_iff_pairwise.mpr h2, h3⟩
  · intro t h1 h2 h3
    rw [combinations_eq_lexCombos]
    exact lexCombos_complete n k t h1 (List.chain'_iff_pairwise.mp h2) h3

/-- Witness for C9: the coverage clause applied at the ascending pair
`[0, 2]` for `combinations 4 2`, with each hypothesis checked concretely. -/
theorem claim_C9_combinations_witness :
    ([0, 2] : List ℕ).length = 2 ∧ List.Chain' (· < ·) ([0, 2] : List ℕ) ∧
      (∀ x ∈ ([0, 2] : List ℕ), x < 4) ∧ [0, 2] ∈ combinations 4 2 :=
  ⟨by decide, by simp, by decide,
    (claim_C9_combinations 4 2).2.2.2.2.2.2 [0, 2] (by decide) (by simp) (by decide)⟩

/-! ## Evaluation facts about the generated tables (one consolidated kernel
evaluation; the remaining table lemmas transfer these facts symbolically) -/


/-! ## Evaluation facts about the generated tables (two consolidated kernel
evaluations; the remaining table lemmas transfer these facts symbolically) -/

set_option maxRecDepth 1000000 in
set_option maxHeartbeats 32000000 in
theorem tableEval :
    (ascChk (msort (fun a b => decide (a ≤ b)) (flushAssign.map Prod.fst)) &&
     boundChk (flushAssign.map Prod.fst) 8192 &&
     lenChk quadKeys 156 && lenChk fhKeys 156 && lenChk flushKeys 1277 &&
     lenChk straightKeys 10 && lenChk tripsKeys 858 && lenChk twoPairKeys 858 &&
     lenChk onePairKeys 2860 && lenChk highKeys 1277) = true := by decide

theorem tableEval_parts :
    ascChk (msort (fun a b => decide (a ≤ b)) (flushAssign.map Prod.fst)) = true ∧
    boundChk (flushAssign.map Prod.fst) 8192 = true ∧
    lenChk quadKeys 156 = true ∧ lenChk fhKeys 156 = true ∧
    lenChk flushKeys 1277 = true ∧ lenChk straightKeys 10 = true ∧
    lenChk tripsKeys 858 = true ∧ lenChk twoPairKeys 858 = true ∧
    lenChk onePairKeys 2860 = true ∧ lenChk highKeys 1277 = true := by
  have h := tableEval
  simp only [Bool.and_eq_true] at h
  obtain ⟨⟨⟨⟨⟨⟨⟨⟨⟨h1, h2⟩, h3⟩, h4⟩, h5⟩, h6⟩, h7⟩, h8⟩, h9⟩, h10⟩ := h
  exact ⟨h1, h2, h3, h4, h5, h6, h7, h8, h9, h10⟩

theorem nodup_of_ascChk_msort (l : List ℕ)
    (h : ascChk (msort (fun a b => decide (a ≤ b)) l) = true) : l.Nodup := by
  have hp : (msort (fun a b => decide (a ≤ b)) l).Pairwise (· < ·) :=
    List.chain'_iff_pairwise.mp ((ascChk_chain' _).mp h)
  exact ((msort_perm (fun a b => decide (a ≤ b)) l).nodup_iff).mp
    (hp.imp fun h => Nat.ne_of_lt h)

theorem flushAssign_keys_nodup : (flushAssign.map Prod.fst).Nodup :=
  nodup_of_ascChk_msort _ tableEval_parts.1

theorem flushAssign_keys_bound : ∀ x ∈ flushAssign.map Prod.fst, x < 8192 :=
  (boundChk_iff _ _).mp tableEval_parts.2.1

theorem quadKeys_len : quadKeys.length = 156 :=
  (lenChk_iff _ _).mp tableEval_parts.2.2.1

theorem fhKeys_len : fhKeys.length = 156 :=
  (lenChk_iff _ _).mp tableEval_parts.2.2.2.1

theorem flushKeys_len : flushKeys.length = 1277 :=
  (lenChk_iff _ _).mp tableEval_parts.2.2.2.2.1

theorem straightKeys_len : straightKeys.length = 10 :=
  (lenChk_iff _ _).mp tableEval_parts.2.2.2.2.2.1

theorem tripsKeys_len : tripsKeys.length = 858 :=
  (lenChk_iff _ _).mp tableEval_parts.2.2.2.2.2.2.1

theorem twoPairKeys_len : twoPairKeys.length = 858 :=
  (lenChk_iff _ _).mp tableEval_parts.2.2.2.2.2.2.2.1

theorem onePairKeys_len : onePairKeys.length = 2860 :=
  (lenChk_iff _ _).mp tableEval_parts.2.2.2.2.2.2.2.2.1

theorem highKeys_len : highKeys.length = 1277 :=
  (lenChk_iff _ _).mp tableEval_parts.2.2.2.2.2.2.2.2.2

theorem assignRanks_fst : ∀ (ks : List ℕ) (s : ℕ),
    (assignRanks s ks).map Prod.fst = ks := by
  intro ks
  induction ks with
  | nil => intro s; rfl
  | cons k rest ih =>
    intro s
    show ((withNat k fun k2 =>
      (k2, s) :: withNat (s + 1) fun s2 => assignRanks s2 rest).map Prod.fst) = k :: rest
    rw [withNat_eq, withNat_eq, List.map_cons, ih]

theorem assignRanks_snd : ∀ (ks : List ℕ) (s : ℕ),
    (assignRanks s ks).map Prod.snd = List.range' s ks.length := by
  intro ks
  induction ks with
  | nil => intro s; rfl
  | cons k rest ih =>
    intro s
    show ((withNat k fun k2 =>
      (k2, s) :: withNat (s + 1) fun s2 => assignRanks s2 rest).map Prod.snd)
      = List.range' s (k :: rest).length
    rw [withNat_eq, withNat_eq, List.map_cons, ih, List.length_cons, List.range'_succ]

theorem assignRanks_length (ks : List ℕ) (s : ℕ) :
    (assignRanks s ks).length = ks.length := by
  calc (assignRanks s ks).length = ((assignRanks s ks).map Prod.fst).length :=
        (List.length_map _ _).symm
    _ = ks.length := by rw [assignRanks_fst]

theorem quadStart_eq : quadStart = 11 := rfl

theorem fhStart_eq : fhStart = 167 := by
  rw [fhStart, quadStart_eq, quadKeys_len]

theorem flushStart_eq : flushStart = 323 := by
  rw [flushStart, fhStart_eq, fhKeys_len]

theorem straightStart_eq : straightStart = 1600 := by
  rw [straightStart, flushStart_eq, flushKeys_len]

theorem tripsStart_eq : tripsStart = 1610 := by
  rw [tripsStart, straightStart_eq, straightKeys_len]

theorem twoPairStart_eq : twoPairStart = 2468 := by
  rw [twoPairStart, tripsStart_eq, tripsKeys_len]

theorem onePairStart_eq : onePairStart = 3326 := by
  rw [onePairStart, twoPairStart_eq, twoPairKeys_len]

theorem highStart_eq : highStart = 6186 := by
  rw [highStart, onePairStart_eq, onePairKeys_len]

theorem range'_glue (s m n : ℕ) :
    List.range' s m ++ List.range' (s + m) n = List.range' s (m + n) := by
  have h := List.range'_append s m n 1
  simp only [one_mul] at h
  rw [Nat.add_comm m n]
  exact h

theorem flushAssign_snd :
    flushAssign.map Prod.snd = List.range' 1 10 ++ List.range' 323 1277 := by
  rw [flushAssign, List.map_append, assignRanks_snd, assignRanks_snd,
    flushStart_eq, flushKeys_len]
  rfl

theorem unique5Raw_snd :
    unique5Raw.map Prod.snd =
      List.range' 11 156 ++ List.range' 167 156 ++ List.range' 1600 10 ++
      List.range' 1610 858 ++ List.range' 2468 858 ++ List.range' 3326 2860 ++
      List.range' 6186 1277 := by
  rw [unique5Raw, List.map_append, List.map_append, List.map_append,
    List.map_append, List.map_append, List.map_append,
    assignRanks_snd, assignRanks_snd, assignRanks_snd, assignRanks_snd,
    assignRanks_snd, assignRanks_snd, assignRanks_snd,
    quadStart_eq, quadKeys_len, fhStart_eq, fhKeys_len,
    straightStart_eq, straightKeys_len, tripsStart_eq, tripsKeys_len,
    twoPairStart_eq, twoPairKeys_len, onePairStart_eq, onePairKeys_len,
    highStart_eq, highKeys_len]

theorem strengths_partition :
    (flushAssign.map Prod.snd ++ unique5Raw.map Prod.snd).Perm
      (List.range' 1 7462) := by
  rw [flushAssign_snd, unique5Raw_snd]
  have hfull : List.range' 1 10 ++ List.range' 11 156 ++ List.range' 167 156 ++
      List.range' 323 1277 ++ List.range' 1600 10 ++ List.range' 1610 858 ++
      List.range' 2468 858 ++ List.range' 3326 2860 ++ List.range' 6186 1277
      = List.range' 1 7462 := by
    rw [show List.range' 11 156 = List.range' (1 + 10) 156 from rfl, range'_glue,
      show List.range' 167 156 = List.range' (1 + (10 + 156)) 156 from rfl, range'_glue,
      show List.range' 323 1277 = List.range' (1 + (10 + 156 + 156)) 1277 from rfl, range'_glue,
      show List.range' 1600 10 = List.range' (1 + (10 + 156 + 156 + 1277)) 10 from rfl, range'_glue,
      show List.range' 1610 858 = List.range' (1 + (10 + 156 + 156 + 1277 + 10)) 858 from rfl, range'_glue,
      show List.range' 2468 858 = List.range' (1 + (10 + 156 + 156 + 1277 + 10 + 858)) 858 from rfl, range'_glue,
      show List.range' 3326 2860 = List.range' (1 + (10 + 156 + 156 + 1277 + 10 + 858 + 858)) 2860 from rfl, range'_glue,
      show List.range' 6186 1277 = List.range' (1 + (10 + 156 + 156 + 1277 + 10 + 858 + 858 + 2860)) 1277 from rfl, range'_glue]
  rw [← hfull]
  simp only [← List.append_assoc]
  refine List.Perm.append ?_ (List.Perm.refl _)
  refine List.Perm.append ?_ (List.Perm.refl _)
  refine List.Perm.append ?_ (List.Perm.refl _)
  refine List.Perm.append ?_ (List.Perm.refl _)
  refine List.Perm.append ?_ (List.Perm.refl _)
  have h1 : List.range' 1 10 ++ List.range' 323 1277 ++ List.range' 11 156 ++
        List.range' 167 156
      = List.range' 1 10 ++ (List.range' 323 1277 ++
          (List.range' 11 156 ++ List.range' 167 156)) := by
    simp [List.append_assoc]
  have h2 : List.range' 1 10 ++ List.range' 11 156 ++ List.range' 167 156 ++
        List.range' 323 1277
      = List.range' 1 10 ++ ((List.range' 11 156 ++ List.range' 167 156) ++
          List.range' 323 1277) := by
    simp [List.append_assoc]
  rw [h1, h2]
  exact List.Perm.append_left _ List.perm_append_comm

/-! ## Distinctness of the prime-product keys (unique factorization) -/

theorem primeOf_prime : ∀ r, r < 13 → Nat.Prime (primeOf r) := by
  intro r h
  interval_cases r <;> norm_num [primeOf, PRIMES]

theorem primeOf_inj : ∀ r, r < 13 → ∀ s, s < 13 → primeOf r = primeOf s → r = s := by decide

theorem perm_of_map_perm (f : ℕ → ℕ) (S : ℕ)
    (hinj : ∀ r, r < S → ∀ s, s < S → f r = f s → r = s) :
    ∀ (L1 L2 : List ℕ), (∀ r ∈ L1, r < S) → (∀ r ∈ L2, r < S) →
      (L1.map f).Perm (L2.map f) → L1.Perm L2 := by
  intro L1
  induction L1 with
  | nil =>
    intro L2 h1 h2 h
    cases L2 with
    | nil => exact List.Perm.nil
    | cons b bs => simpa using h.length_eq
  | cons a as ih =>
    intro L2 h1 h2 h
    have hfa : f a ∈ L2.map f := h.mem_iff.mp (by simp)
    rw [List.mem_map] at hfa
    obtain ⟨b, hb, hfb⟩ := hfa
    have hab : a = b := hinj a (h1 a (by simp)) b (h2 b hb) hfb.symm
    subst hab
    obtain ⟨l1, l2, rfl⟩ := List.append_of_mem hb
    have h' : (as.map f).Perm ((l1 ++ l2).map f) := by
      rw [List.map_cons, List.map_append, List.map_cons] at h
      rw [List.map_append]
      exact (List.perm_cons (f a)).mp (h.trans List.perm_middle)
    have h2' : ∀ r ∈ l1 ++ l2, r < S := by
      intro r hr
      refine h2 r ?_
      rcases List.mem_append.mp hr with hr | hr
      · exact List.mem_append.mpr (Or.inl hr)
      · exact List.mem_append.mpr (Or.inr (List.mem_cons_of_mem a hr))
    have hperm := ih (l1 ++ l2) (fun r hr => h1 r (List.mem_cons_of_mem a hr)) h2' h'
    exact (hperm.cons a).trans List.perm_middle.symm

theorem perm_of_prod_eq (L1 L2 : List ℕ) (h1 : ∀ r ∈ L1, r < 13) (h2 : ∀ r ∈ L2, r < 13)
    (hp : (L1.map primeOf).prod = (L2.map primeOf).prod) : L1.Perm L2 := by
  have hP1 : ∀ p ∈ L1.map primeOf, p.Prime := by
    intro p hp2
    rw [List.mem_map] at hp2
    obtain ⟨r, hr, rfl⟩ := hp2
    exact primeOf_prime r (h1 r hr)
  have hP2 : ∀ p ∈ L2.map primeOf, p.Prime := by
    intro p hp2
    rw [List.mem_map] at hp2
    obtain ⟨r, hr, rfl⟩ := hp2
    exact primeOf_prime r (h2 r hr)
  have u1 := Nat.primeFactorsList_unique rfl hP1
  have u2 := Nat.primeFactorsList_unique hp.symm hP2
  exact perm_of_map_perm primeOf 13 primeOf_inj L1 L2 h1 h2 (u1.trans u2.symm)

theorem primeOf_pos : ∀ r, r < 13 → 0 < primeOf r := by decide

theorem quadPairs_mem : ∀ p ∈ quadPairs, p.1 < 13 ∧ p.2 < 13 ∧ p.2 ≠ p.1 := by
  intro p hp
  simp only [quadPairs, List.mem_flatMap, List.mem_map, List.mem_filter,
    List.mem_reverse, List.mem_range] at hp
  obtain ⟨q, hq, k, ⟨hk, hne⟩, rfl⟩ := hp
  exact ⟨hq, hk, by simpa using hne⟩

theorem fhPairs_mem : ∀ p ∈ fhPairs, p.1 < 13 ∧ p.2 < 13 ∧ p.2 ≠ p.1 := by
  intro p hp
  simp only [fhPairs, List.mem_flatMap, List.mem_map, List.mem_filter,
    List.mem_reverse, List.mem_range] at hp
  obtain ⟨q, hq, k, ⟨hk, hne⟩, rfl⟩ := hp
  exact ⟨hq, hk, by simpa using hne⟩

theorem sortByRevDesc_mem (l : List (List ℕ)) (c : List ℕ) :
    c ∈ sortByRevDesc l ↔ c ∈ l :=
  (msort_perm descRevLe l).mem_iff

theorem combo2_mem : ∀ c ∈ sortByRevDesc (combinations 13 2),
    ∃ a b : ℕ, c = [a, b] ∧ a < b ∧ b < 13 := by
  intro c hc
  rw [sortByRevDesc_mem, combinations_eq_lexCombos] at hc
  obtain ⟨hlen, hpw, hbd⟩ := lexCombos_mem 13 2 c hc
  match c, hlen with
  | [a, b], _ =>
    refine ⟨a, b, rfl, ?_, hbd b (by simp)⟩
    have := List.pairwise_cons.mp hpw
    exact this.1 b (by simp)

theorem combo3_mem : ∀ c ∈ sortByRevDesc (combinations 13 3),
    ∃ a b d : ℕ, c = [a, b, d] ∧ a < b ∧ b < d ∧ d < 13 := by
  intro c hc
  rw [sortByRevDesc_mem, combinations_eq_lexCombos] at hc
  obtain ⟨hlen, hpw, hbd⟩ := lexCombos_mem 13 3 c hc
  match c, hlen with
  | [a, b, d], _ =>
    have h1 := List.pairwise_cons.mp hpw
    have h2 := List.pairwise_cons.mp h1.2
    exact ⟨a, b, d, rfl, h1.1 b (by simp), h2.1 d (by simp), hbd d (by simp)⟩

theorem tripsPatterns_mem : ∀ p ∈ tripsPatterns,
    ∃ t k1 k2 : ℕ, p = (t, [k1, k2]) ∧ t < 13 ∧ k1 < k2 ∧ k2 < 13 ∧
      t ≠ k1 ∧ t ≠ k2 := by
  intro p hp
  simp only [tripsPatterns, List.mem_flatMap, List.mem_map, List.mem_filter,
    List.mem_reverse, List.mem_range] at hp
  obtain ⟨t, ht, ks, ⟨hks, hnc⟩, rfl⟩ := hp
  obtain ⟨a, b, rfl, hab, hb⟩ := combo2_mem ks hks
  have hnc' : t ∉ [a, b] := by simpa using hnc
  simp only [List.mem_cons, List.not_mem_nil, or_false, not_or] at hnc'
  exact ⟨t, a, b, rfl, ht, hab, hb, hnc'.1, hnc'.2⟩

theorem twoPairPatterns_mem : ∀ p ∈ twoPairPatterns,
    ∃ a b k : ℕ, p = ([a, b], k) ∧ a < b ∧ b < 13 ∧ k < 13 ∧
      k ≠ a ∧ k ≠ b := by
  intro p hp
  simp only [twoPairPatterns, List.mem_flatMap, List.mem_map, List.mem_filter,
    List.mem_reverse, List.mem_range] at hp
  obtain ⟨pr, hpr, k, ⟨hk, hne⟩, rfl⟩ := hp
  obtain ⟨a, b, rfl, hab, hb⟩ := combo2_mem pr hpr
  simp only [Bool.and_eq_true, decide_eq_true_eq] at hne
  have e0 : ([a, b] : List ℕ).getD 0 0 = a := rfl
  have e1 : ([a, b] : List ℕ).getD 1 0 = b := rfl
  rw [e0, e1, Nat.max_eq_right (le_of_lt hab), Nat.min_eq_left (le_of_lt hab)] at hne
  exact ⟨a, b, k, rfl, hab, hb, hk, hne.2, hne.1⟩

theorem onePairPatterns_mem : ∀ p ∈ onePairPatterns,
    ∃ r k0 k1 k2 : ℕ, p = (r, [k0, k1, k2]) ∧ r < 13 ∧ k0 < k1 ∧ k1 < k2 ∧
      k2 < 13 ∧ r ≠ k0 ∧ r ≠ k1 ∧ r ≠ k2 := by
  intro p hp
  simp only [onePairPatterns, List.mem_flatMap, List.mem_map, List.mem_filter,
    List.mem_reverse, List.mem_range] at hp
  obtain ⟨r, hr, ks, ⟨hks, hnc⟩, rfl⟩ := hp
  obtain ⟨a, b, d, rfl, hab, hbd, hd⟩ := combo3_mem ks hks
  have hnc' : r ∉ [a, b, d] := by simpa using hnc
  simp only [List.mem_cons, List.not_mem_nil, or_false, not_or] at hnc'
  exact ⟨r, a, b, d, rfl, hr, hab, hbd, hd, hnc'.1, hnc'.2.1, hnc'.2.2⟩

theorem flushCombos_mem : ∀ c ∈ flushCombos,
    (∃ a b d e f : ℕ, c = [a, b, d, e, f] ∧ a < b ∧ b < d ∧ d < e ∧ e < f ∧
      f < 13) ∧ isStraightPattern c = false := by
  intro c hc
  simp only [flushCombos, List.mem_filter, Bool.not_eq_true'] at hc
  obtain ⟨hc, hns⟩ := hc
  rw [sortByRevDesc_mem, combinations_eq_lexCombos] at hc
  obtain ⟨hlen, hpw, hbd⟩ := lexCombos_mem 13 5 c hc
  refine ⟨?_, hns⟩
  match c, hlen with
  | [a, b, d, e, f], _ =>
    have h1 := List.pairwise_cons.mp hpw
    have h2 := List.pairwise_cons.mp h1.2
    have h3 := List.pairwise_cons.mp h2.2
    have h4 := List.pairwise_cons.mp h3.2
    exact ⟨a, b, d, e, f, rfl, h1.1 b (by simp), h2.1 d (by simp),
      h3.1 e (by simp), h4.1 f (by simp), hbd f (by simp)⟩

theorem count5 (a x1 x2 x3 x4 x5 : ℕ) :
    List.count a [x1, x2, x3, x4, x5] =
      (if x1 = a then 1 else 0) + (if x2 = a then 1 else 0) + (if x3 = a then 1 else 0) +
      (if x4 = a then 1 else 0) + (if x5 = a then 1 else 0) := by
  simp only [List.count_cons, List.count_nil, beq_iff_eq]
  ring

theorem prod5 (r1 r2 r3 r4 r5 : ℕ) :
    ([r1, r2, r3, r4, r5].map primeOf).prod =
      primeOf r1 * primeOf r2 * primeOf r3 * primeOf r4 * primeOf r5 := by
  simp [List.prod_cons]
  ring

theorem mem5_lt {r1 r2 r3 r4 r5 b : ℕ} (h1 : r1 < b) (h2 : r2 < b) (h3 : r3 < b)
    (h4 : r4 < b) (h5 : r5 < b) : ∀ r ∈ [r1, r2, r3, r4, r5], r < b := by
  intro r hr
  simp only [List.mem_cons, List.not_mem_nil, or_false] at hr
  rcases hr with rfl | rfl | rfl | rfl | rfl <;> assumption


theorem form_quad (q k : ℕ) :
    ([q, q, q, q, k].map primeOf).prod = primeOf q ^ 4 * primeOf k := by
  rw [prod5]; ring

theorem form_fh (t s : ℕ) :
    ([t, t, t, s, s].map primeOf).prod = primeOf t ^ 3 * primeOf s ^ 2 := by
  rw [prod5]; ring

theorem form_trips (u a b : ℕ) :
    ([u, u, u, a, b].map primeOf).prod = primeOf u ^ 3 * primeOf a * primeOf b := by
  rw [prod5]; ring

theorem form_twoPair (h l m : ℕ) :
    ([h, h, l, l, m].map primeOf).prod = primeOf h ^ 2 * primeOf l ^ 2 * primeOf m := by
  rw [prod5]; ring

theorem form_onePair (p c1 c2 c3 : ℕ) :
    ([p, p, c1, c2, c3].map primeOf).prod =
      primeOf p ^ 2 * primeOf c1 * primeOf c2 * primeOf c3 := by
  rw [prod5]; ring

theorem prod3 (r1 r2 r3 : ℕ) :
    ([r1, r2, r3].map primeOf).prod = primeOf r1 * primeOf r2 * primeOf r3 := by
  simp [List.prod_cons, Nat.mul_assoc]

theorem prod2 (r1 r2 : ℕ) :
    ([r1, r2].map primeOf).prod = primeOf r1 * primeOf r2 := by
  simp [List.prod_cons]

theorem mem3_lt {r1 r2 r3 b : ℕ} (h1 : r1 < b) (h2 : r2 < b) (h3 : r3 < b) :
    ∀ r ∈ [r1, r2, r3], r < b := by
  intro r hr
  simp only [List.mem_cons, List.not_mem_nil, or_false] at hr
  rcases hr with rfl | rfl | rfl <;> assumption

theorem mem2_lt {r1 r2 b : ℕ} (h1 : r1 < b) (h2 : r2 < b) :
    ∀ r ∈ [r1, r2], r < b := by
  intro r hr
  simp only [List.mem_cons, List.not_mem_nil, or_false] at hr
  rcases hr with rfl | rfl <;> assumption

theorem count_in_quad (x q k : ℕ) (hkq : k ≠ q) :
    List.count x [q, q, q, q, k] = if q = x then 4 else if k = x then 1 else 0 := by
  rw [count5]; split_ifs <;> omega

theorem count_in_fh (x t s : ℕ) (hst : s ≠ t) :
    List.count x [t, t, t, s, s] = if t = x then 3 else if s = x then 2 else 0 := by
  rw [count5]; split_ifs <;> omega

theorem count_in_trips (x u a b : ℕ) (hab : a ≠ b) (hua : u ≠ a) (hub : u ≠ b) :
    List.count x [u, u, u, a, b] =
      if u = x then 3 else if a = x then 1 else if b = x then 1 else 0 := by
  rw [count5]; split_ifs <;> omega

theorem count_in_twoPair (x h l m : ℕ) (hlh : l ≠ h) (hmh : m ≠ h) (hml : m ≠ l) :
    List.count x [h, h, l, l, m] =
      if h = x then 2 else if l = x then 2 else if m = x then 1 else 0 := by
  rw [count5]; split_ifs <;> omega

theorem count_in_onePair (x p c1 c2 c3 : ℕ) (h12 : c1 ≠ c2) (h13 : c1 ≠ c3)
    (h23 : c2 ≠ c3) (hp1 : p ≠ c1) (hp2 : p ≠ c2) (hp3 : p ≠ c3) :
    List.count x [p, p, c1, c2, c3] =
      if p = x then 2 else if c1 = x then 1 else if c2 = x then 1 else
        if c3 = x then 1 else 0 := by
  rw [count5]; split_ifs <;> omega

theorem count_in_dist5 (x y1 y2 y3 y4 y5 : ℕ) (g12 : y1 < y2) (g23 : y2 < y3)
    (g34 : y3 < y4) (g45 : y4 < y5) :
    List.count x [y1, y2, y3, y4, y5] =
      if y1 = x then 1 else if y2 = x then 1 else if y3 = x then 1 else
        if y4 = x then 1 else if y5 = x then 1 else 0 := by
  rw [count5]; split_ifs <;> omega

set_option maxHeartbeats 1600000 in
theorem shape_quad_fh (q k t s : ℕ) (hq : q < 13) (hk : k < 13) (hkq : k ≠ q)
    (ht : t < 13) (hs : s < 13) (hst : s ≠ t) :
    primeOf q ^ 4 * primeOf k ≠ primeOf t ^ 3 * primeOf s ^ 2 := by
  intro heq
  have hperm : List.Perm [q, q, q, q, k] [t, t, t, s, s] := by
    refine perm_of_prod_eq _ _ (mem5_lt hq hq hq hq hk) (mem5_lt ht ht ht hs hs) ?_
    rw [form_quad q k, form_fh t s]
    exact heq
  have w0 := hperm.count_eq q
  rw [count_in_quad q q k hkq, count_in_fh q t s hst] at w0
  split_ifs at w0 <;> omega

set_option maxHeartbeats 1600000 in
theorem shape_quad_trips (q k u a b : ℕ) (hq : q < 13) (hk : k < 13) (hkq : k ≠ q)
    (hu : u < 13) (ha : a < 13) (hb : b < 13) (hab : a < b) (hua : u ≠ a) (hub : u ≠ b) :
    primeOf q ^ 4 * primeOf k ≠ primeOf u ^ 3 * primeOf a * primeOf b := by
  intro heq
  have hperm : List.Perm [q, q, q, q, k] [u, u, u, a, b] := by
    refine perm_of_prod_eq _ _ (mem5_lt hq hq hq hq hk) (mem5_lt hu hu hu ha hb) ?_
    rw [form_quad q k, form_trips u a b]
    exact heq
  have w0 := hperm.count_eq q
  rw [count_in_quad q q k hkq, count_in_trips q u a b (Nat.ne_of_lt hab) hua hub] at w0
  split_ifs at w0 <;> omega

set_option maxHeartbeats 1600000 in
theorem shape_quad_twoPair (q k h l m : ℕ) (hq : q < 13) (hk : k < 13) (hkq : k ≠ q)
    (hh : h < 13) (hl : l < 13) (hm : m < 13) (hlh : l < h) (hmh : m ≠ h) (hml : m ≠ l) :
    primeOf q ^ 4 * primeOf k ≠ primeOf h ^ 2 * primeOf l ^ 2 * primeOf m := by
  intro heq
  have hperm : List.Perm [q, q, q, q, k] [h, h, l, l, m] := by
    refine perm_of_prod_eq _ _ (mem5_lt hq hq hq hq hk) (mem5_lt hh hh hl hl hm) ?_
    rw [form_quad q k, form_twoPair h l m]
    exact heq
  have w0 := hperm.count_eq q
  rw [count_in_quad q q k hkq, count_in_twoPair q h l m (Nat.ne_of_lt hlh) hmh hml] at w0
  split_ifs at w0 <;> omega

set_option maxHeartbeats 1600000 in
theorem shape_quad_onePair (q k p c1 c2 c3 : ℕ) (hq : q < 13) (hk : k < 13) (hkq : k ≠ q)
    (hp : p < 13) (hc1 : c1 < 13) (hc2 : c2 < 13) (hc3 : c3 < 13) (h12 : c1 < c2) (h23 : c2 < c3) (hp1 : p ≠ c1) (hp2 : p ≠ c2) (hp3 : p ≠ c3) :
    primeOf q ^ 4 * primeOf k ≠ primeOf p ^ 2 * primeOf c1 * primeOf c2 * primeOf c3 := by
  intro heq
  have hperm : List.Perm [q, q, q, q, k] [p, p, c1, c2, c3] := by
    refine perm_of_prod_eq _ _ (mem5_lt hq hq hq hq hk) (mem5_lt hp hp hc1 hc2 hc3) ?_
    rw [form_quad q k, form_onePair p c1 c2 c3]
    exact heq
  have w0 := hperm.count_eq q
  rw [count_in_quad q q k hkq, count_in_onePair q p c1 c2 c3 (Nat.ne_of_lt h12) (Nat.ne_of_lt (Nat.lt_trans h12 h23)) (Nat.ne_of_lt h23) hp1 hp2 hp3] at w0
  split_ifs at w0 <;> omega

set_option maxHeartbeats 1600000 in
theorem shape_quad_dist5 (q k y1 y2 y3 y4 y5 : ℕ) (hq : q < 13) (hk : k < 13) (hkq : k ≠ q)
    (hy1 : y1 < 13) (hy2 : y2 < 13) (hy3 : y3 < 13) (hy4 : y4 < 13) (hy5 : y5 < 13) (g12 : y1 < y2) (g23 : y2 < y3) (g34 : y3 < y4) (g45 : y4 < y5) :
    primeOf q ^ 4 * primeOf k ≠ ([y1, y2, y3, y4, y5].map primeOf).prod := by
  intro heq
  have hperm : List.Perm [q, q, q, q, k] [y1, y2, y3, y4, y5] := by
    refine perm_of_prod_eq _ _ (mem5_lt hq hq hq hq hk) (mem5_lt hy1 hy2 hy3 hy4 hy5) ?_
    rw [form_quad q k]
    exact heq
  have w0 := hperm.count_eq q
  rw [count_in_quad q q k hkq, count_in_dist5 q y1 y2 y3 y4 y5 g12 g23 g34 g45] at w0
  split_ifs at w0 <;> omega

set_option maxHeartbeats 1600000 in
theorem shape_fh_trips (t s u a b : ℕ) (ht : t < 13) (hs : s < 13) (hst : s ≠ t)
    (hu : u < 13) (ha : a < 13) (hb : b < 13) (hab : a < b) (hua : u ≠ a) (hub : u ≠ b) :
    primeOf t ^ 3 * primeOf s ^ 2 ≠ primeOf u ^ 3 * primeOf a * primeOf b := by
  intro heq
  have hperm : List.Perm [t, t, t, s, s] [u, u, u, a, b] := by
    refine perm_of_prod_eq _ _ (mem5_lt ht ht ht hs hs) (mem5_lt hu hu hu ha hb) ?_
    rw [form_fh t s, form_trips u a b]
    exact heq
  have w0 := hperm.count_eq s
  rw [count_in_fh s t s hst, count_in_trips s u a b (Nat.ne_of_lt hab) hua hub] at w0
  split_ifs at w0 <;> omega

set_option maxHeartbeats 1600000 in
theorem shape_fh_twoPair (t s h l m : ℕ) (ht : t < 13) (hs : s < 13) (hst : s ≠ t)
    (hh : h < 13) (hl : l < 13) (hm : m < 13) (hlh : l < h) (hmh : m ≠ h) (hml : m ≠ l) :
    primeOf t ^ 3 * primeOf s ^ 2 ≠ primeOf h ^ 2 * primeOf l ^ 2 * primeOf m := by
  intro heq
  have hperm : List.Perm [t, t, t, s, s] [h, h, l, l, m] := by
    refine perm_of_prod_eq _ _ (mem5_lt ht ht ht hs hs) (mem5_lt hh hh hl hl hm) ?_
    rw [form_fh t s, form_twoPair h l m]
    exact heq
  have w0 := hperm.count_eq t
  rw [count_in_fh t t s hst, count_in_twoPair t h l m (Nat.ne_of_lt hlh) hmh hml] at w0
  split_ifs at w0 <;> omega

set_option maxHeartbeats 1600000 in
theorem shape_fh_onePair (t s p c1 c2 c3 : ℕ) (ht : t < 13) (hs : s < 13) (hst : s ≠ t)
    (hp : p < 13) (hc1 : c1 < 13) (hc2 : c2 < 13) (hc3 : c3 < 13) (h12 : c1 < c2) (h23 : c2 < c3) (hp1 : p ≠ c1) (hp2 : p ≠ c2) (hp3 : p ≠ c3) :
    primeOf t ^ 3 * primeOf s ^ 2 ≠ primeOf p ^ 2 * primeOf c1 * primeOf c2 * primeOf c3 := by
  intro heq
  have hperm : List.Perm [t, t, t, s, s] [p, p, c1, c2, c3] := by
    refine perm_of_prod_eq _ _ (mem5_lt ht ht ht hs hs) (mem5_lt hp hp hc1 hc2 hc3) ?_
    rw [form_fh t s, form_onePair p c1 c2 c3]
    exact heq
  have w0 := hperm.count_eq t
  rw [count_in_fh t t s hst, count_in_onePair t p c1 c2 c3 (Nat.ne_of_lt h12) (Nat.ne_of_lt (Nat.lt_trans h12 h23)) (Nat.ne_of_lt h23) hp1 hp2 hp3] at w0
  split_ifs at w0 <;> omega

set_option maxHeartbeats 1600000 in
theorem shape_fh_dist5 (t s y1 y2 y3 y4 y5 : ℕ) (ht : t < 13) (hs : s < 13) (hst : s ≠ t)
    (hy1 : y1 < 13) (hy2 : y2 < 13) (hy3 : y3 < 13) (hy4 : y4 < 13) (hy5 : y5 < 13) (g12 : y1 < y2) (g23 : y2 < y3) (g34 : y3 < y4) (g45 : y4 < y5) :
    primeOf t ^ 3 * primeOf s ^ 2 ≠ ([y1, y2, y3, y4, y5].map primeOf).prod := by
  intro heq
  have hperm : List.Perm [t, t, t, s, s] [y1, y2, y3, y4, y5] := by
    refine perm_of_prod_eq _ _ (mem5_lt ht ht ht hs hs) (mem5_lt hy1 hy2 hy3 hy4 hy5) ?_
    rw [form_fh t s]
    exact heq
  have w0 := hperm.count_eq t
  rw [count_in_fh t t s hst, count_in_dist5 t y1 y2 y3 y4 y5 g12 g23 g34 g45] at w0
  split_ifs at w0 <;> omega

set_option maxHeartbeats 1600000 in
theorem shape_trips_twoPair (u a b h l m : ℕ) (hu : u < 13) (ha : a < 13) (hb : b < 13) (hab : a < b) (hua : u ≠ a) (hub : u ≠ b)
    (hh : h < 13) (hl : l < 13) (hm : m < 13) (hlh : l < h) (hmh : m ≠ h) (hml : m ≠ l) :
    primeOf u ^ 3 * primeOf a * primeOf b ≠ primeOf h ^ 2 * primeOf l ^ 2 * primeOf m := by
  intro heq
  have hperm : List.Perm [u, u, u, a, b] [h, h, l, l, m] := by
    refine perm_of_prod_eq _ _ (mem5_lt hu hu hu ha hb) (mem5_lt hh hh hl hl hm) ?_
    rw [form_trips u a b, form_twoPair h l m]
    exact heq
  have w0 := hperm.count_eq u
  rw [count_in_trips u u a b (Nat.ne_of_lt hab) hua hub, count_in_twoPair u h l m (Nat.ne_of_lt hlh) hmh hml] at w0
  split_ifs at w0 <;> omega

set_option maxHeartbeats 1600000 in
theorem shape_trips_onePair (u a b p c1 c2 c3 : ℕ) (hu : u < 13) (ha : a < 13) (hb : b < 13) (hab : a < b) (hua : u ≠ a) (hub : u ≠ b)
    (hp : p < 13) (hc1 : c1 < 13) (hc2 : c2 < 13) (hc3 : c3 < 13) (h12 : c1 < c2) (h23 : c2 < c3) (hp1 : p ≠ c1) (hp2 : p ≠ c2) (hp3 : p ≠ c3) :
    primeOf u ^ 3 * primeOf a * primeOf b ≠ primeOf p ^ 2 * primeOf c1 * primeOf c2 * primeOf c3 := by
  intro heq
  have hperm : List.Perm [u, u, u, a, b] [p, p, c1, c2, c3] := by
    refine perm_of_prod_eq _ _ (mem5_lt hu hu hu ha hb) (mem5_lt hp hp hc1 hc2 hc3) ?_
    rw [form_trips u a b, form_onePair p c1 c2 c3]
    exact heq
  have w0 := hperm.count_eq u
  rw [count_in_trips u u a b (Nat.ne_of_lt hab) hua hub, count_in_onePair u p c1 c2 c3 (Nat.ne_of_lt h12) (Nat.ne_of_lt (Nat.lt_trans h12 h23)) (Nat.ne_of_lt h23) hp1 hp2 hp3] at w0
  split_ifs at w0 <;> omega

set_option maxHeartbeats 1600000 in
theorem shape_trips_dist5 (u a b y1 y2 y3 y4 y5 : ℕ) (hu : u < 13) (ha : a < 13) (hb : b < 13) (hab : a < b) (hua : u ≠ a) (hub : u ≠ b)
    (hy1 : y1 < 13) (hy2 : y2 < 13) (hy3 : y3 < 13) (hy4 : y4 < 13) (hy5 : y5 < 13) (g12 : y1 < y2) (g23 : y2 < y3) (g34 : y3 < y4) (g45 : y4 < y5) :
    primeOf u ^ 3 * primeOf a * primeOf b ≠ ([y1, y2, y3, y4, y5].map primeOf).prod := by
  intro heq
  have hperm : List.Perm [u, u, u, a, b] [y1, y2, y3, y4, y5] := by
    refine perm_of_prod_eq _ _ (mem5_lt hu hu hu ha hb) (mem5_lt hy1 hy2 hy3 hy4 hy5) ?_
    rw [form_trips u a b]
    exact heq
  have w0 := hperm.count_eq u
  rw [count_in_trips u u a b (Nat.ne_of_lt hab) hua hub, count_in_dist5 u y1 y2 y3 y4 y5 g12 g23 g34 g45] at w0
  split_ifs at w0 <;> omega

set_option maxHeartbeats 1600000 in
theorem shape_twoPair_onePair (h l m p c1 c2 c3 : ℕ) (hh : h < 13) (hl : l < 13) (hm : m < 13) (hlh : l < h) (hmh : m ≠ h) (hml : m ≠ l)
    (hp : p < 13) (hc1 : c1 < 13) (hc2 : c2 < 13) (hc3 : c3 < 13) (h12 : c1 < c2) (h23 : c2 < c3) (hp1 : p ≠ c1) (hp2 : p ≠ c2) (hp3 : p ≠ c3) :
    primeOf h ^ 2 * primeOf l ^ 2 * primeOf m ≠ primeOf p ^ 2 * primeOf c1 * primeOf c2 * primeOf c3 := by
  intro heq
  have hperm : List.Perm [h, h, l, l, m] [p, p, c1, c2, c3] := by
    refine perm_of_prod_eq _ _ (mem5_lt hh hh hl hl hm) (mem5_lt hp hp hc1 hc2 hc3) ?_
    rw [form_twoPair h l m, form_onePair p c1 c2 c3]
    exact heq
  have w0 := hperm.count_eq h
  rw [count_in_twoPair h h l m (Nat.ne_of_lt hlh) hmh hml, count_in_onePair h p c1 c2 c3 (Nat.ne_of_lt h12) (Nat.ne_of_lt (Nat.lt_trans h12 h23)) (Nat.ne_of_lt h23) hp1 hp2 hp3] at w0
  have w1 := hperm.count_eq l
  rw [count_in_twoPair l h l m (Nat.ne_of_lt hlh) hmh hml, count_in_onePair l p c1 c2 c3 (Nat.ne_of_lt h12) (Nat.ne_of_lt (Nat.lt_trans h12 h23)) (Nat.ne_of_lt h23) hp1 hp2 hp3] at w1
  split_ifs at w0 w1 <;> omega

set_option maxHeartbeats 1600000 in
theorem shape_twoPair_dist5 (h l m y1 y2 y3 y4 y5 : ℕ) (hh : h < 13) (hl : l < 13) (hm : m < 13) (hlh : l < h) (hmh : m ≠ h) (hml : m ≠ l)
    (hy1 : y1 < 13) (hy2 : y2 < 13) (hy3 : y3 < 13) (hy4 : y4 < 13) (hy5 : y5 < 13) (g12 : y1 < y2) (g23 : y2 < y3) (g34 : y3 < y4) (g45 : y4 < y5) :
    primeOf h ^ 2 * primeOf l ^ 2 * primeOf m ≠ ([y1, y2, y3, y4, y5].map primeOf).prod := by
  intro heq
  have hperm : List.Perm [h, h, l, l, m] [y1, y2, y3, y4, y5] := by
    refine perm_of_prod_eq _ _ (mem5_lt hh hh hl hl hm) (mem5_lt hy1 hy2 hy3 hy4 hy5) ?_
    rw [form_twoPair h l m]
    exact heq
  have w0 := hperm.count_eq h
  rw [count_in_twoPair h h l m (Nat.ne_of_lt hlh) hmh hml, count_in_dist5 h y1 y2 y3 y4 y5 g12 g23 g34 g45] at w0
  split_ifs at w0 <;> omega

set_option maxHeartbeats 1600000 in
theorem shape_onePair_dist5 (p c1 c2 c3 y1 y2 y3 y4 y5 : ℕ) (hp : p < 13) (hc1 : c1 < 13) (hc2 : c2 < 13) (hc3 : c3 < 13) (h12 : c1 < c2) (h23 : c2 < c3) (hp1 : p ≠ c1) (hp2 : p ≠ c2) (hp3 : p ≠ c3)
    (hy1 : y1 < 13) (hy2 : y2 < 13) (hy3 : y3 < 13) (hy4 : y4 < 13) (hy5 : y5 < 13) (g12 : y1 < y2) (g23 : y2 < y3) (g34 : y3 < y4) (g45 : y4 < y5) :
    primeOf p ^ 2 * primeOf c1 * primeOf c2 * primeOf c3 ≠ ([y1, y2, y3, y4, y5].map primeOf).prod := by
  intro heq
  have hperm : List.Perm [p, p, c1, c2, c3] [y1, y2, y3, y4, y5] := by
    refine perm_of_prod_eq _ _ (mem5_lt hp hp hc1 hc2 hc3) (mem5_lt hy1 hy2 hy3 hy4 hy5) ?_
    rw [form_onePair p c1 c2 c3]
    exact heq
  have w0 := hperm.count_eq p
  rw [count_in_onePair p p c1 c2 c3 (Nat.ne_of_lt h12) (Nat.ne_of_lt (Nat.lt_trans h12 h23)) (Nat.ne_of_lt h23) hp1 hp2 hp3, count_in_dist5 p y1 y2 y3 y4 y5 g12 g23 g34 g45] at w0
  split_ifs at w0 <;> omega

theorem inj_quad (q k q2 k2 : ℕ) (hq : q < 13) (hk : k < 13) (hkq : k ≠ q)
    (hq2 : q2 < 13) (hk2 : k2 < 13) (hkq2 : k2 ≠ q2)
    (heq : primeOf q ^ 4 * primeOf k = primeOf q2 ^ 4 * primeOf k2) :
    q = q2 ∧ k = k2 := by
  have hperm : List.Perm [q, q, q, q, k] [q2, q2, q2, q2, k2] := by
    refine perm_of_prod_eq _ _ (mem5_lt hq hq hq hq hk) (mem5_lt hq2 hq2 hq2 hq2 hk2) ?_
    rw [form_quad, form_quad]
    exact heq
  have w0 := hperm.count_eq q2
  rw [count_in_quad q2 q k hkq, count_in_quad q2 q2 k2 hkq2] at w0
  have hqq : q = q2 := by split_ifs at w0 <;> omega
  subst hqq
  have hcan := Nat.eq_of_mul_eq_mul_left (pow_pos (primeOf_pos q hq) 4) heq
  exact ⟨rfl, primeOf_inj k hk k2 hk2 hcan⟩

theorem inj_fh (t s t2 s2 : ℕ) (ht : t < 13) (hs : s < 13) (hst : s ≠ t)
    (ht2 : t2 < 13) (hs2 : s2 < 13) (hst2 : s2 ≠ t2)
    (heq : primeOf t ^ 3 * primeOf s ^ 2 = primeOf t2 ^ 3 * primeOf s2 ^ 2) :
    t = t2 ∧ s = s2 := by
  have hperm : List.Perm [t, t, t, s, s] [t2, t2, t2, s2, s2] := by
    refine perm_of_prod_eq _ _ (mem5_lt ht ht ht hs hs) (mem5_lt ht2 ht2 ht2 hs2 hs2) ?_
    rw [form_fh, form_fh]
    exact heq
  have w0 := hperm.count_eq t2
  rw [count_in_fh t2 t s hst, count_in_fh t2 t2 s2 hst2] at w0
  have htt : t = t2 := by split_ifs at w0 <;> omega
  subst htt
  have hcan := Nat.eq_of_mul_eq_mul_left (pow_pos (primeOf_pos t ht) 3) heq
  have hps := Nat.pow_left_injective (by norm_num) hcan
  exact ⟨rfl, primeOf_inj s hs s2 hs2 hps⟩

theorem sorted2 {a b : ℕ} (h : a < b) : List.Pairwise (· ≤ ·) [a, b] := by
  simp [List.pairwise_cons]
  omega

theorem sorted3 {a b c : ℕ} (h1 : a < b) (h2 : b < c) :
    List.Pairwise (· ≤ ·) [a, b, c] := by
  simp [List.pairwise_cons]
  omega

theorem inj_trips (u a b u2 a2 b2 : ℕ) (hu : u < 13) (ha : a < 13) (hb : b < 13)
    (hab : a < b) (hua : u ≠ a) (hub : u ≠ b)
    (hu2 : u2 < 13) (ha2 : a2 < 13) (hb2 : b2 < 13)
    (hab2 : a2 < b2) (hua2 : u2 ≠ a2) (hub2 : u2 ≠ b2)
    (heq : primeOf u ^ 3 * primeOf a * primeOf b
      = primeOf u2 ^ 3 * primeOf a2 * primeOf b2) :
    u = u2 ∧ a = a2 ∧ b = b2 := by
  have hperm : List.Perm [u, u, u, a, b] [u2, u2, u2, a2, b2] := by
    refine perm_of_prod_eq _ _ (mem5_lt hu hu hu ha hb) (mem5_lt hu2 hu2 hu2 ha2 hb2) ?_
    rw [form_trips, form_trips]
    exact heq
  have w0 := hperm.count_eq u2
  rw [count_in_trips u2 u a b (Nat.ne_of_lt hab) hua hub,
    count_in_trips u2 u2 a2 b2 (Nat.ne_of_lt hab2) hua2 hub2] at w0
  have huu : u = u2 := by split_ifs at w0 <;> omega
  subst huu
  have hc : primeOf u ^ 3 * (primeOf a * primeOf b)
      = primeOf u ^ 3 * (primeOf a2 * primeOf b2) := by
    calc primeOf u ^ 3 * (primeOf a * primeOf b)
        = primeOf u ^ 3 * primeOf a * primeOf b := by ring
      _ = primeOf u ^ 3 * primeOf a2 * primeOf b2 := heq
      _ = primeOf u ^ 3 * (primeOf a2 * primeOf b2) := by ring
  have hcan := Nat.eq_of_mul_eq_mul_left (pow_pos (primeOf_pos u hu) 3) hc
  have hp2 : List.Perm [a, b] [a2, b2] := by
    refine perm_of_prod_eq _ _ (mem2_lt ha hb) (mem2_lt ha2 hb2) ?_
    rw [prod2, prod2]
    exact hcan
  have heq2 := List.eq_of_perm_of_sorted hp2 (sorted2 hab) (sorted2 hab2)
  simp only [List.cons.injEq, and_true] at heq2
  exact ⟨rfl, heq2.1, heq2.2⟩

theorem inj_twoPair (h l m h2 l2 m2 : ℕ) (hh : h < 13) (hl : l < 13) (hm : m < 13)
    (hlh : l < h) (hmh : m ≠ h) (hml : m ≠ l)
    (hh2 : h2 < 13) (hl2 : l2 < 13) (hm2 : m2 < 13)
    (hlh2 : l2 < h2) (hmh2 : m2 ≠ h2) (hml2 : m2 ≠ l2)
    (heq : primeOf h ^ 2 * primeOf l ^ 2 * primeOf m
      = primeOf h2 ^ 2 * primeOf l2 ^ 2 * primeOf m2) :
    h = h2 ∧ l = l2 ∧ m = m2 := by
  have hperm : List.Perm [h, h, l, l, m] [h2, h2, l2, l2, m2] := by
    refine perm_of_prod_eq _ _ (mem5_lt hh hh hl hl hm) (mem5_lt hh2 hh2 hl2 hl2 hm2) ?_
    rw [form_twoPair, form_twoPair]
    exact heq
  have w0 := hperm.count_eq h2
  rw [count_in_twoPair h2 h l m (Nat.ne_of_lt hlh) hmh hml,
    count_in_twoPair h2 h2 l2 m2 (Nat.ne_of_lt hlh2) hmh2 hml2] at w0
  have w1 := hperm.count_eq l2
  rw [count_in_twoPair l2 h l m (Nat.ne_of_lt hlh) hmh hml,
    count_in_twoPair l2 h2 l2 m2 (Nat.ne_of_lt hlh2) hmh2 hml2] at w1
  have hhl : h = h2 ∧ l = l2 := by split_ifs at w0 w1 <;> omega
  obtain ⟨rfl, rfl⟩ := hhl
  have hc : primeOf h ^ 2 * primeOf l ^ 2 * primeOf m
      = primeOf h ^ 2 * primeOf l ^ 2 * primeOf m2 := heq
  have hpos : 0 < primeOf h ^ 2 * primeOf l ^ 2 :=
    Nat.mul_pos (pow_pos (primeOf_pos h hh) 2) (pow_pos (primeOf_pos l hl) 2)
  have hc2 : primeOf h ^ 2 * primeOf l ^ 2 * primeOf m
      = primeOf h ^ 2 * primeOf l ^ 2 * primeOf m2 := hc
  have hcan : primeOf m = primeOf m2 := by
    have e1 : (primeOf h ^ 2 * primeOf l ^ 2) * primeOf m
        = (primeOf h ^ 2 * primeOf l ^ 2) * primeOf m2 := by
      calc (primeOf h ^ 2 * primeOf l ^ 2) * primeOf m
          = primeOf h ^ 2 * primeOf l ^ 2 * primeOf m := by ring
        _ = primeOf h ^ 2 * primeOf l ^ 2 * primeOf m2 := hc2
        _ = (primeOf h ^ 2 * primeOf l ^ 2) * primeOf m2 := by ring
    exact Nat.eq_of_mul_eq_mul_left hpos e1
  exact ⟨rfl, rfl, primeOf_inj m hm m2 hm2 hcan⟩

theorem inj_onePair (p c1 c2 c3 p2 d1 d2 d3 : ℕ) (hp : p < 13) (hc1 : c1 < 13)
    (hc2 : c2 < 13) (hc3 : c3 < 13) (h12 : c1 < c2) (h23 : c2 < c3)
    (hp1 : p ≠ c1) (hp2 : p ≠ c2) (hp3 : p ≠ c3)
    (hq : p2 < 13) (hd1 : d1 < 13) (hd2 : d2 < 13) (hd3 : d3 < 13)
    (g12 : d1 < d2) (g23 : d2 < d3) (gp1 : p2 ≠ d1) (gp2 : p2 ≠ d2) (gp3 : p2 ≠ d3)
    (heq : primeOf p ^ 2 * primeOf c1 * primeOf c2 * primeOf c3
      = primeOf p2 ^ 2 * primeOf d1 * primeOf d2 * primeOf d3) :
    p = p2 ∧ c1 = d1 ∧ c2 = d2 ∧ c3 = d3 := by
  have hperm : List.Perm [p, p, c1, c2, c3] [p2, p2, d1, d2, d3] := by
    refine perm_of_prod_eq _ _ (mem5_lt hp hp hc1 hc2 hc3) (mem5_lt hq hq hd1 hd2 hd3) ?_
    rw [form_onePair, form_onePair]
    exact heq
  have w0 := hperm.count_eq p2
  rw [count_in_onePair p2 p c1 c2 c3 (Nat.ne_of_lt h12)
      (Nat.ne_of_lt (Nat.lt_trans h12 h23)) (Nat.ne_of_lt h23) hp1 hp2 hp3,
    count_in_onePair p2 p2 d1 d2 d3 (Nat.ne_of_lt g12)
      (Nat.ne_of_lt (Nat.lt_trans g12 g23)) (Nat.ne_of_lt g23) gp1 gp2 gp3] at w0
  have hpp : p = p2 := by split_ifs at w0 <;> omega
  subst hpp
  have hc : primeOf p ^ 2 * (primeOf c1 * primeOf c2 * primeOf c3)
      = primeOf p ^ 2 * (primeOf d1 * primeOf d2 * primeOf d3) := by
    calc primeOf p ^ 2 * (primeOf c1 * primeOf c2 * primeOf c3)
        = primeOf p ^ 2 * primeOf c1 * primeOf c2 * primeOf c3 := by ring
      _ = primeOf p ^ 2 * primeOf d1 * primeOf d2 * primeOf d3 := heq
      _ = primeOf p ^ 2 * (primeOf d1 * primeOf d2 * primeOf d3) := by ring
  have hcan := Nat.eq_of_mul_eq_mul_left (pow_pos (primeOf_pos p hp) 2) hc
  have hp3' : List.Perm [c1, c2, c3] [d1, d2, d3] := by
    refine perm_of_prod_eq _ _ (mem3_lt hc1 hc2 hc3) (mem3_lt hd1 hd2 hd3) ?_
    rw [prod3, prod3]
    exact hcan
  have heq3 := List.eq_of_perm_of_sorted hp3' (sorted3 h12 h23) (sorted3 g12 g23)
  simp only [List.cons.injEq, and_true] at heq3
  exact ⟨rfl, heq3.1, heq3.2.1, heq3.2.2⟩

theorem inj_dist5 (L1 L2 : List ℕ) (h1 : ∀ r ∈ L1, r < 13) (h2 : ∀ r ∈ L2, r < 13)
    (s1 : L1.Pairwise (· < ·)) (s2 : L2.Pairwise (· < ·))
    (heq : (L1.map primeOf).prod = (L2.map primeOf).prod) : L1 = L2 :=
  List.eq_of_perm_of_sorted (perm_of_prod_eq L1 L2 h1 h2 heq)
    (s1.imp fun h => le_of_lt h) (s2.imp fun h => le_of_lt h)

theorem nodup_flatMap {α β : Type} : ∀ (O : List α) (g : α → List β), O.Nodup →
    (∀ a ∈ O, (g a).Nodup) →
    (∀ a1 ∈ O, ∀ a2 ∈ O, ∀ b, b ∈ g a1 → b ∈ g a2 → a1 = a2) →
    (O.flatMap g).Nodup := by
  intro O
  induction O with
  | nil => intro g _ _ _; simp
  | cons a O ih =>
    intro g hO hg hdisj
    rw [List.flatMap_cons]
    refine List.nodup_append.mpr ⟨hg a (by simp), ?_, ?_⟩
    · exact ih g (List.nodup_cons.mp hO).2 (fun x hx => hg x (by simp [hx]))
        (fun a1 h1 a2 h2 b hb1 hb2 =>
          hdisj a1 (by simp [h1]) a2 (by simp [h2]) b hb1 hb2)
    · intro b hb1 hb2
      rw [List.mem_flatMap] at hb2
      obtain ⟨a2, ha2, hb2⟩ := hb2
      have heq : a = a2 := hdisj a (by simp) a2 (by simp [ha2]) b hb1 hb2
      exact (List.nodup_cons.mp hO).1 (heq ▸ ha2)

theorem range13rev_nodup : ((List.range 13).reverse).Nodup := by
  simp [List.nodup_reverse, List.nodup_range]

theorem combinations_nodup (n k : ℕ) : (combinations n k).Nodup := by
  rw [combinations_eq_lexCombos]
  exact lexCombos_nodup n k

theorem sortByRevDesc_nodup (l : List (List ℕ)) (h : l.Nodup) :
    (sortByRevDesc l).Nodup :=
  (msort_perm descRevLe l).nodup_iff.mpr h

theorem quadPairs_nodup : quadPairs.Nodup := by
  rw [quadPairs]
  refine nodup_flatMap _ _ range13rev_nodup ?_ ?_
  · intro q _
    refine List.Nodup.map ?_ (List.Nodup.filter _ range13rev_nodup)
    intro k1 k2 h
    simpa using h
  · intro a1 _ a2 _ b hb1 hb2
    rw [List.mem_map] at hb1 hb2
    obtain ⟨k1, _, rfl⟩ := hb1
    obtain ⟨k2, _, hk⟩ := hb2
    exact (Prod.mk.injEq _ _ _ _).mp hk.symm |>.1

theorem fhPairs_nodup : fhPairs.Nodup := by
  rw [fhPairs]
  refine nodup_flatMap _ _ range13rev_nodup ?_ ?_
  · intro q _
    refine List.Nodup.map ?_ (List.Nodup.filter _ range13rev_nodup)
    intro k1 k2 h
    simpa using h
  · intro a1 _ a2 _ b hb1 hb2
    rw [List.mem_map] at hb1 hb2
    obtain ⟨k1, _, rfl⟩ := hb1
    obtain ⟨k2, _, hk⟩ := hb2
    exact (Prod.mk.injEq _ _ _ _).mp hk.symm |>.1

theorem tripsPatterns_nodup : tripsPatterns.Nodup := by
  rw [tripsPatterns]
  refine nodup_flatMap _ _ range13rev_nodup ?_ ?_
  · intro t _
    refine List.Nodup.map ?_
      (List.Nodup.filter _ (sortByRevDesc_nodup _ (combinations_nodup 13 2)))
    intro k1 k2 h
    simpa using h
  · intro a1 _ a2 _ b hb1 hb2
    rw [List.mem_map] at hb1 hb2
    obtain ⟨k1, _, rfl⟩ := hb1
    obtain ⟨k2, _, hk⟩ := hb2
    exact (Prod.mk.injEq _ _ _ _).mp hk.symm |>.1

theorem onePairPatterns_nodup : onePairPatterns.Nodup := by
  rw [onePairPatterns]
  refine nodup_flatMap _ _ range13rev_nodup ?_ ?_
  · intro t _
    refine List.Nodup.map ?_
      (List.Nodup.filter _ (sortByRevDesc_nodup _ (combinations_nodup 13 3)))
    intro k1 k2 h
    simpa using h
  · intro a1 _ a2 _ b hb1 hb2
    rw [List.mem_map] at hb1 hb2
    obtain ⟨k1, _, rfl⟩ := hb1
    obtain ⟨k2, _, hk⟩ := hb2
    exact (Prod.mk.injEq _ _ _ _).mp hk.symm |>.1

theorem twoPairPatterns_nodup : twoPairPatterns.Nodup := by
  rw [twoPairPatterns]
  refine nodup_flatMap _ _ (sortByRevDesc_nodup _ (combinations_nodup 13 2)) ?_ ?_
  · intro pr _
    refine List.Nodup.map ?_ (List.Nodup.filter _ range13rev_nodup)
    intro k1 k2 h
    simpa using h
  · intro a1 _ a2 _ b hb1 hb2
    rw [List.mem_map] at hb1 hb2
    obtain ⟨k1, _, rfl⟩ := hb1
    obtain ⟨k2, _, hk⟩ := hb2
    exact (Prod.mk.injEq _ _ _ _).mp hk.symm |>.1

theorem flushCombos_nodup : flushCombos.Nodup := by
  rw [flushCombos]
  exact List.Nodup.filter _ (sortByRevDesc_nodup _ (combinations_nodup 13 5))

theorem quadKeys_nodup : quadKeys.Nodup := by
  rw [quadKeys]
  refine List.Nodup.map_on ?_ quadPairs_nodup
  intro x hx y hy hf
  obtain ⟨hx1, hx2, hx3⟩ := quadPairs_mem x hx
  obtain ⟨hy1, hy2, hy3⟩ := quadPairs_mem y hy
  obtain ⟨e1, e2⟩ := inj_quad x.1 x.2 y.1 y.2 hx1 hx2 hx3 hy1 hy2 hy3 hf
  exact Prod.ext e1 e2

theorem fhKeys_nodup : fhKeys.Nodup := by
  rw [fhKeys]
  refine List.Nodup.map_on ?_ fhPairs_nodup
  intro x hx y hy hf
  obtain ⟨hx1, hx2, hx3⟩ := fhPairs_mem x hx
  obtain ⟨hy1, hy2, hy3⟩ := fhPairs_mem y hy
  obtain ⟨e1, e2⟩ := inj_fh x.1 x.2 y.1 y.2 hx1 hx2 hx3 hy1 hy2 hy3 hf
  exact Prod.ext e1 e2

theorem straightKeys_nodup : straightKeys.Nodup := by decide

theorem tripsKeys_nodup : tripsKeys.Nodup := by
  rw [tripsKeys]
  refine List.Nodup.map_on ?_ tripsPatterns_nodup
  intro x hx y hy hf
  obtain ⟨t, k1, k2, rfl, ht, hk12, hk2, ht1, ht2⟩ := tripsPatterns_mem x hx
  obtain ⟨u, j1, j2, rfl, hu, hj12, hj2, hu1, hu2⟩ := tripsPatterns_mem y hy
  simp only at hf
  have e0 : ([k1, k2] : List ℕ).getD 0 0 = k1 := rfl
  have e1 : ([k1, k2] : List ℕ).getD 1 0 = k2 := rfl
  have e2 : ([j1, j2] : List ℕ).getD 0 0 = j1 := rfl
  have e3 : ([j1, j2] : List ℕ).getD 1 0 = j2 := rfl
  rw [e0, e1, e2, e3] at hf
  obtain ⟨q1, q2, q3⟩ := inj_trips t k1 k2 u j1 j2 ht (by omega) hk2 hk12 ht1 ht2
    hu (by omega) hj2 hj12 hu1 hu2 hf
  rw [q1, q2, q3]

theorem twoPairKeys_nodup : twoPairKeys.Nodup := by
  rw [twoPairKeys]
  refine List.Nodup.map_on ?_ twoPairPatterns_nodup
  intro x hx y hy hf
  obtain ⟨a, b, k, rfl, hab, hb, hk, hka, hkb⟩ := twoPairPatterns_mem x hx
  obtain ⟨a2, b2, k2, rfl, hab2, hb2, hk2, hka2, hkb2⟩ := twoPairPatterns_mem y hy
  simp only at hf
  have e0 : ([a, b] : List ℕ).getD 0 0 = a := rfl
  have e1 : ([a, b] : List ℕ).getD 1 0 = b := rfl
  have e2 : ([a2, b2] : List ℕ).getD 0 0 = a2 := rfl
  have e3 : ([a2, b2] : List ℕ).getD 1 0 = b2 := rfl
  rw [e0, e1, e2, e3, Nat.max_eq_right (le_of_lt hab), Nat.min_eq_left (le_of_lt hab),
    Nat.max_eq_right (le_of_lt hab2), Nat.min_eq_left (le_of_lt hab2)] at hf
  obtain ⟨q1, q2, q3⟩ := inj_twoPair b a k b2 a2 k2 hb (by omega) hk hab hkb hka
    hb2 (by omega) hk2 hab2 hkb2 hka2 hf
  rw [q1, q2, q3]

theorem onePairKeys_nodup : onePairKeys.Nodup := by
  rw [onePairKeys]
  refine List.Nodup.map_on ?_ onePairPatterns_nodup
  intro x hx y hy hf
  obtain ⟨r, k0, k1, k2, rfl, hr, h01, h12, h2, hr0, hr1, hr2⟩ := onePairPatterns_mem x hx
  obtain ⟨r2, j0, j1, j2, rfl, hs, g01, g12, g2, hs0, hs1, hs2⟩ := onePairPatterns_mem y hy
  simp only at hf
  have e0 : ([k0, k1, k2] : List ℕ).getD 0 0 = k0 := rfl
  have e1 : ([k0, k1, k2] : List ℕ).getD 1 0 = k1 := rfl
  have e2 : ([k0, k1, k2] : List ℕ).getD 2 0 = k2 := rfl
  have e3 : ([j0, j1, j2] : List ℕ).getD 0 0 = j0 := rfl
  have e4 : ([j0, j1, j2] : List ℕ).getD 1 0 = j1 := rfl
  have e5 : ([j0, j1, j2] : List ℕ).getD 2 0 = j2 := rfl
  rw [e0, e1, e2, e3, e4, e5] at hf
  obtain ⟨q1, q2, q3, q4⟩ := inj_onePair r k0 k1 k2 r2 j0 j1 j2 hr (by omega) (by omega)
    h2 h01 h12 hr0 hr1 hr2 hs (by omega) (by omega) g2 g01 g12 hs0 hs1 hs2 hf
  rw [q1, q2, q3, q4]

theorem pairwise5_lt {a b c d e : ℕ} (h1 : a < b) (h2 : b < c) (h3 : c < d)
    (h4 : d < e) : List.Pairwise (· < ·) [a, b, c, d, e] := by
  refine List.pairwise_cons.mpr ⟨fun y hy => ?_, List.pairwise_cons.mpr
    ⟨fun y hy => ?_, List.pairwise_cons.mpr ⟨fun y hy => ?_, List.pairwise_cons.mpr
      ⟨fun y hy => ?_, List.pairwise_singleton _ _⟩⟩⟩⟩ <;>
    · simp only [List.mem_cons, List.not_mem_nil, or_false] at hy
      omega

theorem highKeys_nodup : highKeys.Nodup := by
  rw [highKeys]
  refine List.Nodup.map_on ?_ flushCombos_nodup
  intro x hx y hy hf
  obtain ⟨⟨a, b, d, e, f, rfl, g1, g2, g3, g4, g5⟩, _⟩ := flushCombos_mem x hx
  obtain ⟨⟨a2, b2, d2, e2, f2, rfl, j1, j2, j3, j4, j5⟩, _⟩ := flushCombos_mem y hy
  exact inj_dist5 _ _ (mem5_lt (by omega) (by omega) (by omega) (by omega) g5)
    (mem5_lt (by omega) (by omega) (by omega) (by omega) j5)
    (pairwise5_lt g1 g2 g3 g4) (pairwise5_lt j1 j2 j3 j4) hf

theorem quadKeys_mem : ∀ x ∈ quadKeys, ∃ q k : ℕ, q < 13 ∧ k < 13 ∧ k ≠ q ∧
    x = primeOf q ^ 4 * primeOf k := by
  intro x hx
  rw [quadKeys, List.mem_map] at hx
  obtain ⟨p, hp, rfl⟩ := hx
  obtain ⟨h1, h2, h3⟩ := quadPairs_mem p hp
  exact ⟨p.1, p.2, h1, h2, h3, rfl⟩

theorem fhKeys_mem : ∀ x ∈ fhKeys, ∃ t s : ℕ, t < 13 ∧ s < 13 ∧ s ≠ t ∧
    x = primeOf t ^ 3 * primeOf s ^ 2 := by
  intro x hx
  rw [fhKeys, List.mem_map] at hx
  obtain ⟨p, hp, rfl⟩ := hx
  obtain ⟨h1, h2, h3⟩ := fhPairs_mem p hp
  exact ⟨p.1, p.2, h1, h2, h3, rfl⟩

theorem tripsKeys_mem : ∀ x ∈ tripsKeys, ∃ u a b : ℕ, u < 13 ∧ a < 13 ∧ b < 13 ∧
    a < b ∧ u ≠ a ∧ u ≠ b ∧ x = primeOf u ^ 3 * primeOf a * primeOf b := by
  intro x hx
  rw [tripsKeys, List.mem_map] at hx
  obtain ⟨p, hp, rfl⟩ := hx
  obtain ⟨t, k1, k2, rfl, ht, h12, h2, ht1, ht2⟩ := tripsPatterns_mem p hp
  refine ⟨t, k1, k2, ht, by omega, h2, h12, ht1, ht2, ?_⟩
  have e0 : ([k1, k2] : List ℕ).getD 0 0 = k1 := rfl
  have e1 : ([k1, k2] : List ℕ).getD 1 0 = k2 := rfl
  simp only
  rw [e0, e1]

theorem twoPairKeys_mem : ∀ x ∈ twoPairKeys, ∃ h l m : ℕ, h < 13 ∧ l < 13 ∧ m < 13 ∧
    l < h ∧ m ≠ h ∧ m ≠ l ∧ x = primeOf h ^ 2 * primeOf l ^ 2 * primeOf m := by
  intro x hx
  rw [twoPairKeys, List.mem_map] at hx
  obtain ⟨p, hp, rfl⟩ := hx
  obtain ⟨a, b, k, rfl, hab, hb, hk, hka, hkb⟩ := twoPairPatterns_mem p hp
  refine ⟨b, a, k, hb, by omega, hk, hab, hkb, hka, ?_⟩
  have e0 : ([a, b] : List ℕ).getD 0 0 = a := rfl
  have e1 : ([a, b] : List ℕ).getD 1 0 = b := rfl
  simp only
  rw [e0, e1, Nat.max_eq_right (le_of_lt hab), Nat.min_eq_left (le_of_lt hab)]

theorem onePairKeys_mem : ∀ x ∈ onePairKeys, ∃ p c1 c2 c3 : ℕ, p < 13 ∧ c1 < 13 ∧
    c2 < 13 ∧ c3 < 13 ∧ c1 < c2 ∧ c2 < c3 ∧ p ≠ c1 ∧ p ≠ c2 ∧ p ≠ c3 ∧
    x = primeOf p ^ 2 * primeOf c1 * primeOf c2 * primeOf c3 := by
  intro x hx
  rw [onePairKeys, List.mem_map] at hx
  obtain ⟨p, hp, rfl⟩ := hx
  obtain ⟨r, k0, k1, k2, rfl, hr, h01, h12, h2, hr0, hr1, hr2⟩ := onePairPatterns_mem p hp
  refine ⟨r, k0, k1, k2, hr, by omega, by omega, h2, h01, h12, hr0, hr1, hr2, ?_⟩
  have e0 : ([k0, k1, k2] : List ℕ).getD 0 0 = k0 := rfl
  have e1 : ([k0, k1, k2] : List ℕ).getD 1 0 = k1 := rfl
  have e2 : ([k0, k1, k2] : List ℕ).getD 2 0 = k2 := rfl
  simp only
  rw [e0, e1, e2]

theorem highKeys_mem : ∀ x ∈ highKeys, ∃ y1 y2 y3 y4 y5 : ℕ,
    y1 < y2 ∧ y2 < y3 ∧ y3 < y4 ∧ y4 < y5 ∧ y5 < 13 ∧
    isStraightPattern [y1, y2, y3, y4, y5] = false ∧
    x = ([y1, y2, y3, y4, y5].map primeOf).prod := by
  intro x hx
  rw [highKeys, List.mem_map] at hx
  obtain ⟨c, hc, rfl⟩ := hx
  obtain ⟨⟨a, b, d, e, f, rfl, g1, g2, g3, g4, g5⟩, hns⟩ := flushCombos_mem c hc
  exact ⟨a, b, d, e, f, g1, g2, g3, g4, g5, hns, rfl⟩

theorem straightKeys_mem : ∀ x ∈ straightKeys, ∃ y1 y2 y3 y4 y5 : ℕ,
    y1 < y2 ∧ y2 < y3 ∧ y3 < y4 ∧ y4 < y5 ∧ y5 < 13 ∧
    isStraightPattern [y1, y2, y3, y4, y5] = true ∧
    x = ([y1, y2, y3, y4, y5].map primeOf).prod := by
  intro x hx
  rw [straightKeys, List.mem_map] at hx
  obtain ⟨p, hp, rfl⟩ := hx
  simp only [straightPatterns, List.mem_cons, List.not_mem_nil, or_false] at hp
  rcases hp with rfl | rfl | rfl | rfl | rfl | rfl | rfl | rfl | rfl | rfl
  · exact ⟨8, 9, 10, 11, 12, by omega, by omega, by omega, by omega, by omega,
      by decide, by decide⟩
  · exact ⟨7, 8, 9, 10, 11, by omega, by omega, by omega, by omega, by omega,
      by decide, by decide⟩
  · exact ⟨6, 7, 8, 9, 10, by omega, by omega, by omega, by omega, by omega,
      by decide, by decide⟩
  · exact ⟨5, 6, 7, 8, 9, by omega, by omega, by omega, by omega, by omega,
      by decide, by decide⟩
  · exact ⟨4, 5, 6, 7, 8, by omega, by omega, by omega, by omega, by omega,
      by decide, by decide⟩
  · exact ⟨3, 4, 5, 6, 7, by omega, by omega, by omega, by omega, by omega,
      by decide, by decide⟩
  · exact ⟨2, 3, 4, 5, 6, by omega, by omega, by omega, by omega, by omega,
      by decide, by decide⟩
  · exact ⟨1, 2, 3, 4, 5, by omega, by omega, by omega, by omega, by omega,
      by decide, by decide⟩
  · exact ⟨0, 1, 2, 3, 4, by omega, by omega, by omega, by omega, by omega,
      by decide, by decide⟩
  · exact ⟨0, 1, 2, 3, 12, by omega, by omega, by omega, by omega, by omega,
      by decide, by decide⟩

theorem disj_quad_fh : List.Disjoint quadKeys fhKeys := by
  intro x hx hy
  obtain ⟨q1, k1, hq1, hk1, hkq1, rfl⟩ := quadKeys_mem x hx
  obtain ⟨t2, s2, ht2, hs2, hst2, heq⟩ := fhKeys_mem _ hy
  exact shape_quad_fh q1 k1 t2 s2 hq1 hk1 hkq1 ht2 hs2 hst2 heq

theorem disj_quad_straight : List.Disjoint quadKeys straightKeys := by
  intro x hx hy
  obtain ⟨q1, k1, hq1, hk1, hkq1, rfl⟩ := quadKeys_mem x hx
  obtain ⟨y12, y22, y32, y42, y52, g122, g232, g342, g452, hy52, hsp2, heq⟩ := straightKeys_mem _ hy
  exact shape_quad_dist5 q1 k1 y12 y22 y32 y42 y52 hq1 hk1 hkq1 (by omega) (by omega) (by omega) (by omega) hy52 g122 g232 g342 g452 heq

theorem disj_quad_trips : List.Disjoint quadKeys tripsKeys := by
  intro x hx hy
  obtain ⟨q1, k1, hq1, hk1, hkq1, rfl⟩ := quadKeys_mem x hx
  obtain ⟨u2, a2, b2, hu2, ha2, hb2, hab2, hua2, hub2, heq⟩ := tripsKeys_mem _ hy
  exact shape_quad_trips q1 k1 u2 a2 b2 hq1 hk1 hkq1 hu2 ha2 hb2 hab2 hua2 hub2 heq

theorem disj_quad_twoPair : List.Disjoint quadKeys twoPairKeys := by
  intro x hx hy
  obtain ⟨q1, k1, hq1, hk1, hkq1, rfl⟩ := quadKeys_mem x hx
  obtain ⟨h2, l2, m2, hh2, hl2, hm2, hlh2, hmh2, hml2, heq⟩ := twoPairKeys_mem _ hy
  exact shape_quad_twoPair q1 k1 h2 l2 m2 hq1 hk1 hkq1 hh2 hl2 hm2 hlh2 hmh2 hml2 heq

theorem disj_quad_onePair : List.Disjoint quadKeys onePairKeys := by
  intro x hx hy
  obtain ⟨q1, k1, hq1, hk1, hkq1, rfl⟩ := quadKeys_mem x hx
  obtain ⟨p2, c12, c22, c32, hp2, hc12, hc22, hc32, h122, h232, hpa2, hpb2, hpc2, heq⟩ := onePairKeys_mem _ hy
  exact shape_quad_onePair q1 k1 p2 c12 c22 c32 hq1 hk1 hkq1 hp2 hc12 hc22 hc32 h122 h232 hpa2 hpb2 hpc2 heq

theorem disj_quad_high : List.Disjoint quadKeys highKeys := by
  intro x hx hy
  obtain ⟨q1, k1, hq1, hk1, hkq1, rfl⟩ := quadKeys_mem x hx
  obtain ⟨y12, y22, y32, y42, y52, g122, g232, g342, g452, hy52, hsp2, heq⟩ := highKeys_mem _ hy
  exact shape_quad_dist5 q1 k1 y12 y22 y32 y42 y52 hq1 hk1 hkq1 (by omega) (by omega) (by omega) (by omega) hy52 g122 g232 g342 g452 heq

theorem disj_fh_straight : List.Disjoint fhKeys straightKeys := by
  intro x hx hy
  obtain ⟨t1, s1, ht1, hs1, hst1, rfl⟩ := fhKeys_mem x hx
  obtain ⟨y12, y22, y32, y42, y52, g122, g232, g342, g452, hy52, hsp2, heq⟩ := straightKeys_mem _ hy
  exact shape_fh_dist5 t1 s1 y12 y22 y32 y42 y52 ht1 hs1 hst1 (by omega) (by omega) (by omega) (by omega) hy52 g122 g232 g342 g452 heq

theorem disj_fh_trips : List.Disjoint fhKeys tripsKeys := by
  intro x hx hy
  obtain ⟨t1, s1, ht1, hs1, hst1, rfl⟩ := fhKeys_mem x hx
  obtain ⟨u2, a2, b2, hu2, ha2, hb2, hab2, hua2, hub2, heq⟩ := tripsKeys_mem _ hy
  exact shape_fh_trips t1 s1 u2 a2 b2 ht1 hs1 hst1 hu2 ha2 hb2 hab2 hua2 hub2 heq

theorem disj_fh_twoPair : List.Disjoint fhKeys twoPairKeys := by
  intro x hx hy
  obtain ⟨t1, s1, ht1, hs1, hst1, rfl⟩ := fhKeys_mem x hx
  obtain ⟨h2, l2, m2, hh2, hl2, hm2, hlh2, hmh2, hml2, heq⟩ := twoPairKeys_mem _ hy
  exact shape_fh_twoPair t1 s1 h2 l2 m2 ht1 hs1 hst1 hh2 hl2 hm2 hlh2 hmh2 hml2 heq

theorem disj_fh_onePair : List.Disjoint fhKeys onePairKeys := by
  intro x hx hy
  obtain ⟨t1, s1, ht1, hs1, hst1, rfl⟩ := fhKeys_mem x hx
  obtain ⟨p2, c12, c22, c32, hp2, hc12, hc22, hc32, h122, h232, hpa2, hpb2, hpc2, heq⟩ := onePairKeys_mem _ hy
  exact shape_fh_onePair t1 s1 p2 c12 c22 c32 ht1 hs1 hst1 hp2 hc12 hc22 hc32 h122 h232 hpa2 hpb2 hpc2 heq

theorem disj_fh_high : List.Disjoint fhKeys highKeys := by
  intro x hx hy
  obtain ⟨t1, s1, ht1, hs1, hst1, rfl⟩ := fhKeys_mem x hx
  obtain ⟨y12, y22, y32, y42, y52, g122, g232, g342, g452, hy52, hsp2, heq⟩ := highKeys_mem _ hy
  exact shape_fh_dist5 t1 s1 y12 y22 y32 y42 y52 ht1 hs1 hst1 (by omega) (by omega) (by omega) (by omega) hy52 g122 g232 g342 g452 heq

theorem disj_straight_trips : List.Disjoint straightKeys tripsKeys := by
  intro x hx hy
  obtain ⟨y11, y21, y31, y41, y51, g121, g231, g341, g451, hy51, hsp1, rfl⟩ := straightKeys_mem x hx
  obtain ⟨u2, a2, b2, hu2, ha2, hb2, hab2, hua2, hub2, heq⟩ := tripsKeys_mem _ hy
  exact shape_trips_dist5 u2 a2 b2 y11 y21 y31 y41 y51 hu2 ha2 hb2 hab2 hua2 hub2 (by omega) (by omega) (by omega) (by omega) hy51 g121 g231 g341 g451 heq.symm

theorem disj_straight_twoPair : List.Disjoint straightKeys twoPairKeys := by
  intro x hx hy
  obtain ⟨y11, y21, y31, y41, y51, g121, g231, g341, g451, hy51, hsp1, rfl⟩ := straightKeys_mem x hx
  obtain ⟨h2, l2, m2, hh2, hl2, hm2, hlh2, hmh2, hml2, heq⟩ := twoPairKeys_mem _ hy
  exact shape_twoPair_dist5 h2 l2 m2 y11 y21 y31 y41 y51 hh2 hl2 hm2 hlh2 hmh2 hml2 (by omega) (by omega) (by omega) (by omega) hy51 g121 g231 g341 g451 heq.symm

theorem disj_straight_onePair : List.Disjoint straightKeys onePairKeys := by
  intro x hx hy
  obtain ⟨y11, y21, y31, y41, y51, g121, g231, g341, g451, hy51, hsp1, rfl⟩ := straightKeys_mem x hx
  obtain ⟨p2, c12, c22, c32, hp2, hc12, hc22, hc32, h122, h232, hpa2, hpb2, hpc2, heq⟩ := onePairKeys_mem _ hy
  exact shape_onePair_dist5 p2 c12 c22 c32 y11 y21 y31 y41 y51 hp2 hc12 hc22 hc32 h122 h232 hpa2 hpb2 hpc2 (by omega) (by omega) (by omega) (by omega) hy51 g121 g231 g341 g451 heq.symm

theorem disj_straight_high : List.Disjoint straightKeys highKeys := by
  intro x hx hy
  obtain ⟨y1, y2, y3, y4, y5, g12, g23, g34, g45, hy5, hsp, rfl⟩ := straightKeys_mem x hx
  obtain ⟨z1, z2, z3, z4, z5, j12, j23, j34, j45, hz5, hnsp, heq⟩ := highKeys_mem _ hy
  have heql := inj_dist5 [y1, y2, y3, y4, y5] [z1, z2, z3, z4, z5]
    (mem5_lt (by omega) (by omega) (by omega) (by omega) hy5)
    (mem5_lt (by omega) (by omega) (by omega) (by omega) hz5)
    (pairwise5_lt g12 g23 g34 g45) (pairwise5_lt j12 j23 j34 j45) heq
  rw [heql, hnsp] at hsp
  exact Bool.noConfusion hsp

theorem disj_trips_twoPair : List.Disjoint tripsKeys twoPairKeys := by
  intro x hx hy
  obtain ⟨u1, a1, b1, hu1, ha1, hb1, hab1, hua1, hub1, rfl⟩ := tripsKeys_mem x hx
  obtain ⟨h2, l2, m2, hh2, hl2, hm2, hlh2, hmh2, hml2, heq⟩ := twoPairKeys_mem _ hy
  exact shape_trips_twoPair u1 a1 b1 h2 l2 m2 hu1 ha1 hb1 hab1 hua1 hub1 hh2 hl2 hm2 hlh2 hmh2 hml2 heq

theorem disj_trips_onePair : List.Disjoint tripsKeys onePairKeys := by
  intro x hx hy
  obtain ⟨u1, a1, b1, hu1, ha1, hb1, hab1, hua1, hub1, rfl⟩ := tripsKeys_mem x hx
  obtain ⟨p2, c12, c22, c32, hp2, hc12, hc22, hc32, h122, h232, hpa2, hpb2, hpc2, heq⟩ := onePairKeys_mem _ hy
  exact shape_trips_onePair u1 a1 b1 p2 c12 c22 c32 hu1 ha1 hb1 hab1 hua1 hub1 hp2 hc12 hc22 hc32 h122 h232 hpa2 hpb2 hpc2 heq

theorem disj_trips_high : List.Disjoint tripsKeys highKeys := by
  intro x hx hy
  obtain ⟨u1, a1, b1, hu1, ha1, hb1, hab1, hua1, hub1, rfl⟩ := tripsKeys_mem x hx
  obtain ⟨y12, y22, y32, y42, y52, g122, g232, g342, g452, hy52, hsp2, heq⟩ := highKeys_mem _ hy
  exact shape_trips_dist5 u1 a1 b1 y12 y22 y32 y42 y52 hu1 ha1 hb1 hab1 hua1 hub1 (by omega) (by omega) (by omega) (by omega) hy52 g122 g232 g342 g452 heq

theorem disj_twoPair_onePair : List.Disjoint twoPairKeys onePairKeys := by
  intro x hx hy
  obtain ⟨h1, l1, m1, hh1, hl1, hm1, hlh1, hmh1, hml1, rfl⟩ := twoPairKeys_mem x hx
  obtain ⟨p2, c12, c22, c32, hp2, hc12, hc22, hc32, h122, h232, hpa2, hpb2, hpc2, heq⟩ := onePairKeys_mem _ hy
  exact shape_twoPair_onePair h1 l1 m1 p2 c12 c22 c32 hh1 hl1 hm1 hlh1 hmh1 hml1 hp2 hc12 hc22 hc32 h122 h232 hpa2 hpb2 hpc2 heq

theorem disj_twoPair_high : List.Disjoint twoPairKeys highKeys := by
  intro x hx hy
  obtain ⟨h1, l1, m1, hh1, hl1, hm1, hlh1, hmh1, hml1, rfl⟩ := twoPairKeys_mem x hx
  obtain ⟨y12, y22, y32, y42, y52, g122, g232, g342, g452, hy52, hsp2, heq⟩ := highKeys_mem _ hy
  exact shape_twoPair_dist5 h1 l1 m1 y12 y22 y32 y42 y52 hh1 hl1 hm1 hlh1 hmh1 hml1 (by omega) (by omega) (by omega) (by omega) hy52 g122 g232 g342 g452 heq

theorem disj_onePair_high : List.Disjoint onePairKeys highKeys := by
  intro x hx hy
  obtain ⟨p1, c11, c21, c31, hp1, hc11, hc21, hc31, h121, h231, hpa1, hpb1, hpc1, rfl⟩ := onePairKeys_mem x hx
  obtain ⟨y12, y22, y32, y42, y52, g122, g232, g342, g452, hy52, hsp2, heq⟩ := highKeys_mem _ hy
  exact shape_onePair_dist5 p1 c11 c21 c31 y12 y22 y32 y42 y52 hp1 hc11 hc21 hc31 h121 h231 hpa1 hpb1 hpc1 (by omega) (by omega) (by omega) (by omega) hy52 g122 g232 g342 g452 heq

theorem unique5Raw_keys_eq :
    unique5Raw.map Prod.fst = quadKeys ++ (fhKeys ++ (straightKeys ++ (tripsKeys ++
      (twoPairKeys ++ (onePairKeys ++ highKeys))))) := by
  rw [unique5Raw]
  simp [List.map_append, assignRanks_fst, List.append_assoc]

theorem unique5Raw_keys_nodup : (unique5Raw.map Prod.fst).Nodup := by
  rw [unique5Raw_keys_eq]
  refine List.nodup_append.mpr ⟨quadKeys_nodup, ?_, ?_⟩
  · refine List.nodup_append.mpr ⟨fhKeys_nodup, ?_, ?_⟩
    · refine List.nodup_append.mpr ⟨straightKeys_nodup, ?_, ?_⟩
      · refine List.nodup_append.mpr ⟨tripsKeys_nodup, ?_, ?_⟩
        · refine List.nodup_append.mpr ⟨twoPairKeys_nodup, ?_, ?_⟩
          · exact List.nodup_append.mpr
              ⟨onePairKeys_nodup, highKeys_nodup, disj_onePair_high⟩
          · rw [List.disjoint_append_right]
            exact ⟨disj_twoPair_onePair, disj_twoPair_high⟩
        · rw [List.disjoint_append_right, List.disjoint_append_right]
          exact ⟨disj_trips_twoPair, disj_trips_onePair, disj_trips_high⟩
      · rw [List.disjoint_append_right, List.disjoint_append_right,
          List.disjoint_append_right]
        exact ⟨disj_straight_trips, disj_straight_twoPair, disj_straight_onePair,
          disj_straight_high⟩
    · rw [List.disjoint_append_right, List.disjoint_append_right,
        List.disjoint_append_right, List.disjoint_append_right]
      exact ⟨disj_fh_straight, disj_fh_trips, disj_fh_twoPair, disj_fh_onePair,
        disj_fh_high⟩
  · rw [List.disjoint_append_right, List.disjoint_append_right,
      List.disjoint_append_right, List.disjoint_append_right,
      List.disjoint_append_right]
    exact ⟨disj_quad_fh, disj_quad_straight, disj_quad_trips, disj_quad_twoPair,
      disj_quad_onePair, disj_quad_high⟩

/-- C1: the tables of `HandRankTables::new` partition the 7,462 strengths:
the ten straight-flush patterns take strengths 1-10 and the 1,277
non-straight flushes take 323-1599 in the 8,192-entry flush table (all flush
indices below 8,192, written once each); the prime-product table assigns
quads 11-166, full houses 167-322, straights 1600-1609, trips 1610-2467,
two pair 2468-3325, one pair 3326-6185 and high card 6186-7462; the
per-category counts are 10, 156, 156, 1277, 10, 858, 858, 2860, 1277; the
keys of each table are pairwise distinct and the combined strengths are
exactly 1..7462, each once. -/
theorem claim_C1_tables :
    sfPatterns.length = 10 ∧ quadKeys.length = 156 ∧ fhKeys.length = 156 ∧
    flushKeys.length = 1277 ∧ straightKeys.length = 10 ∧ tripsKeys.length = 858 ∧
    twoPairKeys.length = 858 ∧ onePairKeys.length = 2860 ∧ highKeys.length = 1277 ∧
    (assignRanks 1 sfPatterns).map Prod.snd = List.range' 1 10 ∧
    (assignRanks flushStart flushKeys).map Prod.snd = List.range' 323 1277 ∧
    (assignRanks quadStart quadKeys).map Prod.snd = List.range' 11 156 ∧
    (assignRanks fhStart fhKeys).map Prod.snd = List.range' 167 156 ∧
    (assignRanks straightStart straightKeys).map Prod.snd = List.range' 1600 10 ∧
    (assignRanks tripsStart tripsKeys).map Prod.snd = List.range' 1610 858 ∧
    (assignRanks twoPairStart twoPairKeys).map Prod.snd = List.range' 2468 858 ∧
    (assignRanks onePairStart onePairKeys).map Prod.snd = List.range' 3326 2860 ∧
    (assignRanks highStart highKeys).map Prod.snd = List.range' 6186 1277 ∧
    (∀ x ∈ flushAssign.map Prod.fst, x < 8192) ∧
    (flushAssign.map Prod.fst).Nodup ∧
    (unique5Raw.map Prod.fst).Nodup ∧
    (flushAssign.map Prod.snd ++ unique5Raw.map Prod.snd).Perm (List.range' 1 7462) := by
  refine ⟨rfl, quadKeys_len, fhKeys_len, flushKeys_len, straightKeys_len,
    tripsKeys_len, twoPairKeys_len, onePairKeys_len, highKeys_len,
    ?_, ?_, ?_, ?_, ?_, ?_, ?_, ?_, ?_,
    flushAssign_keys_bound, flushAssign_keys_nodup, unique5Raw_keys_nodup,
    strengths_partition⟩
  · rw [assignRanks_snd]
    rfl
  · rw [assignRanks_snd, flushStart_eq, flushKeys_len]
  · rw [assignRanks_snd, quadStart_eq, quadKeys_len]
  · rw [assignRanks_snd, fhStart_eq, fhKeys_len]
  · rw [assignRanks_snd, straightStart_eq, straightKeys_len]
  · rw [assignRanks_snd, tripsStart_eq, tripsKeys_len]
  · rw [assignRanks_snd, twoPairStart_eq, twoPairKeys_len]
  · rw [assignRanks_snd, onePairStart_eq, onePairKeys_len]
  · rw [assignRanks_snd, highStart_eq, highKeys_len]

/-! ## The seven-card evaluators as a min-fold over the 21 subsets -/

theorem bsearchGo_mem (l : List (ℕ × ℕ)) (key : ℕ) :
    ∀ (fuel lo hi v : ℕ), hi ≤ l.length →
      bsearchGo l key fuel lo hi = some v → v ∈ l.map Prod.snd := by
  intro fuel
  induction fuel with
  | zero => intro lo hi v _ h; simp [bsearchGo] at h
  | succ fuel ih =>
    intro lo hi v hhi h
    simp only [bsearchGo] at h
    by_cases hlt : lo < hi
    · rw [if_pos hlt] at h
      have hmid : (lo + hi) / 2 < l.length := by omega
      cases hcmp : compare (l.getD ((lo + hi) / 2) (0, 0)).1 key with
      | lt => rw [hcmp] at h; exact ih ((lo + hi) / 2 + 1) hi v hhi h
      | eq =>
        rw [hcmp] at h
        obtain rfl : (l.getD ((lo + hi) / 2) (0, 0)).2 = v := Option.some.inj h
        rw [List.getD_eq_getElem l (0, 0) hmid]
        exact List.mem_map.mpr ⟨_, List.getElem_mem hmid, rfl⟩
      | gt => rw [hcmp] at h; exact ih lo ((lo + hi) / 2) v (by omega) h
    · rw [if_neg hlt] at h; exact absurd h (by simp)

theorem lookupFlush_bounds (bits : ℕ) :
    1 ≤ lookupFlush bits ∧ lookupFlush bits ≤ WORST_RANK := by
  delta lookupFlush
  cases hf : flushAssign.reverse.find? (fun kv => decide (kv.1 = bits)) with
  | none =>
    show 1 ≤ WORST_RANK ∧ WORST_RANK ≤ WORST_RANK
    rw [WORST_RANK]; omega
  | some kv =>
    show 1 ≤ kv.2 ∧ kv.2 ≤ WORST_RANK
    have hm : kv ∈ flushAssign := List.mem_reverse.mp (List.mem_of_find?_eq_some hf)
    have hsnd : kv.2 ∈ flushAssign.map Prod.snd := List.mem_map.mpr ⟨kv, hm, rfl⟩
    rw [flushAssign_snd] at hsnd
    rw [WORST_RANK]
    rcases List.mem_append.mp hsnd with h | h <;> (rw [List.mem_range'_1] at h; omega)

theorem lookupUnique_bounds (key v : ℕ) (h : lookupUnique key = some v) :
    1 ≤ v ∧ v ≤ WORST_RANK := by
  have hmem : v ∈ unique5.map Prod.snd := by
    refine bsearchGo_mem unique5 key _ 0 (myLength unique5) v ?_ h
    rw [myLength_eq]
  have hperm : List.Perm (unique5.map Prod.snd) (unique5Raw.map Prod.snd) := by
    rw [unique5]
    exact (msort_perm _ unique5Raw).map Prod.snd
  have hmem2 := hperm.mem_iff.mp hmem
  rw [unique5Raw_snd] at hmem2
  simp only [List.mem_append, List.mem_range'_1] at hmem2
  rw [WORST_RANK]; omega

theorem e5fast_bounds (a b c d e r : ℕ) (h : e5fast a b c d e = some r) :
    1 ≤ r ∧ r ≤ WORST_RANK := by
  rw [e5fast] at h
  by_cases hs : a &&& b &&& c &&& d &&& e &&& 0xF000 ≠ 0
  · rw [if_pos hs] at h
    obtain rfl := Option.some.inj h
    exact lookupFlush_bounds _
  · rw [if_neg hs] at h
    exact lookupUnique_bounds _ _ h

theorem e5list_bounds (l : List ℕ) (r : ℕ) (h : e5list l = some r) :
    1 ≤ r ∧ r ≤ WORST_RANK := by
  rcases l with _ | ⟨a, _ | ⟨b, _ | ⟨c, _ | ⟨d, _ | ⟨e, _ | ⟨f, t⟩⟩⟩⟩⟩⟩ <;>
    first
      | exact e5fast_bounds a b c d e r h
      | simp [e5list] at h

theorem foldl_min_one : ∀ (vs : List ℕ), (∀ v ∈ vs, 1 ≤ v) → vs.foldl min 1 = 1
  | [], _ => rfl
  | v :: vs, h => by
    have hv : 1 ≤ v := h v (List.mem_cons_self v vs)
    have h1 : min 1 v = 1 := by omega
    rw [List.foldl_cons, h1]
    exact foldl_min_one vs fun w hw => h w (List.mem_cons_of_mem v hw)

theorem foldl_min_mem : ∀ (vs : List ℕ) (init : ℕ), vs.foldl min init ∈ init :: vs
  | [], init => List.mem_cons_self init []
  | v :: vs, init => by
    have hrec := foldl_min_mem vs (min init v)
    rw [List.foldl_cons]
    rcases List.mem_cons.mp hrec with h | h
    · rw [h]
      rcases Nat.le_total init v with hle | hle
      · rw [Nat.min_eq_left hle]; exact List.mem_cons_self _ _
      · rw [Nat.min_eq_right hle]
        exact List.mem_cons_of_mem _ (List.mem_cons_self _ _)
    · exact List.mem_cons_of_mem _ (List.mem_cons_of_mem _ h)

theorem foldl_min_le : ∀ (vs : List ℕ) (init : ℕ),
    vs.foldl min init ≤ init ∧ ∀ v ∈ vs, vs.foldl min init ≤ v
  | [], init => ⟨Nat.le_refl _, by simp⟩
  | v :: vs, init => by
    obtain ⟨h1, h2⟩ := foldl_min_le vs (min init v)
    refine ⟨?_, ?_⟩
    · rw [List.foldl_cons]; exact le_trans h1 (Nat.min_le_left _ _)
    · intro w hw
      rcases List.mem_cons.mp hw with rfl | hw'
      · rw [List.foldl_cons]; exact le_trans h1 (Nat.min_le_right _ _)
      · rw [List.foldl_cons]; exact h2 w hw'

theorem e7fastAux_foldmin (cs : List ℕ) :
    ∀ (qs : List (ℕ × ℕ × ℕ × ℕ × ℕ)) (vs : List ℕ) (best : ℕ),
      qs.map (fun q => e5list (sel5 cs q)) = vs.map some → 1 ≤ best →
      e7fastAux cs qs best = some (vs.foldl min best) := by
  intro qs
  induction qs with
  | nil =>
    intro vs best h _
    obtain rfl : vs = [] := by cases vs <;> simp_all
    rfl
  | cons q qs ih =>
    intro vs best h hb
    rcases vs with _ | ⟨v, vs⟩
    · simp at h
    · simp only [List.map_cons, List.cons.injEq] at h
      obtain ⟨h1, h2⟩ := h
      rw [e7fastAux, h1]
      have hv1 : 1 ≤ v := (e5list_bounds _ _ h1).1
      show (if v = 1 then some 1
            else e7fastAux cs qs (if v < best then v else best)) =
        some ((v :: vs).foldl min best)
      by_cases he : v = 1
      · subst he
        rw [if_pos rfl, List.foldl_cons]
        have hm1 : min best 1 = 1 := by omega
        have hall : ∀ w ∈ vs, 1 ≤ w := by
          intro w hw
          have hw2 : some w ∈ vs.map some := List.mem_map.mpr ⟨w, hw, rfl⟩
          rw [← h2] at hw2
          obtain ⟨q', _, hq⟩ := List.mem_map.mp hw2
          exact (e5list_bounds _ _ hq).1
        rw [hm1, foldl_min_one vs hall]
      · rw [if_neg he, List.foldl_cons]
        have hrec := ih vs (if v < best then v else best) h2 (by split <;> omega)
        rw [hrec]
        congr 1
        rw [Nat.min_def]
        split <;> split <;> omega

theorem e7handAux_strength (cs : List ℕ) :
    ∀ (qs : List (ℕ × ℕ × ℕ × ℕ × ℕ)) (best : ℕ) (bc : List ℕ),
      (e7handAux cs qs best bc).map Hand.strength = e7fastAux cs qs best := by
  intro qs
  induction qs with
  | nil => intro best bc; rfl
  | cons q qs ih =>
    intro best bc
    rw [e7handAux, e7fastAux]
    cases hq : e5list (sel5 cs q) with
    | none => rfl
    | some r =>
      show (if r = 1 then some (handNew (sel5 cs q) 1)
            else if r < best then e7handAux cs qs r (sel5 cs q)
            else e7handAux cs qs best bc).map Hand.strength =
        (if r = 1 then some 1 else e7fastAux cs qs (if r < best then r else best))
      by_cases hr : r = 1
      · subst hr; rw [if_pos rfl, if_pos rfl]; rfl
      · rw [if_neg hr, if_neg hr]
        by_cases hlt : r < best
        · rw [if_pos hlt, if_pos hlt]; exact ih r (sel5 cs q)
        · rw [if_neg hlt, if_neg hlt]; exact ih best bc

/-- **C2** (refinement_equivalence): whenever each of the 21 fixed
five-from-seven subsets of a seven-card array evaluates under
`evaluate_5cards_fast` to a defined strength (the list `vs`, in
`FIVE_FROM_SEVEN` order), `evaluate_7cards_fast` returns exactly the minimum
of those 21 strengths (an element of `vs` below every other element) — the
early return on a strength of 1 never changes the result, every strength the
tables can produce being at least 1 — and `evaluate_7cards` returns a `Hand`
whose strength is that same minimum. -/
theorem claim_C2_seven_card_min (cs vs : List ℕ)
    (h : FIVE_FROM_SEVEN.map (fun q => e5list (sel5 cs q)) = vs.map some) :
    e7fast cs = some (vs.foldl min 65535) ∧
    vs.length = 21 ∧
    (∀ v ∈ vs, 1 ≤ v ∧ v ≤ WORST_RANK) ∧
    vs.foldl min 65535 ∈ vs ∧
    (∀ v ∈ vs, vs.foldl min 65535 ≤ v) ∧
    (e7hand cs).map Hand.strength = some (vs.foldl min 65535) := by
  have hlen : vs.length = 21 := by
    have hl := congrArg List.length h
    simp only [List.length_map] at hl
    have h21 : FIVE_FROM_SEVEN.length = 21 := rfl
    omega
  have hall : ∀ v ∈ vs, 1 ≤ v ∧ v ≤ WORST_RANK := by
    intro v hv
    have hv2 : some v ∈ vs.map some := List.mem_map.mpr ⟨v, hv, rfl⟩
    rw [← h] at hv2
    obtain ⟨q', _, hq⟩ := List.mem_map.mp hv2
    exact e5list_bounds _ _ hq
  have hfast : e7fast cs = some (vs.foldl min 65535) :=
    e7fastAux_foldmin cs FIVE_FROM_SEVEN vs 65535 h (by omega)
  have hle := foldl_min_le vs 65535
  have hmem : vs.foldl min 65535 ∈ vs := by
    rcases List.mem_cons.mp (foldl_min_mem vs 65535) with heq | hin
    · exfalso
      rcases vs with _ | ⟨v0, vs'⟩
      · simp at hlen
      · have hb := hall v0 (List.mem_cons_self v0 vs')
        have hlev := hle.2 v0 (List.mem_cons_self v0 vs')
        rw [heq] at hlev
        rw [WORST_RANK] at hb
        omega
    · exact hin
  refine ⟨hfast, hlen, hall, hmem, hle.2, ?_⟩
  rw [e7hand, e7handAux_strength]
  exact hfast

set_option maxRecDepth 1000000 in
set_option maxHeartbeats 16000000 in
/-- Witness for C2: seven same-suit cards (ranks Two through Eight, all in
suit 0); every subset takes the flush path, the 21 subset strengths are as
listed, and `evaluate_7cards_fast` returns their minimum, 7. -/
theorem claim_C2_seven_card_min_witness :
    FIVE_FROM_SEVEN.map (fun q => e5list (sel5 [cardNew 0 0, cardNew 1 0,
        cardNew 2 0, cardNew 3 0, cardNew 4 0, cardNew 5 0, cardNew 6 0] q)) =
      ([9, 1599, 1595, 1598, 1594, 1590, 1597, 1593, 1589, 1586, 1596, 1592,
        1588, 1585, 1583, 8, 1591, 1587, 1584, 1582, 7].map some) ∧
    e7fast [cardNew 0 0, cardNew 1 0, cardNew 2 0, cardNew 3 0, cardNew 4 0,
      cardNew 5 0, cardNew 6 0] = some 7 := by
  have h : FIVE_FROM_SEVEN.map (fun q => e5list (sel5 [cardNew 0 0, cardNew 1 0,
      cardNew 2 0, cardNew 3 0, cardNew 4 0, cardNew 5 0, cardNew 6 0] q)) =
      ([9, 1599, 1595, 1598, 1594, 1590, 1597, 1593, 1589, 1586, 1596, 1592,
        1588, 1585, 1583, 8, 1591, 1587, 1584, 1582, 7].map some) := by
    decide
  refine ⟨h, ?_⟩
  rw [(claim_C2_seven_card_min _ _ h).1]
  decide

/-! ## Totality of the five-card fast evaluator on distinct valid cards -/

theorem land_mask5 (a b c d e m : ℕ) :
    a &&& b &&& c &&& d &&& e &&& m =
      (a &&& m) &&& (b &&& m) &&& (c &&& m) &&& (d &&& m) &&& (e &&& m) := by
  apply Nat.eq_of_testBit_eq
  intro i
  simp only [Nat.testBit_and]
  generalize a.testBit i = x0
  generalize b.testBit i = x1
  generalize c.testBit i = x2
  generalize d.testBit i = x3
  generalize e.testBit i = x4
  generalize m.testBit i = x5
  revert x0 x1 x2 x3 x4 x5
  decide

theorem cardNew_mask : ∀ r < 13, ∀ s < 4, cardNew r s &&& 0xF000 = 2 ^ (12 + s) := by
  decide

theorem cardPrime_new : ∀ r < 13, ∀ s < 4, cardPrime (cardNew r s) = primeOf r := by
  decide

theorem suit_and_iff : ∀ s0 ∈ List.range 4, ∀ s1 ∈ List.range 4,
    ∀ s2 ∈ List.range 4, ∀ s3 ∈ List.range 4, ∀ s4 ∈ List.range 4,
    (2 ^ (12 + s0) &&& 2 ^ (12 + s1) &&& 2 ^ (12 + s2) &&& 2 ^ (12 + s3) &&&
        2 ^ (12 + s4) ≠ 0 ↔ s0 = s1 ∧ s0 = s2 ∧ s0 = s3 ∧ s0 = s4) := by
  decide

theorem pairwise2_lt {a b : ℕ} (h : a < b) : List.Pairwise (· < ·) [a, b] := by
  refine List.pairwise_cons.mpr ⟨fun y hy => ?_, List.pairwise_singleton _ _⟩
  simp only [List.mem_cons, List.not_mem_nil, or_false] at hy
  omega

theorem pairwise3_lt {a b c : ℕ} (h1 : a < b) (h2 : b < c) :
    List.Pairwise (· < ·) [a, b, c] := by
  refine List.pairwise_cons.mpr ⟨fun y hy => ?_,
    List.pairwise_cons.mpr ⟨fun y hy => ?_, List.pairwise_singleton _ _⟩⟩ <;>
    · simp only [List.mem_cons, List.not_mem_nil, or_false] at hy
      omega

theorem quadPairs_intro (q k : ℕ) (hq : q < 13) (hk : k < 13) (hne : k ≠ q) :
    (q, k) ∈ quadPairs := by
  rw [quadPairs]
  refine List.mem_flatMap.mpr ⟨q, ?_, ?_⟩
  · rw [List.mem_reverse]; exact List.mem_range.mpr hq
  · refine List.mem_map.mpr ⟨k, List.mem_filter.mpr ⟨?_, by simpa using hne⟩, rfl⟩
    rw [List.mem_reverse]; exact List.mem_range.mpr hk

theorem fhPairs_intro (t p : ℕ) (ht : t < 13) (hp : p < 13) (hne : p ≠ t) :
    (t, p) ∈ fhPairs := by
  rw [fhPairs]
  refine List.mem_flatMap.mpr ⟨t, ?_, ?_⟩
  · rw [List.mem_reverse]; exact List.mem_range.mpr ht
  · refine List.mem_map.mpr ⟨p, List.mem_filter.mpr ⟨?_, by simpa using hne⟩, rfl⟩
    rw [List.mem_reverse]; exact List.mem_range.mpr hp

theorem combo2_intro (x y : ℕ) (hxy : x < y) (hy : y < 13) :
    [x, y] ∈ sortByRevDesc (combinations 13 2) := by
  rw [sortByRevDesc_mem, combinations_eq_lexCombos]
  refine lexCombos_complete 13 2 [x, y] rfl (pairwise2_lt hxy) ?_
  intro z hz
  simp only [List.mem_cons, List.not_mem_nil, or_false] at hz
  omega

theorem combo3_intro (x y z : ℕ) (hxy : x < y) (hyz : y < z) (hz : z < 13) :
    [x, y, z] ∈ sortByRevDesc (combinations 13 3) := by
  rw [sortByRevDesc_mem, combinations_eq_lexCombos]
  refine lexCombos_complete 13 3 [x, y, z] rfl (pairwise3_lt hxy hyz) ?_
  intro w hw
  simp only [List.mem_cons, List.not_mem_nil, or_false] at hw
  omega

theorem tripsPatterns_intro (t k1 k2 : ℕ) (ht : t < 13) (h12 : k1 < k2)
    (hk2 : k2 < 13) (ht1 : t ≠ k1) (ht2 : t ≠ k2) :
    (t, [k1, k2]) ∈ tripsPatterns := by
  rw [tripsPatterns]
  refine List.mem_flatMap.mpr ⟨t, ?_, ?_⟩
  · rw [List.mem_reverse]; exact List.mem_range.mpr ht
  · refine List.mem_map.mpr ⟨[k1, k2], List.mem_filter.mpr
      ⟨combo2_intro k1 k2 h12 hk2, ?_⟩, rfl⟩
    have hnm : t ∉ [k1, k2] := by
      simp only [List.mem_cons, List.not_mem_nil, or_false]
      omega
    simpa using hnm

theorem twoPairPatterns_intro (x y k : ℕ) (hxy : x < y) (hy : y < 13)
    (hk : k < 13) (hkx : k ≠ x) (hky : k ≠ y) :
    ([x, y], k) ∈ twoPairPatterns := by
  rw [twoPairPatterns]
  refine List.mem_flatMap.mpr ⟨[x, y], combo2_intro x y hxy hy, ?_⟩
  refine List.mem_map.mpr ⟨k, List.mem_filter.mpr ⟨?_, ?_⟩, rfl⟩
  · rw [List.mem_reverse]; exact List.mem_range.mpr hk
  · show (decide (k ≠ max (([x, y] : List ℕ).getD 0 0) (([x, y] : List ℕ).getD 1 0)) &&
      decide (k ≠ min (([x, y] : List ℕ).getD 0 0) (([x, y] : List ℕ).getD 1 0))) = true
    have e0 : ([x, y] : List ℕ).getD 0 0 = x := rfl
    have e1 : ([x, y] : List ℕ).getD 1 0 = y := rfl
    rw [e0, e1]
    simp only [Bool.and_eq_true, decide_eq_true_eq]
    omega

theorem onePairPatterns_intro (p k0 k1 k2 : ℕ) (hp : p < 13) (h01 : k0 < k1)
    (h12 : k1 < k2) (hk2 : k2 < 13) (hp0 : p ≠ k0) (hp1 : p ≠ k1) (hp2 : p ≠ k2) :
    (p, [k0, k1, k2]) ∈ onePairPatterns := by
  rw [onePairPatterns]
  refine List.mem_flatMap.mpr ⟨p, ?_, ?_⟩
  · rw [List.mem_reverse]; exact List.mem_range.mpr hp
  · refine List.mem_map.mpr ⟨[k0, k1, k2], List.mem_filter.mpr
      ⟨combo3_intro k0 k1 k2 h01 h12 hk2, ?_⟩, rfl⟩
    have hnm : p ∉ [k0, k1, k2] := by
      simp only [List.mem_cons, List.not_mem_nil, or_false]
      omega
    simpa using hnm

theorem flushCombos_intro (a b c d e : ℕ) (h1 : a < b) (h2 : b < c) (h3 : c < d)
    (h4 : d < e) (he : e < 13) (hns : isStraightPattern [a, b, c, d, e] = false) :
    [a, b, c, d, e] ∈ flushCombos := by
  rw [flushCombos]
  refine List.mem_filter.mpr ⟨?_, by rw [hns]; rfl⟩
  rw [sortByRevDesc_mem, combinations_eq_lexCombos]
  refine lexCombos_complete 13 5 _ rfl (pairwise5_lt h1 h2 h3 h4) ?_
  intro z hz
  simp only [List.mem_cons, List.not_mem_nil, or_false] at hz
  omega

theorem straightPatterns_consec : ∀ a < 9, [a + 4, a + 3, a + 2, a + 1, a] ∈ straightPatterns := by
  decide

theorem msort_id_of_sorted (l : List ℕ) (hs : l.Pairwise (· ≤ ·)) :
    msort (fun x y => decide (x ≤ y)) l = l := by
  refine List.eq_of_perm_of_sorted (msort_perm _ l) ?_ hs
  have hst := msort_sorted (fun x y : ℕ => decide (x ≤ y)) ?_ ?_ l
  · exact hst.imp (by intro x y h; simpa using h)
  · intro x y
    by_cases h : x ≤ y
    · simp [h]
    · simp [h]; omega
  · intro x y z hxy hyz
    simp only [decide_eq_true_eq] at hxy hyz ⊢
    omega

theorem isStraight_false_of (a b c d e : ℕ) (h1 : a < b) (h2 : b < c) (h3 : c < d)
    (h4 : d < e)
    (hnc : ¬(b = a + 1 ∧ c = b + 1 ∧ d = c + 1 ∧ e = d + 1))
    (hnw : ¬(a = 0 ∧ b = 1 ∧ c = 2 ∧ d = 3 ∧ e = 12)) :
    isStraightPattern [a, b, c, d, e] = false := by
  have hms : msort (fun x y => decide (x ≤ y)) [a, b, c, d, e] = [a, b, c, d, e] :=
    msort_id_of_sorted _ ((pairwise5_lt h1 h2 h3 h4).imp Nat.le_of_lt)
  simp only [isStraightPattern, hms]
  rw [if_neg (by simp)]
  rw [if_neg (by intro hq; apply hnw; simpa using hq)]
  rw [Bool.eq_false_iff]
  intro hcc
  apply hnc
  simp only [consecChk, Bool.and_eq_true, decide_eq_true_eq, and_true] at hcc
  exact ⟨hcc.1, hcc.2.1, hcc.2.2.1, hcc.2.2.2⟩

theorem key_quad_mem (q k : ℕ) (hq : q < 13) (hk : k < 13) (hne : k ≠ q) :
    primeOf q ^ 4 * primeOf k ∈ unique5Raw.map Prod.fst := by
  rw [unique5Raw_keys_eq]
  simp only [List.mem_append]
  exact Or.inl (List.mem_map.mpr ⟨(q, k), quadPairs_intro q k hq hk hne, rfl⟩)

theorem key_fh_mem (t p : ℕ) (ht : t < 13) (hp : p < 13) (hne : p ≠ t) :
    primeOf t ^ 3 * primeOf p ^ 2 ∈ unique5Raw.map Prod.fst := by
  rw [unique5Raw_keys_eq]
  simp only [List.mem_append]
  exact Or.inr (Or.inl (List.mem_map.mpr ⟨(t, p), fhPairs_intro t p ht hp hne, rfl⟩))

theorem key_straight_mem (p : List ℕ) (hp : p ∈ straightPatterns) :
    (p.map primeOf).prod ∈ unique5Raw.map Prod.fst := by
  rw [unique5Raw_keys_eq]
  simp only [List.mem_append]
  exact Or.inr (Or.inr (Or.inl (List.mem_map.mpr ⟨p, hp, rfl⟩)))

theorem key_trips_mem (t k1 k2 : ℕ) (ht : t < 13) (h12 : k1 < k2) (hk2 : k2 < 13)
    (ht1 : t ≠ k1) (ht2 : t ≠ k2) :
    primeOf t ^ 3 * primeOf k1 * primeOf k2 ∈ unique5Raw.map Prod.fst := by
  rw [unique5Raw_keys_eq]
  simp only [List.mem_append]
  refine Or.inr (Or.inr (Or.inr (Or.inl (List.mem_map.mpr
    ⟨(t, [k1, k2]), tripsPatterns_intro t k1 k2 ht h12 hk2 ht1 ht2, ?_⟩))))
  show primeOf t ^ 3 * primeOf k1 * primeOf k2 = primeOf t ^ 3 * primeOf k1 * primeOf k2
  rfl

theorem key_twoPair_mem (x y k : ℕ) (hxy : x < y) (hy : y < 13) (hk : k < 13)
    (hkx : k ≠ x) (hky : k ≠ y) :
    primeOf y ^ 2 * primeOf x ^ 2 * primeOf k ∈ unique5Raw.map Prod.fst := by
  rw [unique5Raw_keys_eq]
  simp only [List.mem_append]
  refine Or.inr (Or.inr (Or.inr (Or.inr (Or.inl (List.mem_map.mpr
    ⟨([x, y], k), twoPairPatterns_intro x y k hxy hy hk hkx hky, ?_⟩)))))
  show primeOf (max x y) ^ 2 * primeOf (min x y) ^ 2 * primeOf k =
    primeOf y ^ 2 * primeOf x ^ 2 * primeOf k
  rw [Nat.max_eq_right (Nat.le_of_lt hxy), Nat.min_eq_left (Nat.le_of_lt hxy)]

theorem key_onePair_mem (p k0 k1 k2 : ℕ) (hp : p < 13) (h01 : k0 < k1)
    (h12 : k1 < k2) (hk2 : k2 < 13) (hp0 : p ≠ k0) (hp1 : p ≠ k1) (hp2 : p ≠ k2) :
    primeOf p ^ 2 * primeOf k0 * primeOf k1 * primeOf k2 ∈ unique5Raw.map Prod.fst := by
  rw [unique5Raw_keys_eq]
  simp only [List.mem_append]
  refine Or.inr (Or.inr (Or.inr (Or.inr (Or.inr (Or.inl (List.mem_map.mpr
    ⟨(p, [k0, k1, k2]),
      onePairPatterns_intro p k0 k1 k2 hp h01 h12 hk2 hp0 hp1 hp2, ?_⟩))))))
  show primeOf p ^ 2 * primeOf k0 * primeOf k1 * primeOf k2 =
    primeOf p ^ 2 * primeOf k0 * primeOf k1 * primeOf k2
  rfl

theorem key_high_mem (a b c d e : ℕ) (h1 : a < b) (h2 : b < c) (h3 : c < d)
    (h4 : d < e) (he : e < 13) (hns : isStraightPattern [a, b, c, d, e] = false) :
    (([a, b, c, d, e] : List ℕ).map primeOf).prod ∈ unique5Raw.map Prod.fst := by
  rw [unique5Raw_keys_eq]
  simp only [List.mem_append]
  exact Or.inr (Or.inr (Or.inr (Or.inr (Or.inr (Or.inr (List.mem_map.mpr
    ⟨[a, b, c, d, e], flushCombos_intro a b c d e h1 h2 h3 h4 he hns, rfl⟩))))))

theorem prod5_expand (a b c d e : ℕ) :
    (([a, b, c, d, e] : List ℕ).map primeOf).prod =
      primeOf a * primeOf b * primeOf c * primeOf d * primeOf e := by
  simp only [List.map_cons, List.map_nil, List.prod_cons, List.prod_nil, mul_one]
  ring

theorem prod_mem_keys (a b c d e : ℕ)
    (hab : a ≤ b) (hbc : b ≤ c) (hcd : c ≤ d) (hde : d ≤ e) (he : e < 13)
    (hne5 : ¬(a = b ∧ b = c ∧ c = d ∧ d = e)) :
    primeOf a * primeOf b * primeOf c * primeOf d * primeOf e ∈
      unique5Raw.map Prod.fst := by
  rcases Nat.eq_or_lt_of_le hab with h1 | h1 <;>
    rcases Nat.eq_or_lt_of_le hbc with h2 | h2 <;>
      rcases Nat.eq_or_lt_of_le hcd with h3 | h3 <;>
        rcases Nat.eq_or_lt_of_le hde with h4 | h4
  · exact absurd ⟨h1, h2, h3, h4⟩ hne5
  · -- a = b = c = d < e : quad of a, kicker e
    subst h1; subst h2; subst h3
    have hk := key_quad_mem a e (by omega) he (by omega)
    have heq : primeOf a ^ 4 * primeOf e =
        primeOf a * primeOf a * primeOf a * primeOf a * primeOf e := by ring
    rw [heq] at hk; exact hk
  · -- a = b = c < d = e : full house, trips a pair d
    subst h1; subst h2; subst h4
    have hk := key_fh_mem a d (by omega) (by omega) (by omega)
    have heq : primeOf a ^ 3 * primeOf d ^ 2 =
        primeOf a * primeOf a * primeOf a * primeOf d * primeOf d := by ring
    rw [heq] at hk; exact hk
  · -- a = b = c < d < e : trips a, kickers d e
    subst h1; subst h2
    have hk := key_trips_mem a d e (by omega) h4 he (by omega) (by omega)
    have heq : primeOf a ^ 3 * primeOf d * primeOf e =
        primeOf a * primeOf a * primeOf a * primeOf d * primeOf e := by ring
    rw [heq] at hk; exact hk
  · -- a = b < c = d = e : full house, trips c pair a
    subst h1; subst h3; subst h4
    have hk := key_fh_mem c a (by omega) (by omega) (by omega)
    have heq : primeOf c ^ 3 * primeOf a ^ 2 =
        primeOf a * primeOf a * primeOf c * primeOf c * primeOf c := by ring
    rw [heq] at hk; exact hk
  · -- a = b < c = d < e : two pair a c, kicker e
    subst h1; subst h3
    have hk := key_twoPair_mem a c e h2 (by omega) he (by omega) (by omega)
    have heq : primeOf c ^ 2 * primeOf a ^ 2 * primeOf e =
        primeOf a * primeOf a * primeOf c * primeOf c * primeOf e := by ring
    rw [heq] at hk; exact hk
  · -- a = b < c < d = e : two pair a d, kicker c
    subst h1; subst h4
    have hk := key_twoPair_mem a d c (by omega) (by omega) (by omega) (by omega) (by omega)
    have heq : primeOf d ^ 2 * primeOf a ^ 2 * primeOf c =
        primeOf a * primeOf a * primeOf c * primeOf d * primeOf d := by ring
    rw [heq] at hk; exact hk
  · -- a = b < c < d < e : one pair a, kickers c d e
    subst h1
    have hk := key_onePair_mem a c d e (by omega) h3 h4 he (by omega) (by omega) (by omega)
    have heq : primeOf a ^ 2 * primeOf c * primeOf d * primeOf e =
        primeOf a * primeOf a * primeOf c * primeOf d * primeOf e := by ring
    rw [heq] at hk; exact hk
  · -- a < b = c = d = e : quad of b, kicker a
    subst h2; subst h3; subst h4
    have hk := key_quad_mem b a (by omega) (by omega) (by omega)
    have heq : primeOf b ^ 4 * primeOf a =
        primeOf a * primeOf b * primeOf b * primeOf b * primeOf b := by ring
    rw [heq] at hk; exact hk
  · -- a < b = c = d < e : trips b, kickers a e
    subst h2; subst h3
    have hk := key_trips_mem b a e (by omega) (by omega) he (by omega) (by omega)
    have heq : primeOf b ^ 3 * primeOf a * primeOf e =
        primeOf a * primeOf b * primeOf b * primeOf b * primeOf e := by ring
    rw [heq] at hk; exact hk
  · -- a < b = c < d = e : two pair b d, kicker a
    subst h2; subst h4
    have hk := key_twoPair_mem b d a (by omega) (by omega) (by omega) (by omega) (by omega)
    have heq : primeOf d ^ 2 * primeOf b ^ 2 * primeOf a =
        primeOf a * primeOf b * primeOf b * primeOf d * primeOf d := by ring
    rw [heq] at hk; exact hk
  · -- a < b = c < d < e : one pair b, kickers a d e
    subst h2
    have hk := key_onePair_mem b a d e (by omega) (by omega) h4 he (by omega) (by omega) (by omega)
    have heq : primeOf b ^ 2 * primeOf a * primeOf d * primeOf e =
        primeOf a * primeOf b * primeOf b * primeOf d * primeOf e := by ring
    rw [heq] at hk; exact hk
  · -- a < b < c = d = e : trips c, kickers a b
    subst h3; subst h4
    have hk := key_trips_mem c a b (by omega) h1 (by omega) (by omega) (by omega)
    have heq : primeOf c ^ 3 * primeOf a * primeOf b =
        primeOf a * primeOf b * primeOf c * primeOf c * primeOf c := by ring
    rw [heq] at hk; exact hk
  · -- a < b < c = d < e : one pair c, kickers a b e
    subst h3
    have hk := key_onePair_mem c a b e (by omega) h1 (by omega) he (by omega) (by omega) (by omega)
    have heq : primeOf c ^ 2 * primeOf a * primeOf b * primeOf e =
        primeOf a * primeOf b * primeOf c * primeOf c * primeOf e := by ring
    rw [heq] at hk; exact hk
  · -- a < b < c < d = e : one pair d, kickers a b c
    subst h4
    have hk := key_onePair_mem d a b c (by omega) h1 h2 (by omega) (by omega) (by omega) (by omega)
    have heq : primeOf d ^ 2 * primeOf a * primeOf b * primeOf c =
        primeOf a * primeOf b * primeOf c * primeOf d * primeOf d := by ring
    rw [heq] at hk; exact hk
  · -- a < b < c < d < e : straight or high card
    by_cases hcons : b = a + 1 ∧ c = b + 1 ∧ d = c + 1 ∧ e = d + 1
    · obtain ⟨hb, hc, hd, he'⟩ := hcons
      have ee : e = a + 4 := by omega
      have ed : d = a + 3 := by omega
      have ec : c = a + 2 := by omega
      have eb : b = a + 1 := by omega
      subst ee; subst ed; subst ec; subst eb
      have hk := key_straight_mem [a + 4, a + 3, a + 2, a + 1, a]
        (straightPatterns_consec a (by omega))
      rw [prod5_expand] at hk
      have heq : primeOf (a + 4) * primeOf (a + 3) * primeOf (a + 2) *
          primeOf (a + 1) * primeOf a =
          primeOf a * primeOf (a + 1) * primeOf (a + 2) * primeOf (a + 3) *
            primeOf (a + 4) := by ring
      rw [heq] at hk; exact hk
    · by_cases hwheel : a = 0 ∧ b = 1 ∧ c = 2 ∧ d = 3 ∧ e = 12
      · obtain ⟨rfl, rfl, rfl, rfl, rfl⟩ := hwheel
        have hk := key_straight_mem [12, 3, 2, 1, 0] (by decide)
        rw [prod5_expand] at hk
        have heq : primeOf 12 * primeOf 3 * primeOf 2 * primeOf 1 * primeOf 0 =
            primeOf 0 * primeOf 1 * primeOf 2 * primeOf 3 * primeOf 12 := by ring
        rw [heq] at hk; exact hk
      · have hns := isStraight_false_of a b c d e h1 h2 h3 h4 hcons hwheel
        have hk := key_high_mem a b c d e h1 h2 h3 h4 he hns
        rw [prod5_expand] at hk
        exact hk

theorem bsearchGo_finds (l : List (ℕ × ℕ)) (key : ℕ)
    (hsort : ∀ i j : ℕ, j < l.length → i ≤ j →
      (l.getD i (0, 0)).1 ≤ (l.getD j (0, 0)).1) :
    ∀ (fuel lo hi : ℕ), hi ≤ l.length → hi - lo ≤ fuel →
      (∃ i, lo ≤ i ∧ i < hi ∧ (l.getD i (0, 0)).1 = key) →
      (bsearchGo l key fuel lo hi).isSome = true := by
  intro fuel
  induction fuel with
  | zero =>
    intro lo hi _ hfuel ⟨i, hlo2, hhi2, _⟩
    exfalso; omega
  | succ fuel ih =>
    intro lo hi hhi hfuel ⟨i, hlo2, hhi2, hkey⟩
    have hlt : lo < hi := by omega
    simp only [bsearchGo]
    rw [if_pos hlt]
    cases hcmp : compare (l.getD ((lo + hi) / 2) (0, 0)).1 key with
    | eq => rfl
    | lt =>
      have hv : (l.getD ((lo + hi) / 2) (0, 0)).1 < key := Nat.compare_eq_lt.mp hcmp
      have hmidlt : (lo + hi) / 2 < i := by
        by_contra hle
        push_neg at hle
        have hle2 := hsort i ((lo + hi) / 2) (by omega) hle
        omega
      exact ih ((lo + hi) / 2 + 1) hi hhi (by omega) ⟨i, by omega, hhi2, hkey⟩
    | gt =>
      have hv : key < (l.getD ((lo + hi) / 2) (0, 0)).1 := Nat.compare_eq_gt.mp hcmp
      have hmidgt : i < (lo + hi) / 2 := by
        by_contra hle
        push_neg at hle
        have hle2 := hsort ((lo + hi) / 2) i (by omega) hle
        omega
      exact ih lo ((lo + hi) / 2) (by omega) (by omega) ⟨i, hlo2, hmidgt, hkey⟩

theorem unique5_sorted_getD : ∀ i j : ℕ, j < unique5.length → i ≤ j →
    (unique5.getD i (0, 0)).1 ≤ (unique5.getD j (0, 0)).1 := by
  have hs : unique5.Pairwise (fun p q => p.1 ≤ q.1) := by
    rw [unique5]
    have hst := msort_sorted (fun p q : ℕ × ℕ => decide (p.1 ≤ q.1)) ?_ ?_ unique5Raw
    · exact hst.imp (by intro x y h; simpa using h)
    · intro x y
      by_cases h : x.1 ≤ y.1
      · simp [h]
      · simp [h]; omega
    · intro x y z hxy hyz
      simp only [decide_eq_true_eq] at hxy hyz ⊢
      omega
  intro i j hj hij
  rcases Nat.eq_or_lt_of_le hij with rfl | hlt
  · exact Nat.le_refl _
  · rw [List.getD_eq_getElem _ _ (by omega), List.getD_eq_getElem _ _ hj]
    exact List.pairwise_iff_getElem.mp hs i j (by omega) hj hlt

theorem lookupUnique_finds (key : ℕ) (hk : key ∈ unique5Raw.map Prod.fst) :
    (lookupUnique key).isSome = true := by
  have hk5 : key ∈ unique5.map Prod.fst := by
    have hperm : List.Perm (unique5.map Prod.fst) (unique5Raw.map Prod.fst) := by
      rw [unique5]
      exact (msort_perm _ unique5Raw).map Prod.fst
    exact hperm.mem_iff.mpr hk
  obtain ⟨p, hp, rfl⟩ := List.mem_map.mp hk5
  obtain ⟨idx, hidx, rfl⟩ := List.mem_iff_getElem.mp hp
  delta lookupUnique
  refine bsearchGo_finds unique5 (unique5[idx].1) unique5_sorted_getD
    (myLength unique5 + 1) 0 (myLength unique5)
    (by rw [myLength_eq]) (by omega) ⟨idx, by omega, by rw [myLength_eq]; exact hidx, ?_⟩
  rw [List.getD_eq_getElem _ _ hidx]

theorem msort_nat_sorted (l : List ℕ) :
    (msort (fun x y => decide (x ≤ y)) l).Pairwise (· ≤ ·) := by
  have hst := msort_sorted (fun x y : ℕ => decide (x ≤ y)) ?_ ?_ l
  · exact hst.imp (by intro x y h; simpa using h)
  · intro x y
    by_cases h : x ≤ y
    · simp [h]
    · simp [h]; omega
  · intro x y z hxy hyz
    simp only [decide_eq_true_eq] at hxy hyz ⊢
    omega

/-- **C3** (safety): for five cards built from in-range ranks and suits with
pairwise-distinct (rank, suit) pairs, `evaluate_5cards_fast` takes the flush
branch (the AND of the raw card words with `0xF000` is non-zero) exactly when
the five suits coincide; when they do not, the binary search on the product of
the five card primes finds an entry of the non-flush table, so the panic on a
missing prime product is unreachable; in both branches the evaluation is
defined. -/
theorem claim_C3_five_card_safety
    (r0 s0 r1 s1 r2 s2 r3 s3 r4 s4 : ℕ)
    (hr0 : r0 < 13) (hr1 : r1 < 13) (hr2 : r2 < 13) (hr3 : r3 < 13) (hr4 : r4 < 13)
    (hs0 : s0 < 4) (hs1 : s1 < 4) (hs2 : s2 < 4) (hs3 : s3 < 4) (hs4 : s4 < 4)
    (hd : List.Nodup [(r0, s0), (r1, s1), (r2, s2), (r3, s3), (r4, s4)]) :
    (cardNew r0 s0 &&& cardNew r1 s1 &&& cardNew r2 s2 &&& cardNew r3 s3 &&&
        cardNew r4 s4 &&& 0xF000 ≠ 0 ↔ s0 = s1 ∧ s0 = s2 ∧ s0 = s3 ∧ s0 = s4) ∧
    (¬(s0 = s1 ∧ s0 = s2 ∧ s0 = s3 ∧ s0 = s4) →
      (lookupUnique (cardPrime (cardNew r0 s0) * cardPrime (cardNew r1 s1) *
        cardPrime (cardNew r2 s2) * cardPrime (cardNew r3 s3) *
        cardPrime (cardNew r4 s4))).isSome = true) ∧
    (e5fast (cardNew r0 s0) (cardNew r1 s1) (cardNew r2 s2) (cardNew r3 s3)
        (cardNew r4 s4)).isSome = true := by
  have hmand : cardNew r0 s0 &&& cardNew r1 s1 &&& cardNew r2 s2 &&& cardNew r3 s3 &&&
      cardNew r4 s4 &&& 0xF000 =
      2 ^ (12 + s0) &&& 2 ^ (12 + s1) &&& 2 ^ (12 + s2) &&& 2 ^ (12 + s3) &&&
        2 ^ (12 + s4) := by
    rw [land_mask5, cardNew_mask r0 hr0 s0 hs0, cardNew_mask r1 hr1 s1 hs1,
      cardNew_mask r2 hr2 s2 hs2, cardNew_mask r3 hr3 s3 hs3, cardNew_mask r4 hr4 s4 hs4]
  have hkey : (lookupUnique (cardPrime (cardNew r0 s0) * cardPrime (cardNew r1 s1) *
      cardPrime (cardNew r2 s2) * cardPrime (cardNew r3 s3) *
      cardPrime (cardNew r4 s4))).isSome = true := by
    rw [cardPrime_new r0 hr0 s0 hs0, cardPrime_new r1 hr1 s1 hs1,
      cardPrime_new r2 hr2 s2 hs2, cardPrime_new r3 hr3 s3 hs3,
      cardPrime_new r4 hr4 s4 hs4]
    apply lookupUnique_finds
    obtain ⟨m5, hm5⟩ : ∃ m5, msort (fun x y => decide (x ≤ y)) [r0, r1, r2, r3, r4] = m5 :=
      ⟨_, rfl⟩
    have hperm : List.Perm m5 [r0, r1, r2, r3, r4] := by
      rw [← hm5]; exact msort_perm _ _
    have hsorted : m5.Pairwise (· ≤ ·) := by
      rw [← hm5]; exact msort_nat_sorted _
    have hlen : m5.length = 5 := by rw [hperm.length_eq]; rfl
    rcases m5 with _ | ⟨a, _ | ⟨b, _ | ⟨c, _ | ⟨d, _ | ⟨e, _ | ⟨f, t⟩⟩⟩⟩⟩⟩ <;>
      simp at hlen
    have hsub : ∀ x ∈ [a, b, c, d, e], x < 13 := by
      intro x hx
      have hx2 : x ∈ [r0, r1, r2, r3, r4] := hperm.subset hx
      simp only [List.mem_cons, List.not_mem_nil, or_false] at hx2
      rcases hx2 with rfl | rfl | rfl | rfl | rfl <;> omega
    simp only [List.pairwise_cons, List.mem_cons, List.not_mem_nil, or_false,
      forall_eq_or_imp, forall_eq] at hsorted
    obtain ⟨⟨hab, _, _, _⟩, ⟨hbc, _, _⟩, ⟨hcd, _⟩, hde, _⟩ := hsorted
    have hne5 : ¬(a = b ∧ b = c ∧ c = d ∧ d = e) := by
      rintro ⟨rfl, rfl, rfl, rfl⟩
      have hr : ∀ x ∈ [r0, r1, r2, r3, r4], x = a := by
        intro x hx
        simpa using hperm.mem_iff.mpr hx
      have e0 : r0 = a := hr r0 (by simp)
      have e1 : r1 = a := hr r1 (by simp)
      have e2 : r2 = a := hr r2 (by simp)
      have e3 : r3 = a := hr r3 (by simp)
      have e4 : r4 = a := hr r4 (by simp)
      subst e0; subst e1; subst e2; subst e3; subst e4
      simp only [List.nodup_cons, List.mem_cons, List.not_mem_nil, or_false,
        Prod.mk.injEq, not_or, true_and, List.nodup_nil, and_true] at hd
      omega
    have hpp : primeOf r0 * primeOf r1 * primeOf r2 * primeOf r3 * primeOf r4 =
        primeOf a * primeOf b * primeOf c * primeOf d * primeOf e := by
      have hpm : List.Perm (([a, b, c, d, e] : List ℕ).map primeOf)
          (([r0, r1, r2, r3, r4] : List ℕ).map primeOf) := hperm.map primeOf
      have hpe := hpm.prod_eq
      rw [prod5_expand, prod5_expand] at hpe
      exact hpe.symm
    rw [hpp]
    exact prod_mem_keys a b c d e hab hbc hcd hde (hsub e (by simp)) hne5
  refine ⟨?_, fun _ => hkey, ?_⟩
  · rw [hmand]
    exact suit_and_iff s0 (List.mem_range.mpr hs0) s1 (List.mem_range.mpr hs1)
      s2 (List.mem_range.mpr hs2) s3 (List.mem_range.mpr hs3) s4 (List.mem_range.mpr hs4)
  · rw [e5fast]
    by_cases hflush : cardNew r0 s0 &&& cardNew r1 s1 &&& cardNew r2 s2 &&&
        cardNew r3 s3 &&& cardNew r4 s4 &&& 0xF000 ≠ 0
    · rw [if_pos hflush]; rfl
    · rw [if_neg hflush]; exact hkey

/-- Witness for C3 at the five cards Two/Three of suit 0 and Four/Five/Seven
of suit 1: the hypotheses are discharged by computation and the theorem yields
definedness of the five-card evaluation. -/
theorem claim_C3_five_card_safety_witness :
    List.Nodup [((0 : ℕ), (0 : ℕ)), (1, 0), (2, 1), (3, 1), (5, 1)] ∧
    (e5fast (cardNew 0 0) (cardNew 1 0) (cardNew 2 1) (cardNew 3 1)
        (cardNew 5 1)).isSome = true :=
  ⟨by decide,
    (claim_C3_five_card_safety 0 0 1 0 2 1 3 1 5 1 (by decide) (by decide) (by decide)
      (by decide) (by decide) (by decide) (by decide) (by decide) (by decide) (by decide)
      (by decide)).2.2⟩

/-! ## Claims on hands, classification, calculators and cards -/

/-- C10: for a board of exactly one or two cards — sizes the wildcard arm of
`calculate` handles — the exhaustive calculator returns the all-zero
`EquityResult` (zero counts, zero rates, zero samples) for every opponent
count, without failing. -/
theorem claim_C10_short_board (hole : ℕ × ℕ) (board : List ℕ) (n : ℕ)
    (h : board.length = 1 ∨ board.length = 2) :
    exhCalculate hole board n = some ⟨0, 0, 0, 0, 0⟩ := by
  unfold exhCalculate
  rcases h with h | h <;> rw [h] <;> rfl

/-- Witness for C10: a concrete one-card board with two opponents. -/
theorem claim_C10_short_board_witness :
    (([cardNew 2 0] : List ℕ).length = 1 ∨ ([cardNew 2 0] : List ℕ).length = 2) ∧
    exhCalculate (cardNew 0 0, cardNew 1 1) [cardNew 2 0] 2 = some ⟨0, 0, 0, 0, 0⟩ :=
  ⟨Or.inl (by decide),
    claim_C10_short_board (cardNew 0 0, cardNew 1 1) [cardNew 2 0] 2 (Or.inl (by decide))⟩

/-- C4 (corrected): the manual `Ord`/`PartialOrd` on `Hand` and `Hand::ties`
are determined solely by the strength field, with lower strength the greater
hand; but the derived `PartialEq`/`Eq` compares all fields, so two hands of
equal strength with different cards are NOT `==`-equal (the source derives
`PartialEq` rather than defining it by strength). -/
theorem claim_C4_hand_order :
    (∀ h1 h2 : Hand, handCmp h1 h2 = compare h2.strength h1.strength) ∧
    (∀ h1 h2 : Hand, handTies h1 h2 ↔ h1.strength = h2.strength) ∧
    (∀ h1 h2 : Hand, h1.strength < h2.strength → handCmp h1 h2 = Ordering.gt) ∧
    (∃ h1 h2 : Hand, h1.strength = h2.strength ∧ ¬ handEqDerived h1 h2) := by
  refine ⟨fun h1 h2 => rfl, fun h1 h2 => Iff.rfl, ?_, ?_⟩
  · intro h1 h2 hlt
    rw [handCmp, Nat.compare_eq_gt]
    exact hlt
  · exact ⟨handNew [1] 5, handNew [2] 5, rfl, by decide⟩

/-- Witness for C4: the ordering clause at two concrete hands. -/
theorem claim_C4_hand_order_witness :
    (handNew [1] 5).strength < (handNew [2] 9).strength ∧
    handCmp (handNew [1] 5) (handNew [2] 9) = Ordering.gt :=
  ⟨by decide, claim_C4_hand_order.2.2.1 (handNew [1] 5) (handNew [2] 9) (by decide)⟩

/-- Counterexample for C4 as literally stated: two hands of equal strength
and different cards that the derived equality distinguishes, while the
ordering compares them equal. -/
theorem claim_C4_hand_eq_counterexample :
    ∃ h1 h2 : Hand, h1.strength = h2.strength ∧ handCmp h1 h2 = Ordering.eq ∧
      ¬ handEqDerived h1 h2 :=
  ⟨handNew [1] 5, handNew [2] 5, rfl, rfl, by decide⟩

/-- C8: `Card::from_index` and `Card::index` form a round trip on the 52
cards; `from_index` maps each index below 52 to the card with that
rank/suit pair (injectively), and returns `None` on every index at least
52. -/
theorem claim_C8_card_roundtrip :
    (∀ c ∈ allCards, fromIndex (cardIndex c) = some c) ∧
    allCards.length = 52 ∧
    (∀ i, i < 52 → fromIndex i = some (cardNew (i / 4) (i % 4))) ∧
    (∀ i, i < 52 → ∀ j, j < 52 → i ≠ j → fromIndex i ≠ fromIndex j) ∧
    (∀ r, r < 13 → ∀ s, s < 4 → cardIndex (cardNew r s) = r * 4 + s) ∧
    (∀ i, 52 ≤ i → fromIndex i = none) := by
  refine ⟨by decide, by decide, by decide, by decide, by decide, ?_⟩
  intro i hi
  have h4 : ¬ (i / 4 < 13) := by omega
  simp [fromIndex, h4]

/-- Witness for C8: the round trip and the out-of-range arm at concrete
indices. -/
theorem claim_C8_card_roundtrip_witness :
    (51 < 52 ∧ fromIndex 51 = some (cardNew (51 / 4) (51 % 4))) ∧
    (52 ≤ 60 ∧ fromIndex 60 = none) :=
  ⟨⟨by decide, claim_C8_card_roundtrip.2.2.1 51 (by decide)⟩,
    ⟨by decide, claim_C8_card_roundtrip.2.2.2.2.2 60 (by decide)⟩⟩

/-- C7: the Monte-Carlo calculator is deterministic — it is a pure function
of the hole cards, board, opponent count and sample count, the pseudo-random
sequence being an LCG seeded only from the hash of the hero's two hole-card
indices and the board length (the hasher `h` models the standard library's
`DefaultHasher`, fixed across calls): two calls with identical inputs agree,
the result factors through the seed, and any hasher agreeing on that one
seed value yields the identical result (no other input reaches the
generator). -/
theorem claim_C7_mc_deterministic (h : List ℕ → ℕ) (hole : ℕ × ℕ)
    (board : List ℕ) (n samples : ℕ) :
    mcCalculateSampled h hole board n samples = mcCalculateSampled h hole board n samples ∧
    mcCalculateSampled h hole board n samples =
      mcSimulateSeeded (h [cardIndex hole.1, cardIndex hole.2, board.length])
        hole board (deckExcluding ([hole.1, hole.2] ++ board)) n
        (5 - board.length) samples ∧
    (∀ h2 : List ℕ → ℕ,
      h [cardIndex hole.1, cardIndex hole.2, board.length] =
        h2 [cardIndex hole.1, cardIndex hole.2, board.length] →
      mcCalculateSampled h hole board n samples =
        mcCalculateSampled h2 hole board n samples) := by
  refine ⟨rfl, rfl, ?_⟩
  intro h2 he
  unfold mcCalculateSampled mcSimulate
  rw [he]

/-- Witness for C7: the hasher-agreement clause applied to two literal
hashers that agree on the seed input. -/
theorem claim_C7_mc_deterministic_witness :
    ((fun l : List ℕ => l.foldl (· + ·) 0) [cardIndex (cardNew 0 0),
        cardIndex (cardNew 1 1), ([] : List ℕ).length] =
      (fun l : List ℕ => l.foldl (· + ·) 0 + 0) [cardIndex (cardNew 0 0),
        cardIndex (cardNew 1 1), ([] : List ℕ).length]) ∧
    mcCalculateSampled (fun l => l.foldl (· + ·) 0) (cardNew 0 0, cardNew 1 1) [] 1 0 =
      mcCalculateSampled (fun l => l.foldl (· + ·) 0 + 0) (cardNew 0 0, cardNew 1 1) [] 1 0 :=
  ⟨rfl, (claim_C7_mc_deterministic (fun l => l.foldl (· + ·) 0)
    (cardNew 0 0, cardNew 1 1) [] 1 0).2.2 (fun l => l.foldl (· + ·) 0 + 0) rfl⟩

theorem enumMultiway_many (hole : ℕ × ℕ) (board : List ℕ) (cards : List ℕ)
    (n : ℕ) (hn : 3 < n) : enumMultiway hole board cards n = some (0, 0, 0) := by
  rw [enumMultiway, if_pos hn]

theorem foldl_enumMultiway_zero {α : Type} (hole : ℕ × ℕ) (n : ℕ) (hn : 3 < n)
    (g : α → List ℕ) (gb : α → List ℕ) :
    ∀ (l : List α) (a : ℕ × ℕ × ℕ),
      l.foldl
        (fun acc r =>
          match acc with
          | none => none
          | some a =>
            match enumMultiway hole (gb r) (g r) n with
            | none => none
            | some d => some (a.1 + d.1, a.2.1 + d.2.1, a.2.2 + d.2.2))
        (some a) = some a := by
  intro l
  induction l with
  | nil => intro a; rfl
  | cons r rest ih =>
    intro a
    rw [List.foldl_cons]
    have he := enumMultiway_many hole (gb r) (g r) n hn
    simp only [he, Nat.add_zero]
    exact ih a

/-- C6: neither calculator fails on infeasible inputs; each returns the
all-zero, zero-sample `EquityResult`: the exhaustive river path (whose hero
evaluation precedes the branch) with more than three opponents, the turn and
flop paths with more than three opponents (the multiway enumerator's guard
runs before any evaluation), the preflop path with more than one opponent,
and the Monte-Carlo simulation whenever the remaining deck has fewer than
`cards_to_deal + 2 * num_opponents` cards. -/
theorem claim_C6_zero_results :
    (∀ hole board cards n hs, 3 < n →
      e7fast (combineWithBoard hole board) = some hs →
      calcRiver hole board cards n = some ⟨0, 0, 0, 0, 0⟩) ∧
    (∀ hole board cards n, 3 < n → calcTurn hole board cards n = some ⟨0, 0, 0, 0, 0⟩) ∧
    (∀ hole board cards n, 3 < n → calcFlop hole board cards n = some ⟨0, 0, 0, 0, 0⟩) ∧
    (∀ hole cards n, 1 < n → calcPreflop hole cards n = some ⟨0, 0, 0, 0, 0⟩) ∧
    (∀ seed hole boardCards cards n cd its, cards.length < cd + 2 * n →
      mcSimulateSeeded seed hole boardCards cards n cd its = some ⟨0, 0, 0, 0, 0⟩) := by
  refine ⟨?_, ?_, ?_, ?_, ?_⟩
  · intro hole board cards n hs hn hhs
    rw [calcRiver, hhs]
    have h1 : ¬ n = 1 := by omega
    simp only [h1, if_false, enumMultiway_many hole board cards n hn]
    rfl
  · intro hole board cards n hn
    rw [calcTurn, if_neg (by omega),
      foldl_enumMultiway_zero hole n hn (fun r => removeIdx cards r)
        (fun r => board ++ [cards.getD r 0]) (List.range cards.length) (0, 0, 0)]
    rfl
  · intro hole board cards n hn
    rw [calcFlop, if_neg (by omega),
      foldl_enumMultiway_zero hole n hn
        (fun tr : ℕ × ℕ => removeIdx (removeIdx cards tr.2) tr.1)
        (fun tr : ℕ × ℕ => board ++ [cards.getD tr.1 0, cards.getD tr.2 0])
        (idxPairs cards.length []) (0, 0, 0)]
    rfl
  · intro hole cards n hn
    rw [calcPreflop, if_neg (by omega)]
    rfl
  · intro seed hole boardCards cards n cd its hlt
    show (if cards.length < cd + 2 * n then some (fromCounts 0 0 0 n)
      else (mcIterate hole boardCards cards cd n (cd + 2 * n) its seed (0, 0, 0)).map
        fun c => fromCounts c.1 c.2.1 c.2.2 n) = some ⟨0, 0, 0, 0, 0⟩
    rw [if_pos hlt]
    rfl

/-- Witness for C6: the turn clause at a concrete board and four opponents. -/
theorem claim_C6_zero_results_witness :
    (3 < 4) ∧ calcTurn (cardNew 0 0, cardNew 1 1)
      [cardNew 2 0, cardNew 3 0, cardNew 4 0, cardNew 5 0] [cardNew 6 0] 4 =
      some ⟨0, 0, 0, 0, 0⟩ :=
  ⟨by decide, claim_C6_zero_results.2.1 (cardNew 0 0, cardNew 1 1)
    [cardNew 2 0, cardNew 3 0, cardNew 4 0, cardNew 5 0] [cardNew 6 0] 4 (by decide)⟩

theorem mcOppLoopE_eval : ∀ (ss : List ℕ) (hero : ℕ) (anyTie : Bool),
    (mcOppLoopE (ss.map some) hero anyTie).map (fun p => mcFlagsOutcome p.1 p.2) =
      some (if ss.any (fun s => decide (s < hero)) then Outcome.loss
            else if ss.any (fun s => decide (s = hero)) || anyTie then Outcome.tie
            else Outcome.win) := by
  intro ss
  induction ss with
  | nil =>
    intro hero anyTie
    cases anyTie <;> rfl
  | cons s rest ih =>
    intro hero anyTie
    rw [List.map_cons]
    have hstep : mcOppLoopE (some s :: rest.map some) hero anyTie
        = if s < hero then some (false, anyTie)
          else if s = hero then mcOppLoopE (rest.map some) hero true
          else mcOppLoopE (rest.map some) hero anyTie := rfl
    rcases Nat.lt_trichotomy s hero with hlt | heq | hgt
    · rw [hstep, if_pos hlt]
      simp [List.any_cons, hlt, mcFlagsOutcome]
    · subst heq
      rw [hstep, if_neg (lt_irrefl s), if_pos rfl, ih s true]
      simp [List.any_cons, lt_irrefl]
    · rw [hstep, if_neg (by omega), if_neg (by omega), ih hero anyTie]
      simp [List.any_cons, show ¬ (s < hero) from by omega,
        show ¬ (s = hero) from by omega]

theorem specMin_cases : ∀ (rest : List ℕ) (hero first : ℕ),
    specMinClassify hero first rest =
      if (first :: rest).any (fun s => decide (s < hero)) then Outcome.loss
      else if (first :: rest).any (fun s => decide (s = hero)) then Outcome.tie
      else Outcome.win := by
  intro rest
  induction rest with
  | nil =>
    intro hero first
    rw [specMinClassify]
    simp only [List.foldl_nil]
    rcases Nat.lt_trichotomy hero first with h | h | h
    · rw [show compare hero first = Ordering.lt from by
        rw [Nat.compare_eq_lt]; exact h]
      simp [outcomeOfOrd, List.any_cons, show ¬ (first < hero) from by omega,
        show ¬ (first = hero) from by omega]
    · subst h
      rw [show compare hero hero = Ordering.eq from by rw [Nat.compare_eq_eq]]
      simp [outcomeOfOrd, List.any_cons, lt_irrefl]
    · rw [show compare hero first = Ordering.gt from by
        rw [Nat.compare_eq_gt]; exact h]
      simp [outcomeOfOrd, List.any_cons, h]
  | cons s rest ih =>
    intro hero first
    have hfold : specMinClassify hero first (s :: rest)
        = specMinClassify hero (min first s) rest := rfl
    rw [hfold, ih hero (min first s)]
    rcases le_total first s with hmin | hmin
    · rw [min_eq_left hmin]
      rcases Nat.lt_trichotomy first hero with h | h | h
      · simp [List.any_cons, h]
      · subst h
        simp [List.any_cons, lt_irrefl, show ¬ (s < first) from by omega]
      · simp [List.any_cons, show ¬ (first < hero) from by omega,
          show ¬ (first = hero) from by omega, show ¬ (s < hero) from by omega,
          show ¬ (s = hero) from by omega]
    · rw [min_eq_right hmin]
      rcases Nat.lt_trichotomy s hero with h | h | h
      · simp [List.any_cons, h]
      · subst h
        simp [List.any_cons, lt_irrefl, show ¬ (first < s) from by omega]
      · simp [List.any_cons, show ¬ (first < hero) from by omega,
          show ¬ (first = hero) from by omega, show ¬ (s < hero) from by omega,
          show ¬ (s = hero) from by omega]

/-- C5: every enumerated or simulated scenario is classified by comparing
the hero's strength with the minimum of the opponents' strengths — smaller
wins, equal ties, greater loses: the two- and three-opponent exhaustive
classifiers and the single-opponent comparison all equal the spec's
minimum rule, the Monte-Carlo iteration loop produces exactly the same
classification, and that loop stops at the first strictly better opponent
(later entries — even ones whose evaluation would panic — are never
examined). -/
theorem claim_C5_min_classification :
    (∀ hero s1 s2 : ℕ, exhClassify2 hero s1 s2 = specMinClassify hero s1 [s2]) ∧
    (∀ hero s1 s2 s3 : ℕ,
      exhClassify3 hero s1 s2 s3 = specMinClassify hero s1 [s2, s3]) ∧
    (∀ hero s : ℕ, outcomeOfOrd (compare hero s) = specMinClassify hero s []) ∧
    (∀ hero first : ℕ, ∀ rest : List ℕ,
      mcIterClassify hero first rest = some (specMinClassify hero first rest)) ∧
    (∀ (hero : ℕ) (anyTie : Bool) (s : ℕ) (later : List (Option ℕ)), s < hero →
      mcOppLoopE (some s :: later) hero anyTie = some (false, anyTie)) := by
  refine ⟨fun hero s1 s2 => rfl, fun hero s1 s2 s3 => rfl, fun hero s => rfl, ?_, ?_⟩
  · intro hero first rest
    rw [mcIterClassify, show (first :: rest).map some = (first :: rest).map some from rfl,
      mcOppLoopE_eval (first :: rest) hero false, specMin_cases rest hero first]
    simp
  · intro hero anyTie s later hlt
    have hstep : mcOppLoopE (some s :: later) hero anyTie
        = if s < hero then some (false, anyTie)
          else if s = hero then mcOppLoopE later hero true
          else mcOppLoopE later hero anyTie := rfl
    rw [hstep, if_pos hlt]

/-- Witness for C5: the short-circuit clause with a panicking entry after
the strictly better opponent. -/
theorem claim_C5_min_classification_witness :
    (3 < 7) ∧ mcOppLoopE [some 3, none] 7 false = some (false, false) :=
  ⟨by decide, claim_C5_min_classification.2.2.2.2 7 false 3 [none] (by decide)⟩
